import Mathlib

/-! A model of `vector<T>` (src/vector.h).

The container is a triple `data_ / size_ / capacity_` over a heap of buffers.
The heap, the counters of element operations and the log of slot events form
the `World`; every member function of the source is a function on the world
and on the fields of the vector object.

* Pointers are natural numbers, `0` is `nullptr`.  A buffer is a list of
  slots; a slot is `some x` (a live object with value `x`) or `none` (raw
  storage).
* `size_t` is modelled by `Nat`, with the wrap written out where the source can
  reach it: the byte count `size * sizeof(T)` that `allocate` hands to
  `operator new` is taken modulo `2 ^ 64`, for the caller of `reserve` chooses
  `size`. `size_` and `capacity_` of a vector that holds its elements count
  objects that are resident in memory (`Holds` records that the buffer takes
  fewer than `2 ^ 64` bytes), so the other arithmetic of the source does not
  wrap on such a state.
* The element type may fail: the `n`-th invocation of its copy constructor
  throws when `Faults.copy n`, the `n`-th invocation of its assignment
  throws when `Faults.assign n`, and the `n`-th call of `operator new`
  throws when `Faults.alloc n`.
* An outcome is `ok`, `thrown` (an exception leaves the function) or
  `undefined` (the call broke a precondition of the language: it read or
  wrote a slot that does not hold what the operation needs).
-/

/-- Outcome of a call. -/
inductive Res (α : Type) where
  | ok (a : α)
  | thrown
  | undefined
deriving DecidableEq, Repr

/-- Events on buffers and their slots, in the order they happen. -/
inductive Event where
  | alloc (p : Nat) (n : Nat)
  | free (p : Nat)
  | construct (p : Nat) (i : Nat)
  | destroy (p : Nat) (i : Nat)
deriving DecidableEq, Repr

/-- The event is the construction of an element in a slot. -/
def Event.isConstruct : Event → Bool
  | Event.construct _ _ => true
  | _ => false

/-- The event is the destruction of the element in a slot. -/
def Event.isDestroy : Event → Bool
  | Event.destroy _ _ => true
  | _ => false

/-- Fault schedule of the element type and of the allocator. `residue n old src`
is the value a target is left with when the `n`-th assignment throws. -/
structure Faults (T : Type) where
  copy : Nat → Bool
  assign : Nat → Bool
  alloc : Nat → Bool
  residue : Nat → T → T → T

/-- The schedule under which nothing ever throws. -/
def Faults.none (T : Type) : Faults T :=
  ⟨fun _ => false, fun _ => false, fun _ => false, fun _ old _ => old⟩

/-- Heap, counters and event log. `top` is the largest address handed out. -/
structure World (T : Type) where
  heap : Nat → Option (List (Option T))
  top : Nat
  copies : Nat
  assigns : Nat
  allocs : Nat
  log : List Event

/-- The schedule under which only the `k`-th invocation (counting from 0) of
the copy constructor throws. -/
def Faults.copyAt (T : Type) (k : Nat) : Faults T :=
  ⟨fun n => n == k, fun _ => false, fun _ => false, fun _ old _ => old⟩

/-- The schedule under which only the `k`-th invocation (counting from 0) of
the assignment throws, leaving its target with the value `junk`. -/
def Faults.assignAt (T : Type) (k : Nat) (junk : T) : Faults T :=
  ⟨fun _ => false, fun n => n == k, fun _ => false, fun _ _ _ => junk⟩

/-- A world with nothing allocated. -/
def World.init (T : Type) : World T :=
  ⟨fun _ => Option.none, 0, 0, 0, 0, []⟩

/-- Replace the buffer stored at address `p`. -/
def World.store {T : Type} (w : World T) (p : Nat) (b : Option (List (Option T))) : World T :=
  { w with heap := fun a => if a = p then b else w.heap a }

/-- Append an event to the log. -/
def World.emit {T : Type} (w : World T) (e : Event) : World T :=
  { w with log := w.log ++ [e] }

/-- Slot `i` of the buffer at `p`, when there is one. -/
def World.slot {T : Type} (w : World T) (p i : Nat) : Option (Option T) :=
  match w.heap p with
  | some b => b[i]?
  | Option.none => Option.none

/-- Overwrite slot `i` of the buffer at `p`. -/
def World.setSlot {T : Type} (w : World T) (p i : Nat) (s : Option T) : World T :=
  match w.heap p with
  | some b => w.store p (some (b.set i s))
  | Option.none => w

/-- The fields of a `vector<T>` object. -/
structure vector where
  data_ : Nat
  size_ : Nat
  capacity_ : Nat
deriving DecidableEq, Repr

/-- The size of an element in bytes: `sizeof(T)`, a `size_t` value that is at
least 1. -/
class Sized (T : Type) where
  bytes : Nat
  bytes_pos : 0 < bytes
  bytes_lt : bytes < 2 ^ 64

/-- The sample elements are integers of 4 bytes. -/
instance : Sized Nat := ⟨4, by decide, by decide⟩

namespace vector

variable {T : Type} [Sized T]

/-- `vector()`: no buffer, size 0, capacity 0. -/
def ctor : vector := ⟨0, 0, 0⟩

/-- Number of elements that fit the block returned for a request of `size`
elements: the byte count `size * sizeof(T)` is computed in `size_t`, so it is
taken modulo `2 ^ 64` before `operator new` sees it. -/
def slots (T : Type) [Sized T] (size : Nat) : Nat :=
  size * Sized.bytes T % 2 ^ 64 / Sized.bytes T

/-- `allocate(size)`: `nullptr` for size 0, else the fresh block that
`operator new(size * sizeof(T))` returns, all of it raw, unless it throws. When
the byte count wraps the block has fewer than `size` slots. -/
def allocate (F : Faults T) (w : World T) (size : Nat) : World T × Res Nat :=
  if size = 0 then (w, Res.ok 0)
  else if F.alloc w.allocs then ({ w with allocs := w.allocs + 1 }, Res.thrown)
  else
    ((({ w with allocs := w.allocs + 1, top := w.top + 1 } : World T).store (w.top + 1)
        (some (List.replicate (slots T size) Option.none))).emit
        (Event.alloc (w.top + 1) size),
      Res.ok (w.top + 1))

/-- `operator delete(p)`: releases the block; a null pointer is ignored. -/
def operator_delete (w : World T) (p : Nat) : World T :=
  if p = 0 then w else (w.store p Option.none).emit (Event.free p)

/-- `obj[i].~T()`: the slot becomes raw storage. Destructors do not throw. -/
def destroy_at (w : World T) (obj i : Nat) : World T :=
  (w.setSlot obj i Option.none).emit (Event.destroy obj i)

/-- `destroy(obj, size)`: `while (size) { size--; obj[size].~T(); }`. -/
def destroy (w : World T) (obj : Nat) : Nat → World T
  | 0 => w
  | size + 1 => destroy (destroy_at w obj size) obj size

/-- One invocation of the copy constructor of `T` on a live source. -/
def copy_value (F : Faults T) (w : World T) (x : T) : World T × Res T :=
  if F.copy w.copies then ({ w with copies := w.copies + 1 }, Res.thrown)
  else ({ w with copies := w.copies + 1 }, Res.ok x)

/-- `new(p + i) T(x)`: copy-construct into raw slot `i` of the buffer at `p`. -/
def construct_at (F : Faults T) (w : World T) (p i : Nat) (x : T) : World T × Res Unit :=
  match w.slot p i with
  | some Option.none =>
    match copy_value F w x with
    | (w1, Res.ok y) => ((w1.setSlot p i (some y)).emit (Event.construct p i), Res.ok ())
    | (w1, Res.thrown) => (w1, Res.thrown)
    | (w1, Res.undefined) => (w1, Res.undefined)
  | _ => (w, Res.undefined)

/-- The loop `for (; i < size; i++) new(tmp + i) T(src[i]);` with `n = size - i`
iterations left. Returns the value of `i` when the loop is left. -/
def copy_loop (F : Faults T) (src tmp : Nat) : Nat → Nat → World T → World T × Nat × Res Unit
  | 0, i, w => (w, i, Res.ok ())
  | n + 1, i, w =>
    match w.slot src i with
    | some (some x) =>
      match construct_at F w tmp i x with
      | (w1, Res.ok _) => copy_loop F src tmp n (i + 1) w1
      | (w1, Res.thrown) => (w1, i, Res.thrown)
      | (w1, Res.undefined) => (w1, i, Res.undefined)
    | _ => (w, i, Res.undefined)

/-- `copy_and_construct(src, size, capacity)`. -/
def copy_and_construct (F : Faults T) (w : World T) (src size capacity : Nat) :
    World T × Res Nat :=
  if capacity ≠ 0 then
    match allocate F w capacity with
    | (w1, Res.ok tmp) =>
      match copy_loop F src tmp size 0 w1 with
      | (w2, _, Res.ok _) => (w2, Res.ok tmp)
      | (w2, i, Res.thrown) => (operator_delete (destroy w2 tmp i) tmp, Res.thrown)
      | (w2, _, Res.undefined) => (w2, Res.undefined)
    | (w1, Res.thrown) => (w1, Res.thrown)
    | (w1, Res.undefined) => (w1, Res.undefined)
  else (w, Res.ok 0)

/-- `~vector()`: destroy the live elements, release the buffer. -/
def dtor (w : World T) (this : vector) : World T :=
  operator_delete (destroy w this.data_ this.size_) this.data_

/-- `swap(dst)` between two distinct objects: the three fields are exchanged. -/
def swap (this dst : vector) : vector × vector :=
  (⟨dst.data_, dst.size_, dst.capacity_⟩, ⟨this.data_, this.size_, this.capacity_⟩)

/-- `new_buffer(new_capacity)`: build `tmp`, swap, and let `tmp` die. -/
def new_buffer (F : Faults T) (w : World T) (this : vector) (new_capacity : Nat) :
    World T × vector × Res Unit :=
  if new_capacity ≠ 0 then
    match copy_and_construct F w this.data_ this.size_ new_capacity with
    | (w1, Res.ok p) =>
      (dtor w1 (swap this ⟨p, this.size_, new_capacity⟩).2,
        (swap this ⟨p, this.size_, new_capacity⟩).1, Res.ok ())
    | (w1, Res.thrown) => (dtor w1 ctor, this, Res.thrown)
    | (w1, Res.undefined) => (w1, this, Res.undefined)
  else (dtor w (swap this ctor).2, (swap this ctor).1, Res.ok ())

/-- `vector(vector const& src)`. -/
def copy_ctor (F : Faults T) (w : World T) (src : vector) : World T × Res vector :=
  match copy_and_construct F w src.data_ src.size_ src.size_ with
  | (w1, Res.ok p) => (w1, Res.ok ⟨p, src.size_, src.size_⟩)
  | (w1, Res.thrown) => (w1, Res.thrown)
  | (w1, Res.undefined) => (w1, Res.undefined)

/-- `increase_capacity()`. -/
def increase_capacity (this : vector) : Nat :=
  if this.capacity_ = 0 then 1 else this.capacity_ * 2

/-- `push_back_realloc(obj)`. The local `copy` dies when the function is left. -/
def push_back_realloc (F : Faults T) (w : World T) (this : vector) (obj : T) :
    World T × vector × Res Unit :=
  match copy_value F w obj with
  | (w1, Res.ok copy) =>
    match new_buffer F w1 this (increase_capacity this) with
    | (w2, this2, Res.ok _) =>
      match construct_at F w2 this2.data_ this2.size_ copy with
      | (w3, Res.ok _) => (w3, { this2 with size_ := this2.size_ + 1 }, Res.ok ())
      | (w3, Res.thrown) => (w3, this2, Res.thrown)
      | (w3, Res.undefined) => (w3, this2, Res.undefined)
    | (w2, this2, Res.thrown) => (w2, this2, Res.thrown)
    | (w2, this2, Res.undefined) => (w2, this2, Res.undefined)
  | (w1, Res.thrown) => (w1, this, Res.thrown)
  | (w1, Res.undefined) => (w1, this, Res.undefined)

/-- `push_back(obj)`. -/
def push_back (F : Faults T) (w : World T) (this : vector) (obj : T) :
    World T × vector × Res Unit :=
  if this.size_ = this.capacity_ then push_back_realloc F w this obj
  else
    match construct_at F w this.data_ this.size_ obj with
    | (w1, Res.ok _) => (w1, { this with size_ := this.size_ + 1 }, Res.ok ())
    | (w1, Res.thrown) => (w1, this, Res.thrown)
    | (w1, Res.undefined) => (w1, this, Res.undefined)

/-- `pop_back()`: `size_--; data_[size_].~T();`. On an empty vector the
decrement wraps and the destructor runs outside the buffer: undefined. -/
def pop_back (w : World T) (this : vector) : World T × vector × Res Unit :=
  if this.size_ = 0 then (w, this, Res.undefined)
  else (destroy_at w this.data_ (this.size_ - 1), { this with size_ := this.size_ - 1 }, Res.ok ())

/-- `reserve(new_capacity)`. -/
def reserve (F : Faults T) (w : World T) (this : vector) (new_capacity : Nat) :
    World T × vector × Res Unit :=
  if new_capacity > this.capacity_ then new_buffer F w this new_capacity
  else (w, this, Res.ok ())

/-- `shrink_to_fit()`. -/
def shrink_to_fit (F : Faults T) (w : World T) (this : vector) : World T × vector × Res Unit :=
  if this.capacity_ > this.size_ then new_buffer F w this this.size_
  else (w, this, Res.ok ())

/-- `clear()`. -/
def clear (w : World T) (this : vector) : World T × vector :=
  (destroy w this.data_ this.size_, { this with size_ := 0 })

/-- An iterator `T*`: the buffer it points into and the index of the slot. -/
abbrev iterator := Nat × Nat

/-- `begin()`. -/
def begin_ (this : vector) : iterator := (this.data_, 0)

/-- `end()`. -/
def end_ (this : vector) : iterator := (this.data_, this.size_)

/-- `data_[i] = x`: one invocation of the assignment of `T` on a live target. -/
def assign_at (F : Faults T) (w : World T) (p i : Nat) (x : T) : World T × Res Unit :=
  match w.slot p i with
  | some (some old) =>
    if F.assign w.assigns then
      (({ w with assigns := w.assigns + 1 } : World T).setSlot p i
        (some (F.residue w.assigns old x)), Res.thrown)
    else (({ w with assigns := w.assigns + 1 } : World T).setSlot p i (some x), Res.ok ())
  | _ => (w, Res.undefined)

/-- `std::swap(data_[i], data_[j])`: `T tmp(a); a = b; b = tmp;`. -/
def swap_elems (F : Faults T) (w : World T) (p i j : Nat) : World T × Res Unit :=
  match w.slot p i, w.slot p j with
  | some (some a), some (some b) =>
    match copy_value F w a with
    | (w1, Res.ok tmp) =>
      match assign_at F w1 p i b with
      | (w2, Res.ok _) => assign_at F w2 p j tmp
      | (w2, Res.thrown) => (w2, Res.thrown)
      | (w2, Res.undefined) => (w2, Res.undefined)
    | (w1, Res.thrown) => (w1, Res.thrown)
    | (w1, Res.undefined) => (w1, Res.undefined)
  | _, _ => (w, Res.undefined)

/-- The loop `for (; i > ind; i--) std::swap(data_[i], data_[i - 1]);` with
`n = i - ind` iterations left. -/
def insert_loop (F : Faults T) (p : Nat) : Nat → Nat → World T → World T × Res Unit
  | 0, _, w => (w, Res.ok ())
  | n + 1, i, w =>
    match swap_elems F w p i (i - 1) with
    | (w1, Res.ok _) => insert_loop F p n (i - 1) w1
    | (w1, Res.thrown) => (w1, Res.thrown)
    | (w1, Res.undefined) => (w1, Res.undefined)

/-- `insert(pos, obj)`. `pos - begin()` is defined only inside one buffer. -/
def insert (F : Faults T) (w : World T) (this : vector) (pos : iterator) (obj : T) :
    World T × vector × Res iterator :=
  if pos.1 = this.data_ then
    match push_back F w this obj with
    | (w1, this1, Res.ok _) =>
      match insert_loop F this1.data_ (this1.size_ - 1 - pos.2) (this1.size_ - 1) w1 with
      | (w2, Res.ok _) => (w2, this1, Res.ok (this1.data_, pos.2))
      | (w2, Res.thrown) => (w2, this1, Res.thrown)
      | (w2, Res.undefined) => (w2, this1, Res.undefined)
    | (w1, this1, Res.thrown) => (w1, this1, Res.thrown)
    | (w1, this1, Res.undefined) => (w1, this1, Res.undefined)
  else (w, this, Res.undefined)

/-- The loop `for (; i < size_ - len; i++) data_[i] = data_[i + len];` with
`n = size_ - len - i` iterations left. -/
def shift_loop (F : Faults T) (p len : Nat) : Nat → Nat → World T → World T × Res Unit
  | 0, _, w => (w, Res.ok ())
  | n + 1, i, w =>
    match w.slot p (i + len) with
    | some (some x) =>
      match assign_at F w p i x with
      | (w1, Res.ok _) => shift_loop F p len n (i + 1) w1
      | (w1, Res.thrown) => (w1, Res.thrown)
      | (w1, Res.undefined) => (w1, Res.undefined)
    | _ => (w, Res.undefined)

/-- The loop `for (; i < len; i++) data_[size_ - i - 1].~T();` with
`n = len - i` iterations left. -/
def erase_destroy (p size : Nat) : Nat → Nat → World T → World T
  | 0, _, w => w
  | n + 1, i, w => erase_destroy p size n (i + 1) (destroy_at w p (size - i - 1))

/-- `erase(first, last)`. Both differences are taken inside the buffer of
`this`; past the test `!len` the range must satisfy `first <= last <= end()`,
otherwise the unsigned arithmetic of the loops leaves the buffer. -/
def erase (F : Faults T) (w : World T) (this : vector) (first last : iterator) :
    World T × vector × Res iterator :=
  if first.1 = this.data_ ∧ last.1 = this.data_ then
    if last.2 = first.2 then (w, this, Res.ok (this.data_, first.2))
    else if first.2 ≤ last.2 ∧ last.2 ≤ this.size_ then
      match shift_loop F this.data_ (last.2 - first.2)
          (this.size_ - (last.2 - first.2) - first.2) first.2 w with
      | (w1, Res.ok _) =>
        (erase_destroy this.data_ this.size_ (last.2 - first.2) 0 w1,
          { this with size_ := this.size_ - (last.2 - first.2) }, Res.ok (this.data_, first.2))
      | (w1, Res.thrown) => (w1, this, Res.thrown)
      | (w1, Res.undefined) => (w1, this, Res.undefined)
    else (w, this, Res.undefined)
  else (w, this, Res.undefined)

/-- `erase(pos)`: `return erase(pos, pos + 1);`. -/
def erase_one (F : Faults T) (w : World T) (this : vector) (pos : iterator) :
    World T × vector × Res iterator :=
  erase F w this pos (pos.1, pos.2 + 1)

/-- Overwrite one vector object in a store of vector objects. -/
def put (objs : Nat → vector) (a : Nat) (v : vector) : Nat → vector :=
  fun b => if b = a then v else objs b

/-- `swap(dst)` on objects given by their addresses, which may coincide:
`std::swap(size_, dst.size_); std::swap(capacity_, dst.capacity_);
std::swap(data_, dst.data_);`, each as `tmp = a; a = b; b = tmp`. -/
def swap_at (objs : Nat → vector) (this dst : Nat) : Nat → vector :=
  let o1 := put objs this { objs this with size_ := (objs dst).size_ }
  let o2 := put o1 dst { o1 dst with size_ := (objs this).size_ }
  let o3 := put o2 this { o2 this with capacity_ := (o2 dst).capacity_ }
  let o4 := put o3 dst { o3 dst with capacity_ := (o2 this).capacity_ }
  let o5 := put o4 this { o4 this with data_ := (o4 dst).data_ }
  put o5 dst { o5 dst with data_ := (o4 this).data_ }

/-- `operator=(other)` on objects given by their addresses: the test
`this != &other` compares the addresses. -/
def assign (F : Faults T) (w : World T) (objs : Nat → vector) (this other : Nat) :
    World T × (Nat → vector) × Res Unit :=
  if this ≠ other then
    match copy_ctor F w (objs other) with
    | (w1, Res.ok tmp) =>
      (dtor w1 (swap (objs this) tmp).2, put objs this (swap (objs this) tmp).1, Res.ok ())
    | (w1, Res.thrown) => (w1, objs, Res.thrown)
    | (w1, Res.undefined) => (w1, objs, Res.undefined)
  else (w, objs, Res.ok ())

/-- Repeated `push_back`, left to right, stopping at the first call that
does not return. -/
def push_all (F : Faults T) (w : World T) (this : vector) : List T → World T × vector × Res Unit
  | [] => (w, this, Res.ok ())
  | x :: xs =>
    match push_back F w this x with
    | (w1, this1, Res.ok _) => push_all F w1 this1 xs
    | (w1, this1, Res.thrown) => (w1, this1, Res.thrown)
    | (w1, this1, Res.undefined) => (w1, this1, Res.undefined)

/-- The capacities reached by growth from an empty vector: capacity 0 at size 0,
otherwise a power of two below twice the size. -/
def Doubled (v : vector) : Prop :=
  (v.size_ = 0 ∧ v.capacity_ = 0) ∨
    (0 < v.size_ ∧ ∃ k, v.capacity_ = 2 ^ k ∧ v.capacity_ < 2 * v.size_)

/-- The state after `push_back` of the values `xs` on a default-constructed
vector in an empty world, nothing throwing. -/
def built (xs : List Nat) : World Nat × vector × Res Unit :=
  push_all (Faults.none Nat) (World.init Nat) ctor xs

/-- Scenario, second step: `erase` of index 1 on the vector built from 1, 2, 3. -/
def scenario_erase : World Nat × vector × Res iterator :=
  erase_one (Faults.none Nat) (built [1, 2, 3]).1 (built [1, 2, 3]).2.1
    ((built [1, 2, 3]).2.1.data_, 1)

/-- Scenario, third step: `insert` of 9 at index 1. -/
def scenario_insert : World Nat × vector × Res iterator :=
  insert (Faults.none Nat) scenario_erase.1 scenario_erase.2.1 (scenario_erase.2.1.data_, 1) 9

/-- Scenario, fourth step: `pop_back`. -/
def scenario_pop : World Nat × vector × Res Unit :=
  pop_back scenario_insert.1 scenario_insert.2.1

/-- Scenario, last step: `clear`. -/
def scenario_clear : World Nat × vector :=
  clear scenario_pop.1 scenario_pop.2.1

/-- No invocation of the copy constructor or of the assignment of the element
type made between the worlds `w` and `w1` was due to throw. -/
def Clean (F : Faults T) (w w1 : World T) : Prop :=
  (∀ j, w.copies ≤ j → j < w1.copies → F.copy j = false) ∧
    (∀ j, w.assigns ≤ j → j < w1.assigns → F.assign j = false)

/-- The counters of element operations did not go back between `w` and `w1`. -/
def Later (w w1 : World T) : Prop :=
  w.copies ≤ w1.copies ∧ w.assigns ≤ w1.assigns

/-- Number of elements constructed in buffer slots so far. -/
def constructed (w : World T) : Nat := w.log.countP Event.isConstruct

/-- Number of elements destroyed in buffer slots so far. -/
def destroyed (w : World T) : Nat := w.log.countP Event.isDestroy

/-- The structural invariant of the fields: `size <= capacity`, and the buffer
is non-null exactly when the capacity is positive. -/
def Inv (v : vector) : Prop :=
  v.size_ ≤ v.capacity_ ∧ (v.data_ ≠ 0 ↔ 0 < v.capacity_)

/-- The fields of `v` satisfy the invariant and the block at `data_` starts with
the `size_` live elements `xs`, followed by `m` raw slots. -/
def Backed (w : World T) (v : vector) (xs : List T) (m : Nat) : Prop :=
  v.size_ = xs.length ∧ v.size_ ≤ v.capacity_ ∧
    (v.data_ ≠ 0 ↔ 0 < v.capacity_) ∧ v.data_ ≤ w.top ∧
    (0 < v.capacity_ →
      w.heap v.data_ = some (xs.map some ++ List.replicate m Option.none))

/-- The fields of `v` satisfy the invariant and the block at `data_` has the
`size_` live elements `xs` followed by raw storage up to `capacity_`. -/
def Stored (w : World T) (v : vector) (xs : List T) : Prop :=
  v.size_ = xs.length ∧ v.size_ ≤ v.capacity_ ∧
    (v.data_ ≠ 0 ↔ 0 < v.capacity_) ∧ v.data_ ≤ w.top ∧
    (0 < v.capacity_ →
      w.heap v.data_ = some (xs.map some ++ List.replicate (v.capacity_ - v.size_) Option.none))

/-- The vector `v` holds the element sequence `xs` in world `w`: the fields
satisfy the invariant, the buffer has the `size_` live elements `xs` followed by
raw storage up to `capacity_`, and the buffer is resident: its `capacity_`
elements take fewer than `2 ^ 64` bytes. -/
def Holds (w : World T) (v : vector) (xs : List T) : Prop :=
  Stored w v xs ∧ v.capacity_ * Sized.bytes T < 2 ^ 64

/-- Frame of a call that took `w` to `w1`: no address is taken back, and every
buffer handed out in `w`, other than the one at `p`, is what it was. -/
def Frame (w w1 : World T) (p : Nat) : Prop :=
  w.top ≤ w1.top ∧ ∀ q, q ≤ w.top → q ≠ p → w1.heap q = w.heap q

/-- Frame of a call that touched no buffer that existed before it. -/
def Extends (w w1 : World T) : Prop :=
  w.top ≤ w1.top ∧ ∀ q, q ≤ w.top → w1.heap q = w.heap q

instance (v : vector) : Decidable (Inv v) := by
  unfold Inv; infer_instance

instance [DecidableEq T] (w : World T) (v : vector) (xs : List T) : Decidable (Stored w v xs) := by
  unfold Stored; infer_instance

instance [DecidableEq T] (w : World T) (v : vector) (xs : List T) : Decidable (Holds w v xs) := by
  unfold Holds; infer_instance

end vector

/-! ## Lists of slots -/

section Slots

variable {T : Type}

theorem getElem?_live_append (pre : List (Option T)) (s : Option T) (rest : List (Option T)) :
    (pre ++ s :: rest)[pre.length]? = some s := by
  induction pre with
  | nil => simp
  | cons a pre ih => simpa using ih

theorem getElem?_raw (ys : List T) (k : Nat) :
    (ys.map some ++ List.replicate (k + 1) (Option.none : Option T))[ys.length]? =
      some Option.none := by
  have h := getElem?_live_append (ys.map some) (Option.none : Option T) (List.replicate k Option.none)
  simpa [List.replicate_succ] using h

theorem set_append_cons (pre : List (Option T)) (s t : Option T) (rest : List (Option T)) :
    (pre ++ s :: rest).set pre.length t = pre ++ t :: rest := by
  induction pre with
  | nil => simp
  | cons a pre ih => simp [ih]

theorem set_raw (ys : List T) (k : Nat) (z : T) :
    (ys.map some ++ List.replicate (k + 1) (Option.none : Option T)).set ys.length (some z) =
      (ys ++ [z]).map some ++ List.replicate k Option.none := by
  have h := set_append_cons (ys.map some) (Option.none : Option T) (some z)
    (List.replicate k Option.none)
  rw [List.length_map] at h
  rw [List.replicate_succ, h]
  simp

/-- Either no call in a window of the schedule throws, or there is a first one that does. -/
theorem first_fault (f : Nat → Bool) (n : Nat) :
    (∀ j, j < n → f j = false) ∨ ∃ k, k < n ∧ f k = true ∧ ∀ j, j < k → f j = false := by
  induction n with
  | zero => left; intro j hj; omega
  | succ n ih =>
    rcases ih with h | ⟨k, hk, hf, hlt⟩
    · cases hfn : f n with
      | false =>
        left; intro j hj
        rcases Nat.lt_succ_iff_lt_or_eq.mp hj with h1 | h1
        · exact h j h1
        · rw [h1]; exact hfn
      | true => right; exact ⟨n, Nat.lt_succ_self n, hfn, h⟩
    · right; exact ⟨k, Nat.lt_succ_of_lt hk, hf, hlt⟩

/-- Overwriting an address twice keeps the last buffer written. -/
theorem heap_update_idem {α : Type} (f : Nat → α) (p : Nat) (x y : α) :
    (fun a => if a = p then x else if a = p then y else f a) =
      fun a => if a = p then x else f a := by
  funext a
  by_cases h : a = p <;> simp [h]

end Slots

namespace vector

set_option linter.unusedSectionVars false

variable {T : Type} [Sized T]

/-! ## The block behind a request of `n` elements -/

theorem slots_zero : slots T 0 = 0 := by
  simp [slots]

theorem slots_of_fit (n : Nat) (h : n * Sized.bytes T < 2 ^ 64) : slots T n = n := by
  unfold slots
  rw [Nat.mod_eq_of_lt h, Nat.mul_div_cancel _ Sized.bytes_pos]

theorem slots_bytes (n : Nat) : slots T n * Sized.bytes T < 2 ^ 64 := by
  unfold slots
  exact Nat.lt_of_le_of_lt (Nat.div_mul_le_self _ _) (Nat.mod_lt _ (Nat.two_pow_pos 64))

theorem slots_le (n : Nat) : slots T n ≤ n := by
  unfold slots
  calc n * Sized.bytes T % 2 ^ 64 / Sized.bytes T
      ≤ n * Sized.bytes T / Sized.bytes T := Nat.div_le_div_right (Nat.mod_le _ _)
    _ = n := Nat.mul_div_cancel _ Sized.bytes_pos

/-- The request made by `push_back` on a full resident buffer of capacity `c`
either fits, or yields a block too short for the `c` elements to move. -/
theorem fit_increase (c : Nat) (hres : c * Sized.bytes T < 2 ^ 64)
    (h : c ≤ slots T (max 1 (2 * c))) : max 1 (2 * c) * Sized.bytes T < 2 ^ 64 := by
  rcases Nat.eq_zero_or_pos c with hc | hc
  · subst hc
    simp only [Nat.mul_zero, Nat.zero_le, Nat.max_eq_left, Nat.one_mul]
    exact Sized.bytes_lt
  · have hmax : max 1 (2 * c) = 2 * c := Nat.max_eq_right (by omega)
    rw [hmax] at h ⊢
    by_contra hcon
    have hge : 2 * c * Sized.bytes T ≥ 2 ^ 64 := Nat.le_of_not_lt hcon
    have e2 : 2 * c * Sized.bytes T = 2 * (c * Sized.bytes T) := Nat.mul_assoc _ _ _
    have hlt : slots T (2 * c) < c := by
      unfold slots
      rw [Nat.div_lt_iff_lt_mul Sized.bytes_pos, Nat.mod_eq_sub_mod hge]
      rw [e2] at hge ⊢
      generalize c * Sized.bytes T = P at hres hge ⊢
      generalize (2 : Nat) ^ 64 = B at hres hge ⊢
      rw [Nat.mod_eq_of_lt (by omega)]
      omega
    omega

/-! ## The copy loop -/

theorem copy_loop_ok (F : Faults T) (src tmp : Nat) (hne : src ≠ tmp) :
    ∀ (zs : List T) (pre post : List (Option T)) (ys : List T) (m : Nat) (w : World T),
      pre.length = ys.length →
      (zs ≠ [] → w.heap src = some (pre ++ zs.map some ++ post)) →
      w.heap tmp = some (ys.map some ++ List.replicate (zs.length + m) Option.none) →
      (∀ j, j < zs.length → F.copy (w.copies + j) = false) →
      copy_loop F src tmp zs.length ys.length w =
        ({ heap := fun a =>
              if a = tmp then some ((ys ++ zs).map some ++ List.replicate m Option.none)
              else w.heap a,
           top := w.top, copies := w.copies + zs.length, assigns := w.assigns,
           allocs := w.allocs,
           log := w.log ++ (List.range' ys.length zs.length).map (Event.construct tmp) },
          ys.length + zs.length, Res.ok ()) := by
  intro zs
  induction zs with
  | nil =>
    intro pre post ys m w _ _ htmp _
    simp only [List.length_nil, copy_loop, List.append_nil, Nat.add_zero, List.range'_zero,
      List.map_nil, Nat.zero_add] at htmp ⊢
    congr 1
    cases w with
    | mk heap top copies assigns allocs log =>
      simp only [World.mk.injEq, and_true, true_and]
      funext a
      by_cases ha : a = tmp
      · simp only [ha, if_true]; exact htmp
      · simp only [ha, if_false]
  | cons z zs ih =>
    intro pre post ys m w hlen hsrc htmp hF
    simp only [List.length_cons] at htmp hF
    have hsrc1 := hsrc (by simp)
    have hs : w.slot src ys.length = some (some z) := by
      simp only [World.slot, hsrc1, List.map_cons, List.cons_append, List.append_assoc]
      rw [← hlen]; exact getElem?_live_append pre (some z) _
    have ht : w.slot tmp ys.length = some Option.none := by
      simp only [World.slot, htmp]
      rw [show zs.length + 1 + m = (zs.length + m) + 1 by omega]
      exact getElem?_raw ys _
    have hc : F.copy w.copies = false := by simpa using hF 0 (by simp)
    simp only [List.length_cons, copy_loop, hs, construct_at, ht, copy_value, hc]
    simp only [Bool.false_eq_true, if_false, World.setSlot, htmp, World.store, World.emit]
    have hih := ih (pre ++ [some z]) post (ys ++ [z]) m
      ({ heap := fun a =>
            if a = tmp then
              some ((ys.map some ++ List.replicate (zs.length + 1 + m) Option.none).set
                ys.length (some z))
            else w.heap a,
         top := w.top, copies := w.copies + 1, assigns := w.assigns, allocs := w.allocs,
         log := w.log ++ [Event.construct tmp ys.length] })
      (by simp [hlen])
      (by
        intro _
        simp only [hne, if_false, hsrc1]
        simp)
      (by
        simp only [if_true]
        rw [show zs.length + 1 + m = (zs.length + m) + 1 by omega, set_raw])
      (by
        intro j hj
        have := hF (j + 1) (by omega)
        simpa [Nat.add_assoc, Nat.add_comm 1 j] using this)
    simp only [List.length_append, List.length_singleton] at hih
    rw [hih]
    congr 1
    · simp only [World.mk.injEq, and_true, true_and]
      refine ⟨?_, ?_, ?_⟩
      · funext a
        by_cases ha : a = tmp <;> simp [ha]
      · omega
      · simp [List.range'_succ]
    · simp only [Prod.mk.injEq, and_true]; omega

theorem copy_loop_thrown (F : Faults T) (src tmp : Nat) (hne : src ≠ tmp) :
    ∀ (zs1 : List T) (z : T) (zs2 : List T) (pre post : List (Option T)) (ys : List T)
      (m : Nat) (w : World T),
      pre.length = ys.length →
      w.heap src = some (pre ++ (zs1 ++ z :: zs2).map some ++ post) →
      w.heap tmp = some (ys.map some ++ List.replicate (zs1.length + (m + 1)) Option.none) →
      (∀ j, j < zs1.length → F.copy (w.copies + j) = false) →
      F.copy (w.copies + zs1.length) = true →
      copy_loop F src tmp (zs1 ++ z :: zs2).length ys.length w =
        ({ heap := fun a =>
              if a = tmp then some ((ys ++ zs1).map some ++ List.replicate (m + 1) Option.none)
              else w.heap a,
           top := w.top, copies := w.copies + zs1.length + 1, assigns := w.assigns,
           allocs := w.allocs,
           log := w.log ++ (List.range' ys.length zs1.length).map (Event.construct tmp) },
          ys.length + zs1.length, Res.thrown) := by
  intro zs1
  induction zs1 with
  | nil =>
    intro z zs2 pre post ys m w hlen hsrc htmp _ hc
    simp only [List.length_nil, Nat.zero_add, Nat.add_zero, List.nil_append, List.map_cons,
      List.append_nil, List.range'_zero, List.map_nil, List.length_cons] at hsrc htmp hc ⊢
    have hs : w.slot src ys.length = some (some z) := by
      simp only [World.slot, hsrc, List.append_assoc, List.cons_append]
      rw [← hlen]; exact getElem?_live_append pre (some z) _
    have ht : w.slot tmp ys.length = some Option.none := by
      simp only [World.slot, htmp]
      exact getElem?_raw ys _
    simp only [copy_loop, hs, construct_at, ht, copy_value, hc, if_true]
    congr 1
    simp only [World.mk.injEq, and_true, true_and]
    funext a
    by_cases ha : a = tmp
    · simp only [ha, if_true]; exact htmp
    · simp only [ha, if_false]
  | cons y zs1 ih =>
    intro z zs2 pre post ys m w hlen hsrc htmp hF hc
    simp only [List.length_cons, List.cons_append] at htmp hF hc ⊢
    have hs : w.slot src ys.length = some (some y) := by
      simp only [World.slot, hsrc, List.cons_append, List.map_cons, List.append_assoc]
      rw [← hlen]; exact getElem?_live_append pre (some y) _
    have ht : w.slot tmp ys.length = some Option.none := by
      simp only [World.slot, htmp]
      rw [show zs1.length + 1 + (m + 1) = (zs1.length + (m + 1)) + 1 by omega]
      exact getElem?_raw ys _
    have hc0 : F.copy w.copies = false := by simpa using hF 0 (by omega)
    simp only [copy_loop, hs, construct_at, ht, copy_value, hc0]
    simp only [Bool.false_eq_true, if_false, World.setSlot, htmp, World.store, World.emit]
    have hih := ih z zs2 (pre ++ [some y]) post (ys ++ [y]) m
      ({ heap := fun a =>
            if a = tmp then
              some ((ys.map some ++ List.replicate (zs1.length + 1 + (m + 1)) Option.none).set
                ys.length (some y))
            else w.heap a,
         top := w.top, copies := w.copies + 1, assigns := w.assigns, allocs := w.allocs,
         log := w.log ++ [Event.construct tmp ys.length] })
      (by simp [hlen])
      (by
        simp only [hne, if_false, hsrc]
        simp)
      (by
        simp only [if_true]
        rw [show zs1.length + 1 + (m + 1) = (zs1.length + (m + 1)) + 1 by omega, set_raw])
      (by
        intro j hj
        have := hF (j + 1) (by omega)
        simpa [Nat.add_assoc, Nat.add_comm 1 j] using this)
      (by
        simpa [Nat.add_assoc, Nat.add_comm 1 zs1.length] using hc)
    have hl : (ys ++ [y]).length = ys.length + 1 := by simp
    rw [hl] at hih
    rw [hih]
    congr 1
    · simp only [World.mk.injEq, and_true, true_and]
      refine ⟨?_, ?_, ?_⟩
      · funext a
        by_cases ha : a = tmp <;> simp [ha]
      · omega
      · simp [List.range'_succ]
    · simp only [Prod.mk.injEq, and_true]; omega

/-! ## Destruction -/

theorem destroy_spec (p : Nat) :
    ∀ (ys : List T) (rest : List (Option T)) (w : World T),
      w.heap p = some (ys.map some ++ rest) →
      destroy w p ys.length =
        { heap := fun a =>
            if a = p then some (List.replicate ys.length Option.none ++ rest) else w.heap a,
          top := w.top, copies := w.copies, assigns := w.assigns, allocs := w.allocs,
          log := w.log ++ (List.range ys.length).reverse.map (Event.destroy p) } := by
  intro ys
  induction ys using List.reverseRecOn with
  | nil =>
    intro rest w h
    simp only [List.length_nil, destroy, List.replicate_zero, List.nil_append, List.range_zero,
      List.reverse_nil, List.map_nil, List.append_nil, List.map_nil] at h ⊢
    cases w with
    | mk heap top copies assigns allocs log =>
      simp only [World.mk.injEq, and_true, true_and]
      funext a
      by_cases ha : a = p
      · simp only [ha, if_true]; exact h
      · simp only [ha, if_false]
  | append_singleton l y ih =>
    intro rest w h
    have h1 : w.heap p = some (l.map some ++ some y :: rest) := by
      rw [h]; simp
    have hset : (l.map some ++ some y :: rest).set l.length Option.none =
        l.map some ++ Option.none :: rest := by
      have := set_append_cons (l.map some) (some y) Option.none rest
      rwa [List.length_map] at this
    have hih := ih (Option.none :: rest)
      ({ heap := fun a => if a = p then some (l.map some ++ Option.none :: rest) else w.heap a,
         top := w.top, copies := w.copies, assigns := w.assigns, allocs := w.allocs,
         log := w.log ++ [Event.destroy p l.length] })
      (by simp)
    simp only [List.length_append, List.length_singleton, destroy, destroy_at, World.setSlot, h1,
      World.store, World.emit, hset]
    rw [hih]
    simp only [World.mk.injEq, and_true, true_and]
    refine ⟨?_, ?_⟩
    · funext a
      by_cases ha : a = p
      · simp [ha, List.replicate_succ']
      · simp [ha]
    · simp [List.range_succ]

/-! ## `copy_and_construct` -/

theorem copy_and_construct_ok (F : Faults T) (w : World T) (src cap : Nat) (xs : List T)
    (post : List (Option T)) (hcap : cap ≠ 0) (hle : xs.length ≤ slots T cap) (hsrc : src ≤ w.top)
    (hheap : xs ≠ [] → w.heap src = some (xs.map some ++ post))
    (ha : F.alloc w.allocs = false)
    (hc : ∀ j, j < xs.length → F.copy (w.copies + j) = false) :
    copy_and_construct F w src xs.length cap =
      ({ heap := fun a =>
            if a = w.top + 1 then
              some (xs.map some ++ List.replicate (slots T cap - xs.length) Option.none)
            else w.heap a,
         top := w.top + 1, copies := w.copies + xs.length, assigns := w.assigns,
         allocs := w.allocs + 1,
         log := w.log ++ Event.alloc (w.top + 1) cap ::
           (List.range' 0 xs.length).map (Event.construct (w.top + 1)) },
        Res.ok (w.top + 1)) := by
  have hne : src ≠ w.top + 1 := by omega
  have h := copy_loop_ok F src (w.top + 1) hne xs [] post [] (slots T cap - xs.length)
    ({ heap := fun a => if a = w.top + 1 then some (List.replicate (slots T cap) Option.none) else w.heap a,
       top := w.top + 1, copies := w.copies, assigns := w.assigns, allocs := w.allocs + 1,
       log := w.log ++ [Event.alloc (w.top + 1) cap] })
    rfl
    (by
      intro hx
      simp only [hne, if_false, hheap hx, List.nil_append])
    (by
      simp only [if_true, List.map_nil, List.nil_append]
      rw [show xs.length + (slots T cap - xs.length) = slots T cap by omega])
    hc
  simp only [List.length_nil, List.nil_append, Nat.zero_add] at h
  simp only [copy_and_construct, hcap, ne_eq, not_false_eq_true, if_true, allocate, ha,
    Bool.false_eq_true, if_false, World.store, World.emit, h]
  congr 1
  simp only [World.mk.injEq, and_true, true_and]
  refine ⟨?_, ?_⟩
  · funext a
    by_cases ha : a = w.top + 1 <;> simp [ha]
  · simp

theorem copy_and_construct_thrown (F : Faults T) (w : World T) (src cap : Nat)
    (zs1 : List T) (z : T) (zs2 : List T) (post : List (Option T))
    (hle : zs1.length < slots T cap) (hsrc : src ≤ w.top)
    (hheap : w.heap src = some ((zs1 ++ z :: zs2).map some ++ post))
    (ha : F.alloc w.allocs = false)
    (hc : ∀ j, j < zs1.length → F.copy (w.copies + j) = false)
    (hk : F.copy (w.copies + zs1.length) = true) :
    copy_and_construct F w src (zs1 ++ z :: zs2).length cap =
      ({ heap := fun a => if a = w.top + 1 then Option.none else w.heap a,
         top := w.top + 1, copies := w.copies + zs1.length + 1, assigns := w.assigns,
         allocs := w.allocs + 1,
         log := w.log ++ Event.alloc (w.top + 1) cap ::
           ((List.range' 0 zs1.length).map (Event.construct (w.top + 1)) ++
             (List.range zs1.length).reverse.map (Event.destroy (w.top + 1)) ++
             [Event.free (w.top + 1)]) },
        Res.thrown) := by
  have hne : src ≠ w.top + 1 := by omega
  have hlen : (zs1 ++ z :: zs2).length = zs1.length + zs2.length + 1 := by
    simp; omega
  have hcap : cap ≠ 0 := by
    intro h0
    rw [h0, slots_zero] at hle
    omega
  have h := copy_loop_thrown F src (w.top + 1) hne zs1 z zs2 [] post []
    (slots T cap - zs1.length - 1)
    ({ heap := fun a => if a = w.top + 1 then some (List.replicate (slots T cap) Option.none) else w.heap a,
       top := w.top + 1, copies := w.copies, assigns := w.assigns, allocs := w.allocs + 1,
       log := w.log ++ [Event.alloc (w.top + 1) cap] })
    rfl
    (by simp only [hne, if_false, hheap, List.nil_append])
    (by
      simp only [if_true, List.map_nil, List.nil_append]
      rw [show zs1.length + (slots T cap - zs1.length - 1 + 1) = slots T cap by omega])
    hc hk
  simp only [List.length_nil, List.nil_append, Nat.zero_add, heap_update_idem] at h
  have hd := destroy_spec (w.top + 1) zs1 (List.replicate (slots T cap - zs1.length - 1 + 1) Option.none)
    ({ heap := fun a =>
          if a = w.top + 1 then
            some (zs1.map some ++ List.replicate (slots T cap - zs1.length - 1 + 1) Option.none)
          else w.heap a,
       top := w.top + 1, copies := w.copies + zs1.length + 1, assigns := w.assigns,
       allocs := w.allocs + 1,
       log := w.log ++ [Event.alloc (w.top + 1) cap] ++
         (List.range' 0 zs1.length).map (Event.construct (w.top + 1)) })
    (by simp only [if_true])
  simp only [heap_update_idem] at hd
  simp only [copy_and_construct, hcap, ne_eq, not_false_eq_true, if_true, allocate, ha,
    Bool.false_eq_true, if_false, World.store, World.emit, h, hd, operator_delete,
    Nat.add_one_ne_zero]
  congr 1
  simp only [World.mk.injEq, and_true, true_and]
  refine ⟨?_, ?_⟩
  · funext a
    by_cases ha : a = w.top + 1 <;> simp [ha]
  · simp

theorem copy_and_construct_alloc_thrown (F : Faults T) (w : World T) (src size cap : Nat)
    (hcap : cap ≠ 0) (ha : F.alloc w.allocs = true) :
    copy_and_construct F w src size cap =
      ({ heap := w.heap, top := w.top, copies := w.copies, assigns := w.assigns,
         allocs := w.allocs + 1, log := w.log }, Res.thrown) := by
  simp only [copy_and_construct, hcap, ne_eq, not_false_eq_true, if_true, allocate, ha,
    if_false]

theorem copy_and_construct_zero (F : Faults T) (w : World T) (src size : Nat) :
    copy_and_construct F w src size 0 = (w, Res.ok 0) := by
  simp [copy_and_construct]

theorem split_at_index (xs : List T) (k : Nat) (hk : k < xs.length) :
    ∃ zs1 z zs2, xs = zs1 ++ z :: zs2 ∧ zs1.length = k := by
  refine ⟨xs.take k, xs[k], xs.drop (k + 1), ?_, ?_⟩
  · rw [← List.drop_eq_getElem_cons hk, List.take_append_drop]
  · simp [List.length_take]; omega

/-! ## Frames of destruction and release -/

theorem destroy_at_frame (w : World T) (p i : Nat) :
    (destroy_at w p i).top = w.top ∧ (destroy_at w p i).copies = w.copies ∧
      (destroy_at w p i).assigns = w.assigns ∧ (destroy_at w p i).allocs = w.allocs ∧
      ∀ q, q ≠ p → (destroy_at w p i).heap q = w.heap q := by
  cases hp : w.heap p with
  | none => simp [destroy_at, World.setSlot, hp, World.emit]
  | some b =>
    simp only [destroy_at, World.setSlot, hp, World.emit, World.store, true_and]
    intro q hq
    simp only [hq, if_false]

theorem destroy_frame (p : Nat) :
    ∀ (n : Nat) (w : World T),
      (destroy w p n).top = w.top ∧ (destroy w p n).copies = w.copies ∧
        (destroy w p n).assigns = w.assigns ∧ (destroy w p n).allocs = w.allocs ∧
        ∀ q, q ≠ p → (destroy w p n).heap q = w.heap q := by
  intro n
  induction n with
  | zero => intro w; simp [destroy]
  | succ n ih =>
    intro w
    obtain ⟨h1, h2, h3, h4, h5⟩ := ih (destroy_at w p n)
    obtain ⟨g1, g2, g3, g4, g5⟩ := destroy_at_frame w p n
    simp only [destroy]
    refine ⟨h1.trans g1, h2.trans g2, h3.trans g3, h4.trans g4, fun q hq => ?_⟩
    rw [h5 q hq, g5 q hq]

theorem operator_delete_frame (w : World T) (p : Nat) :
    (operator_delete w p).top = w.top ∧ (operator_delete w p).copies = w.copies ∧
      (operator_delete w p).assigns = w.assigns ∧ (operator_delete w p).allocs = w.allocs ∧
      ∀ q, q ≠ p → (operator_delete w p).heap q = w.heap q := by
  by_cases hp : p = 0
  · simp [operator_delete, hp]
  · simp only [operator_delete, hp, if_false, World.emit, World.store, true_and]
    intro q hq
    simp only [hq, if_false]

theorem dtor_frame (w : World T) (v : vector) :
    (dtor w v).top = w.top ∧ (dtor w v).copies = w.copies ∧
      (dtor w v).assigns = w.assigns ∧ (dtor w v).allocs = w.allocs ∧
      ∀ q, q ≠ v.data_ → (dtor w v).heap q = w.heap q := by
  obtain ⟨h1, h2, h3, h4, h5⟩ := destroy_frame v.data_ v.size_ w
  obtain ⟨g1, g2, g3, g4, g5⟩ := operator_delete_frame (destroy w v.data_ v.size_) v.data_
  simp only [dtor]
  refine ⟨g1.trans h1, g2.trans h2, g3.trans h3, g4.trans h4, fun q hq => ?_⟩
  rw [g5 q hq, h5 q hq]

theorem dtor_ctor (w : World T) : dtor w ctor = w := by
  simp [dtor, ctor, destroy, operator_delete]

/-! ## Frames of construction -/

/-- A construction touches the block at `p` only and keeps its length; when it
returns, slot `i` was inside that block; and unless it throws, no copy it made
was due to throw. -/
theorem construct_at_block (F : Faults T) (w : World T) (p i : Nat) (x : T) (w1 : World T)
    (r : Res Unit) (h : construct_at F w p i x = (w1, r)) :
    w1.top = w.top ∧ (∀ q, q ≠ p → w1.heap q = w.heap q) ∧
      (∀ b, w.heap p = some b → ∃ b1, w1.heap p = some b1 ∧ b1.length = b.length) ∧
      (r = Res.ok () → ∃ b, w.heap p = some b ∧ i < b.length) ∧
      (r ≠ Res.thrown → ∀ j, w.copies ≤ j → j < w1.copies → F.copy j = false) := by
  cases hs : w.slot p i with
  | none =>
    simp only [construct_at, hs, Prod.mk.injEq] at h
    rw [← h.1, ← h.2]
    exact ⟨rfl, fun _ _ => rfl, fun b hb => ⟨b, hb, rfl⟩, fun hr => by simp at hr,
      fun _ j h1 h2 => by omega⟩
  | some o =>
    cases o with
    | some y =>
      simp only [construct_at, hs, Prod.mk.injEq] at h
      rw [← h.1, ← h.2]
      exact ⟨rfl, fun _ _ => rfl, fun b hb => ⟨b, hb, rfl⟩, fun hr => by simp at hr,
        fun _ j h1 h2 => by omega⟩
    | none =>
      cases hc : F.copy w.copies with
      | true =>
        simp only [construct_at, hs, copy_value, hc, if_true, Prod.mk.injEq] at h
        rw [← h.1, ← h.2]
        exact ⟨rfl, fun _ _ => rfl, fun b hb => ⟨b, hb, rfl⟩, fun hr => by simp at hr,
          fun hr => absurd rfl hr⟩
      | false =>
        simp only [construct_at, hs, copy_value, hc, Bool.false_eq_true, if_false,
          Prod.mk.injEq] at h
        rw [← h.1]
        cases hp : w.heap p with
        | none => simp [World.slot, hp] at hs
        | some b =>
          have hi : i < b.length := by
            simp only [World.slot, hp] at hs
            obtain ⟨hlt, _⟩ := List.getElem?_eq_some_iff.mp hs
            exact hlt
          simp only [World.setSlot, hp, World.emit, World.store, true_and]
          refine ⟨fun q hq => ?_, fun b0 hb0 => ?_, fun _ => ⟨b, rfl, hi⟩, fun _ j h1 h2 => ?_⟩
          · simp only [hq, if_false]
          · simp only [if_true, Option.some.injEq] at hb0 ⊢
            subst hb0
            exact ⟨_, rfl, List.length_set _ _ _⟩
          · have : j = w.copies := by omega
            rw [this]; exact hc

/-- The copy loop touches the block at `tmp` only and keeps its length; when it
returns, the `n` slots from `i` on were inside that block; and unless it throws,
no copy it made was due to throw. -/
theorem copy_loop_block (F : Faults T) (src tmp : Nat) :
    ∀ (n i : Nat) (w w1 : World T) (j : Nat) (r : Res Unit),
      copy_loop F src tmp n i w = (w1, j, r) →
      w1.top = w.top ∧ (∀ q, q ≠ tmp → w1.heap q = w.heap q) ∧
        (∀ b, w.heap tmp = some b → ∃ b1, w1.heap tmp = some b1 ∧ b1.length = b.length) ∧
        (r = Res.ok () → 0 < n → ∃ b, w.heap tmp = some b ∧ i + n ≤ b.length) ∧
        (r ≠ Res.thrown → ∀ k, w.copies ≤ k → k < w1.copies → F.copy k = false) := by
  intro n
  induction n with
  | zero =>
    intro i w w1 j r h
    simp only [copy_loop, Prod.mk.injEq] at h
    rw [← h.1]
    exact ⟨rfl, fun _ _ => rfl, fun b hb => ⟨b, hb, rfl⟩, fun _ h0 => absurd h0 (Nat.lt_irrefl 0),
      fun _ k h1 h2 => by omega⟩
  | succ n ih =>
    intro i w w1 j r h
    simp only [copy_loop] at h
    cases hs : w.slot src i with
    | none =>
      simp only [hs, Prod.mk.injEq] at h
      rw [← h.1, ← h.2.2]
      exact ⟨rfl, fun _ _ => rfl, fun b hb => ⟨b, hb, rfl⟩, fun hr => by simp at hr,
        fun _ k h1 h2 => by omega⟩
    | some o =>
      cases o with
      | none =>
        simp only [hs, Prod.mk.injEq] at h
        rw [← h.1, ← h.2.2]
        exact ⟨rfl, fun _ _ => rfl, fun b hb => ⟨b, hb, rfl⟩, fun hr => by simp at hr,
          fun _ k h1 h2 => by omega⟩
      | some x =>
        simp only [hs] at h
        rcases hca : construct_at F w tmp i x with ⟨w2, r2⟩
        rw [hca] at h
        obtain ⟨c1, c2, c3, c4, c5⟩ := construct_at_block F w tmp i x w2 r2 hca
        cases r2 with
        | ok u =>
          cases u
          simp only at h
          obtain ⟨i1, i2, i3, i4, i5⟩ := ih (i + 1) w2 w1 j r h
          refine ⟨i1.trans c1, fun q hq => (i2 q hq).trans (c2 q hq), fun b hb => ?_,
            fun hr _ => ?_, fun hr k h1 h2 => ?_⟩
          · obtain ⟨b1, hb1, hl1⟩ := c3 b hb
            obtain ⟨b2, hb2, hl2⟩ := i3 b1 hb1
            exact ⟨b2, hb2, hl2.trans hl1⟩
          · obtain ⟨b, hb, hlt⟩ := c4 rfl
            refine ⟨b, hb, ?_⟩
            rcases Nat.eq_zero_or_pos n with hn | hn
            · omega
            · obtain ⟨b1, hb1, hl1⟩ := c3 b hb
              obtain ⟨b2, hb2, hl2⟩ := i4 hr hn
              rw [hb1] at hb2
              simp only [Option.some.injEq] at hb2
              subst hb2
              omega
          · by_cases hk : k < w2.copies
            · exact c5 (by simp) k h1 hk
            · exact i5 hr k (by omega) h2
        | thrown =>
          simp only [Prod.mk.injEq] at h
          rw [← h.1, ← h.2.2]
          exact ⟨c1, c2, c3, fun hr => by simp at hr, fun hr => absurd rfl hr⟩
        | undefined =>
          simp only [Prod.mk.injEq] at h
          rw [← h.1, ← h.2.2]
          exact ⟨c1, c2, c3, fun hr => by simp at hr, fun _ => c5 (by simp)⟩

/-- Building a copy touches no block that existed before; when it returns a
block, the block had room for the `size` elements; and unless it throws, no copy
it made was due to throw. -/
theorem copy_and_construct_frame (F : Faults T) (w : World T) (src size cap : Nat)
    (w1 : World T) (r : Res Nat) (h : copy_and_construct F w src size cap = (w1, r)) :
    Extends w w1 ∧ (∀ p, r = Res.ok p → cap ≠ 0 → size ≤ slots T cap) ∧
      (r ≠ Res.thrown → ∀ k, w.copies ≤ k → k < w1.copies → F.copy k = false) := by
  by_cases hcap : cap = 0
  · subst hcap
    rw [copy_and_construct_zero] at h
    simp only [Prod.mk.injEq] at h
    rw [← h.1]
    exact ⟨⟨Nat.le_refl _, fun _ _ => rfl⟩, fun _ _ h0 => absurd rfl h0,
      fun _ k h1 h2 => by omega⟩
  · cases ha : F.alloc w.allocs with
    | true =>
      rw [copy_and_construct_alloc_thrown F w src size cap hcap ha] at h
      simp only [Prod.mk.injEq] at h
      rw [← h.1, ← h.2]
      exact ⟨⟨Nat.le_refl _, fun _ _ => rfl⟩, fun p hp => by simp at hp,
        fun hr => absurd rfl hr⟩
    | false =>
      simp only [copy_and_construct, hcap, ne_eq, not_false_eq_true, if_true, allocate, ha,
        Bool.false_eq_true, if_false] at h
      split at h
      · rename_i w2 j u hl
        cases u
        obtain ⟨b1, b2, _, b4, b5⟩ := copy_loop_block F src _ size 0 _ w2 j _ hl
        simp only [Prod.mk.injEq] at h
        rw [← h.1]
        refine ⟨⟨?_, fun q hq => ?_⟩, fun _ _ _ => ?_, fun _ => b5 (by simp)⟩
        · rw [b1]; simp [World.emit, World.store]
        · rw [b2 q (by omega)]
          have : q ≠ w.top + 1 := by omega
          simp [World.emit, World.store, this]
        · rcases Nat.eq_zero_or_pos size with hz | hz
          · omega
          · obtain ⟨b, hb, hlen⟩ := b4 rfl hz
            simp only [World.emit, World.store, if_true, Option.some.injEq] at hb
            subst hb
            simpa using hlen
      · rename_i w2 j hl
        obtain ⟨b1, b2, _, _⟩ := copy_loop_block F src _ size 0 _ w2 j _ hl
        simp only [Prod.mk.injEq] at h
        rw [← h.1, ← h.2]
        obtain ⟨d1, _, _, _, d5⟩ := destroy_frame (w.top + 1) j w2
        obtain ⟨o1, _, _, _, o5⟩ := operator_delete_frame (destroy w2 (w.top + 1) j) (w.top + 1)
        refine ⟨⟨?_, fun q hq => ?_⟩, fun p hp => by simp at hp, fun hr => absurd rfl hr⟩
        · rw [o1, d1, b1]; simp [World.emit, World.store]
        · have hq1 : q ≠ w.top + 1 := by omega
          rw [o5 q hq1, d5 q hq1, b2 q hq1]
          simp [World.emit, World.store, hq1]
      · rename_i w2 j hl
        obtain ⟨b1, b2, _, _, b5⟩ := copy_loop_block F src _ size 0 _ w2 j _ hl
        simp only [Prod.mk.injEq] at h
        rw [← h.1, ← h.2]
        refine ⟨⟨?_, fun q hq => ?_⟩, fun p hp => by simp at hp, fun _ => b5 (by simp)⟩
        · rw [b1]; simp [World.emit, World.store]
        · have hq1 : q ≠ w.top + 1 := by omega
          rw [b2 q hq1]
          simp [World.emit, World.store, hq1]

theorem copy_and_construct_spec (F : Faults T) (w : World T) (src cap : Nat) (xs : List T)
    (post : List (Option T)) (hsrc : src ≤ w.top)
    (hheap : xs ≠ [] → w.heap src = some (xs.map some ++ post))
    (w1 : World T) (r : Res Nat) (h : copy_and_construct F w src xs.length cap = (w1, r)) :
    Extends w w1 ∧
      (r = Res.thrown ∨ (cap = 0 ∧ r = Res.ok 0 ∧ w1 = w) ∨
        (cap ≠ 0 ∧ r = Res.ok (w.top + 1) ∧ w1.top = w.top + 1 ∧
          w1.copies = w.copies + xs.length ∧
          w1.heap (w.top + 1) =
            some (xs.map some ++ List.replicate (slots T cap - xs.length) Option.none) ∧
          (∀ j, j < xs.length → F.copy (w.copies + j) = false) ∧
          xs.length ≤ slots T cap) ∨
        (r = Res.undefined ∧ slots T cap < xs.length ∧
          ∀ k, w.copies ≤ k → k < w1.copies → F.copy k = false)) := by
  obtain ⟨hE, hfit, hclean⟩ := copy_and_construct_frame F w src xs.length cap w1 r h
  refine ⟨hE, ?_⟩
  by_cases hcap : cap = 0
  · subst hcap
    rw [copy_and_construct_zero] at h
    simp only [Prod.mk.injEq] at h
    obtain ⟨rfl, rfl⟩ := h
    exact Or.inr (Or.inl ⟨rfl, rfl, rfl⟩)
  · by_cases hle : xs.length ≤ slots T cap
    · cases ha : F.alloc w.allocs with
      | true =>
        rw [copy_and_construct_alloc_thrown F w src xs.length cap hcap ha] at h
        simp only [Prod.mk.injEq] at h
        exact Or.inl h.2.symm
      | false =>
        rcases first_fault (fun j => F.copy (w.copies + j)) xs.length with hc | ⟨k, hk, hf, hlt⟩
        · rw [copy_and_construct_ok F w src cap xs post hcap hle hsrc hheap ha hc] at h
          simp only [Prod.mk.injEq] at h
          obtain ⟨rfl, rfl⟩ := h
          refine Or.inr (Or.inr (Or.inl ⟨hcap, rfl, rfl, rfl, ?_, hc, hle⟩))
          simp only [if_true]
        · obtain ⟨zs1, z, zs2, rfl, hl⟩ := split_at_index xs k hk
          subst hl
          have hlt1 : zs1.length < slots T cap := by
            have : (zs1 ++ z :: zs2).length = zs1.length + zs2.length + 1 := by
              simp; omega
            omega
          rw [copy_and_construct_thrown F w src cap zs1 z zs2 post hlt1 hsrc (hheap (by simp)) ha
            hlt hf] at h
          simp only [Prod.mk.injEq] at h
          exact Or.inl h.2.symm
    · cases r with
      | ok p => exact absurd (hfit p rfl hcap) hle
      | thrown => exact Or.inl rfl
      | undefined => exact Or.inr (Or.inr (Or.inr ⟨rfl, by omega, hclean (by simp)⟩))

/-! ## Representation and frames -/

theorem holds_of_frame (w w1 : World T) (b : vector) (ys : List T) (p : Nat)
    (hH : Stored w b ys) (hF : Frame w w1 p) (hp : b.data_ ≠ p ∨ b.capacity_ = 0) :
    Stored w1 b ys := by
  obtain ⟨h1, h2, h3, h4, h5⟩ := hH
  refine ⟨h1, h2, h3, Nat.le_trans h4 hF.1, fun hc => ?_⟩
  rcases hp with hp | hp
  · rw [hF.2 _ h4 hp]; exact h5 hc
  · omega

theorem holds_of_extends (w w1 : World T) (b : vector) (ys : List T)
    (hH : Stored w b ys) (hE : Extends w w1) : Stored w1 b ys := by
  obtain ⟨h1, h2, h3, h4, h5⟩ := hH
  refine ⟨h1, h2, h3, Nat.le_trans h4 hE.1, fun hc => ?_⟩
  rw [hE.2 _ h4]; exact h5 hc

theorem holds_frame (w w1 : World T) (b : vector) (ys : List T) (p : Nat)
    (hH : Holds w b ys) (hF : Frame w w1 p) (hp : b.data_ ≠ p ∨ b.capacity_ = 0) :
    Holds w1 b ys :=
  ⟨holds_of_frame w w1 b ys p hH.1 hF hp, hH.2⟩

theorem holds_extends (w w1 : World T) (b : vector) (ys : List T)
    (hH : Holds w b ys) (hE : Extends w w1) : Holds w1 b ys :=
  ⟨holds_of_extends w w1 b ys hH.1 hE, hH.2⟩

theorem frame_of_extends (w w1 : World T) (p : Nat) (hE : Extends w w1) : Frame w w1 p :=
  ⟨hE.1, fun q hq _ => hE.2 q hq⟩

theorem holds_inv (w : World T) (v : vector) (xs : List T) (hH : Stored w v xs) : Inv v :=
  ⟨hH.2.1, hH.2.2.1⟩

/-! ## `new_buffer` -/

theorem stored_of_backed (w : World T) (v : vector) (xs : List T) (m : Nat)
    (hB : Backed w v xs m) (hm : m = v.capacity_ - v.size_) : Stored w v xs := by
  subst hm
  exact hB

theorem new_buffer_spec (F : Faults T) (w : World T) (v : vector) (xs : List T) (n : Nat)
    (hH : Stored w v xs) (hn : v.size_ ≤ n) (w1 : World T) (v1 : vector) (r : Res Unit)
    (h : new_buffer F w v n = (w1, v1, r)) :
    (r = Res.thrown ∧ v1 = v ∧ Extends w w1) ∨
      (r = Res.ok () ∧ v1.size_ = v.size_ ∧ v1.capacity_ = n ∧
        Backed w1 v1 xs (slots T n - xs.length) ∧ xs.length ≤ slots T n ∧
        Frame w w1 v.data_ ∧ (n = 0 ∨ w.top < v1.data_) ∧
        w1.copies = w.copies + (if n = 0 then 0 else xs.length) ∧
        ∀ j, w.copies ≤ j → j < w1.copies → F.copy j = false) ∨
      (r = Res.undefined ∧ v1 = v ∧ Extends w w1 ∧ slots T n < xs.length ∧
        ∀ j, w.copies ≤ j → j < w1.copies → F.copy j = false) := by
  obtain ⟨hsz, hle, hnull, htop, hheap⟩ := hH
  by_cases hn0 : n = 0
  · subst hn0
    simp only [new_buffer, ne_eq, not_true_eq_false, if_false, swap, ctor, Prod.mk.injEq] at h
    obtain ⟨rfl, rfl, rfl⟩ := h
    have hxs : xs = [] := by
      apply List.eq_nil_of_length_eq_zero; omega
    subst hxs
    obtain ⟨d1, d2, d3, d4, d5⟩ := dtor_frame w ⟨v.data_, v.size_, v.capacity_⟩
    right; left
    refine ⟨rfl, by simp; omega, rfl, ⟨rfl, Nat.le_refl _, by simp, Nat.zero_le _, ?_⟩,
      Nat.zero_le _, ⟨Nat.le_of_eq d1.symm, fun q _ hq => d5 q hq⟩, Or.inl rfl, by simp [d2],
      fun j h1 h2 => by rw [d2] at h2; omega⟩
    intro hc; simp at hc
  · simp only [new_buffer, hn0, ne_eq, not_false_eq_true, if_true] at h
    rcases hcc : copy_and_construct F w v.data_ v.size_ n with ⟨w', r'⟩
    rw [hcc] at h
    have hcc' : copy_and_construct F w v.data_ xs.length n = (w', r') := by
      rw [← hsz]; exact hcc
    have hspec := copy_and_construct_spec F w v.data_ n xs
      (List.replicate (v.capacity_ - v.size_) Option.none) htop
      (fun hx => hheap (by
        have : 0 < xs.length := List.length_pos.mpr hx
        omega)) w' r' hcc'
    rcases hspec with
      ⟨hext, hr | ⟨hc0, _, _⟩ | ⟨_, hr, ht, hcp, hhp, hnf, hfit⟩ | ⟨hr, hlt, hcl⟩⟩
    · subst hr
      simp only [dtor_ctor, Prod.mk.injEq] at h
      obtain ⟨rfl, rfl, rfl⟩ := h
      exact Or.inl ⟨rfl, rfl, hext⟩
    · exact absurd hc0 hn0
    · subst hr
      simp only [swap, Prod.mk.injEq] at h
      obtain ⟨rfl, rfl, rfl⟩ := h
      obtain ⟨d1, d2, d3, d4, d5⟩ := dtor_frame w' ⟨v.data_, v.size_, v.capacity_⟩
      have hne : w.top + 1 ≠ v.data_ := by omega
      right; left
      refine ⟨rfl, rfl, rfl, ⟨hsz, hn, ?_, ?_, fun _ => ?_⟩, hfit, ⟨?_, fun q hq hqp => ?_⟩,
        Or.inr (Nat.lt_succ_self _), ?_, fun j h1 h2 => ?_⟩
      · simp; omega
      · simp only [d1, ht]; exact Nat.le_refl _
      · simp only []
        rw [d5 _ hne, hhp]
      · rw [d1]; exact hext.1
      · rw [d5 q hqp]; exact hext.2 q hq
      · simp only [hn0, if_false]; rw [d2, hcp]
      · rw [d2, hcp] at h2
        have := hnf (j - w.copies) (by omega)
        rwa [show w.copies + (j - w.copies) = j by omega] at this
    · subst hr
      simp only [Prod.mk.injEq] at h
      obtain ⟨rfl, rfl, rfl⟩ := h
      exact Or.inr (Or.inr ⟨rfl, rfl, hext, hlt, hcl⟩)

/-- A request that fits `size_t`: the new buffer has exactly `n` slots. -/
theorem new_buffer_fit (F : Faults T) (w : World T) (v : vector) (xs : List T) (n : Nat)
    (hH : Stored w v xs) (hn : v.size_ ≤ n) (hfit : n * Sized.bytes T < 2 ^ 64)
    (w1 : World T) (v1 : vector) (r : Res Unit)
    (h : new_buffer F w v n = (w1, v1, r)) :
    (r = Res.thrown ∧ v1 = v ∧ Extends w w1) ∨
      (r = Res.ok () ∧ v1.size_ = v.size_ ∧ v1.capacity_ = n ∧ Stored w1 v1 xs ∧
        Frame w w1 v.data_ ∧ (n = 0 ∨ w.top < v1.data_) ∧
        w1.copies = w.copies + (if n = 0 then 0 else xs.length) ∧
        ∀ j, w.copies ≤ j → j < w1.copies → F.copy j = false) := by
  have hsl : slots T n = n := slots_of_fit n hfit
  have hsz : v.size_ = xs.length := hH.1
  rcases new_buffer_spec F w v xs n hH hn w1 v1 r h with
    h1 | ⟨hr, hs, hc, hB, _, hrest⟩ | ⟨_, _, _, hlt, _⟩
  · exact Or.inl h1
  · refine Or.inr ⟨hr, hs, hc, stored_of_backed w1 v1 xs _ hB ?_, hrest⟩
    rw [hsl, hc, hs, hsz]
  · rw [hsl] at hlt
    omega

/-! ## Construction in a raw slot -/

theorem construct_at_spec (F : Faults T) (w : World T) (p : Nat) (ys : List T) (k : Nat) (x : T)
    (hp : w.heap p = some (ys.map some ++ List.replicate (k + 1) Option.none))
    (w1 : World T) (r : Res Unit) (h : construct_at F w p ys.length x = (w1, r)) :
    w1.top = w.top ∧ (∀ q, q ≠ p → w1.heap q = w.heap q) ∧ w1.copies = w.copies + 1 ∧
      ((r = Res.thrown ∧ F.copy w.copies = true ∧ w1.heap p = w.heap p) ∨
        (r = Res.ok () ∧ F.copy w.copies = false ∧
          w1.heap p = some ((ys ++ [x]).map some ++ List.replicate k Option.none))) := by
  have ht : w.slot p ys.length = some Option.none := by
    simp only [World.slot, hp]
    exact getElem?_raw ys _
  cases hc : F.copy w.copies with
  | true =>
    simp only [construct_at, ht, copy_value, hc, if_true, Prod.mk.injEq] at h
    obtain ⟨rfl, rfl⟩ := h
    exact ⟨rfl, fun _ _ => rfl, rfl, Or.inl ⟨rfl, rfl, rfl⟩⟩
  | false =>
    simp only [construct_at, ht, copy_value, hc, Bool.false_eq_true, if_false, World.setSlot, hp,
      World.store, World.emit, Prod.mk.injEq] at h
    obtain ⟨rfl, rfl⟩ := h
    refine ⟨rfl, fun q hq => by simp only [hq, if_false], rfl, Or.inr ⟨rfl, rfl, ?_⟩⟩
    simp only [if_true]
    rw [set_raw]

/-! ## `push_back` -/

theorem copy_value_spec (F : Faults T) (w : World T) (x : T) (w1 : World T) (r : Res T)
    (h : copy_value F w x = (w1, r)) :
    w1.heap = w.heap ∧ w1.top = w.top ∧ w1.copies = w.copies + 1 ∧
      ((r = Res.thrown ∧ F.copy w.copies = true) ∨ (r = Res.ok x ∧ F.copy w.copies = false)) := by
  cases hc : F.copy w.copies with
  | true =>
    simp only [copy_value, hc, if_true, Prod.mk.injEq] at h
    obtain ⟨rfl, rfl⟩ := h
    exact ⟨rfl, rfl, rfl, Or.inl ⟨rfl, rfl⟩⟩
  | false =>
    simp only [copy_value, hc, Bool.false_eq_true, if_false, Prod.mk.injEq] at h
    obtain ⟨rfl, rfl⟩ := h
    exact ⟨rfl, rfl, rfl, Or.inr ⟨rfl, rfl⟩⟩

theorem increase_capacity_eq (v : vector) : increase_capacity v = max 1 (2 * v.capacity_) := by
  unfold increase_capacity
  by_cases h : v.capacity_ = 0
  · simp [h]
  · rw [if_neg h, Nat.max_def]
    have : 1 ≤ 2 * v.capacity_ := by omega
    rw [if_pos this]; omega

theorem push_back_spec (F : Faults T) (w : World T) (v : vector) (xs : List T) (x : T)
    (hH : Holds w v xs) (w1 : World T) (v1 : vector) (r : Res Unit)
    (h : push_back F w v x = (w1, v1, r)) :
    Frame w w1 v.data_ ∧
      ((r = Res.ok () ∧ Holds w1 v1 (xs ++ [x]) ∧ v1.size_ = v.size_ + 1 ∧
          v1.capacity_ = (if v.size_ = v.capacity_ then max 1 (2 * v.capacity_)
            else v.capacity_) ∧
          (v1.data_ = v.data_ ∨ w.top < v1.data_)) ∨
        (r = Res.thrown ∧ v1 = v ∧ Holds w1 v xs) ∨
        (r = Res.thrown ∧ v.size_ = v.capacity_ ∧ v1.size_ = v.size_ ∧
          v1.capacity_ = max 1 (2 * v.capacity_) ∧ Holds w1 v1 xs) ∨
        (r = Res.undefined ∧ v1 = v ∧ v.size_ = v.capacity_ ∧
          2 ^ 64 ≤ max 1 (2 * v.capacity_) * Sized.bytes T)) := by
  obtain ⟨⟨hsz, hle, hnull, htop, hheap⟩, hres⟩ := id hH
  by_cases hfull : v.size_ = v.capacity_
  · unfold push_back at h
    rw [if_pos hfull] at h
    unfold push_back_realloc at h
    rcases hcv : copy_value F w x with ⟨wt, rt⟩
    rw [hcv] at h
    obtain ⟨t1, t2, _, t4⟩ := copy_value_spec F w x wt rt hcv
    have hHt : Stored wt v xs :=
      ⟨hsz, hle, hnull, by rw [t2]; exact htop, fun hc => by rw [t1]; exact hheap hc⟩
    rcases t4 with ⟨hrt, _⟩ | ⟨hrt, _⟩
    · subst hrt
      simp only [Prod.mk.injEq] at h
      obtain ⟨rfl, rfl, rfl⟩ := h
      exact ⟨⟨Nat.le_of_eq t2.symm, fun q _ _ => by rw [t1]⟩,
        Or.inr (Or.inl ⟨rfl, rfl, hHt, hres⟩)⟩
    · subst hrt
      simp only at h
      have hinc := increase_capacity_eq v
      have hge : v.size_ ≤ increase_capacity v := by
        rw [hinc, Nat.max_def]; split <;> omega
      rcases hnb : new_buffer F wt v (increase_capacity v) with ⟨w2, v2, r2⟩
      rw [hnb] at h
      rcases new_buffer_spec F _ v xs _ hHt hge w2 v2 r2 hnb with
        ⟨hr, hv, hext⟩ | ⟨hr, hs2, hc2, hB2, hroom, hfr, hfresh, _, _⟩ | ⟨hr, hv, hext, hshort, _⟩
      · subst hr
        subst hv
        simp only [Prod.mk.injEq] at h
        obtain ⟨rfl, rfl, rfl⟩ := h
        refine ⟨⟨by rw [← t2]; exact hext.1, fun q hq _ => ?_⟩,
          Or.inr (Or.inl ⟨rfl, rfl, holds_of_extends _ _ _ _ hHt hext, hres⟩)⟩
        rw [hext.2 q (by rw [t2]; exact hq), t1]
      · subst hr
        simp only at h
        have hfit : increase_capacity v * Sized.bytes T < 2 ^ 64 := by
          rw [hinc]
          apply fit_increase v.capacity_ hres
          rw [← hinc, ← hfull, hsz]
          exact hroom
        have hres2 : v2.capacity_ * Sized.bytes T < 2 ^ 64 := by rw [hc2]; exact hfit
        have hH2 : Stored w2 v2 xs := by
          apply stored_of_backed w2 v2 xs _ hB2
          rw [slots_of_fit _ hfit, hc2, hs2, hsz]
        have hpos : 0 < increase_capacity v := by
          rw [hinc, Nat.max_def]; split <;> omega
        have hfresh2 : w.top < v2.data_ := by
          rcases hfresh with h0 | h0
          · omega
          · rw [← t2]; exact h0
        obtain ⟨g1, g2, g3, g4, g5⟩ := id hH2
        have hk : v2.capacity_ - v2.size_ = (v2.capacity_ - v2.size_ - 1) + 1 := by
          rw [hinc, Nat.max_def] at hc2
          split at hc2 <;> omega
        have hp2 : w2.heap v2.data_ = some (xs.map some ++
            List.replicate ((v2.capacity_ - v2.size_ - 1) + 1) Option.none) := by
          rw [← hk]; exact g5 (by omega)
        rcases hca : construct_at F w2 v2.data_ v2.size_ x with ⟨w3, r3⟩
        rw [hca] at h
        have hca' : construct_at F w2 v2.data_ xs.length x = (w3, r3) := by
          rw [← g1]; exact hca
        obtain ⟨c1, c2, _, c4⟩ := construct_at_spec F w2 v2.data_ xs _ x hp2 w3 r3 hca'
        have hfr3 : Frame w w3 v.data_ := by
          refine ⟨by rw [c1, ← t2]; exact hfr.1, fun q hq hqp => ?_⟩
          rw [c2 q (by omega), hfr.2 q (by rw [t2]; exact hq) hqp, t1]
        rcases c4 with ⟨hr3, _, hh3⟩ | ⟨hr3, _, hh3⟩
        · subst hr3
          simp only [Prod.mk.injEq] at h
          obtain ⟨rfl, rfl, rfl⟩ := h
          refine ⟨hfr3, Or.inr (Or.inr (Or.inl ⟨rfl, hfull, hs2, by rw [hc2, hinc], ?_, hres2⟩))⟩
          exact ⟨g1, g2, g3, by rw [c1]; exact g4, fun hc => by rw [hh3]; exact g5 hc⟩
        · subst hr3
          simp only [Prod.mk.injEq] at h
          obtain ⟨rfl, rfl, rfl⟩ := h
          refine ⟨hfr3, Or.inl ⟨rfl, ⟨⟨?_, ?_, g3, ?_, fun _ => ?_⟩, hres2⟩, ?_, ?_,
            Or.inr hfresh2⟩⟩
          · simp [g1]
          · simp only []; omega
          · simp only [c1]; exact g4
          · simp only []
            rw [hh3]
            congr 2
          · simp only []; omega
          · simp only [hfull, if_true]; rw [hc2, hinc]
      · subst hr
        subst hv
        simp only [Prod.mk.injEq] at h
        obtain ⟨rfl, rfl, rfl⟩ := h
        refine ⟨⟨by rw [← t2]; exact hext.1, fun q hq _ => ?_⟩,
          Or.inr (Or.inr (Or.inr ⟨rfl, rfl, hfull, ?_⟩))⟩
        · rw [hext.2 q (by rw [t2]; exact hq), t1]
        · rw [← hinc]
          apply Nat.le_of_not_lt
          intro hfit
          rw [slots_of_fit _ hfit] at hshort
          omega
  · unfold push_back at h
    rw [if_neg hfull] at h
    have hk : v.capacity_ - v.size_ = (v.capacity_ - v.size_ - 1) + 1 := by omega
    have hp : w.heap v.data_ = some (xs.map some ++
        List.replicate ((v.capacity_ - v.size_ - 1) + 1) Option.none) := by
      rw [← hk]; exact hheap (by omega)
    rcases hca : construct_at F w v.data_ v.size_ x with ⟨w3, r3⟩
    rw [hca] at h
    have hca' : construct_at F w v.data_ xs.length x = (w3, r3) := by
      rw [← hsz]; exact hca
    obtain ⟨c1, c2, _, c4⟩ := construct_at_spec F w v.data_ xs _ x hp w3 r3 hca'
    have hfr3 : Frame w w3 v.data_ :=
      ⟨by rw [c1], fun q _ hqp => c2 q hqp⟩
    rcases c4 with ⟨hr3, _, hh3⟩ | ⟨hr3, _, hh3⟩
    · subst hr3
      simp only [Prod.mk.injEq] at h
      obtain ⟨rfl, rfl, rfl⟩ := h
      refine ⟨hfr3, Or.inr (Or.inl ⟨rfl, rfl, ?_, hres⟩)⟩
      exact ⟨hsz, hle, hnull, by rw [c1]; exact htop, fun hc => by rw [hh3]; exact hheap hc⟩
    · subst hr3
      simp only [Prod.mk.injEq] at h
      obtain ⟨rfl, rfl, rfl⟩ := h
      refine ⟨hfr3, Or.inl ⟨rfl, ⟨⟨?_, ?_, hnull, ?_, fun _ => ?_⟩, hres⟩, rfl, ?_, Or.inl rfl⟩⟩
      · simp [hsz]
      · simp only []; omega
      · simp only [c1]; exact htop
      · simp only []
        rw [hh3]
        congr 2
      · simp only [hfull, if_false]

/-! ## Results on `push_back` -/

/-- C1: on a vector holding `xs` (size `s`, capacity `c`, `s ≤ c`), a successful
`push_back(x)` leaves the vector holding `xs ++ [x]` with size `s + 1`; the capacity
is `c` when `s < c` and `max 1 (2 * c)` when `s = c`. -/
theorem push_back_appends (F : Faults T) (w : World T) (v : vector) (xs : List T) (x : T)
    (w1 : World T) (v1 : vector) (hH : Holds w v xs)
    (h : push_back F w v x = (w1, v1, Res.ok ())) :
    Holds w1 v1 (xs ++ [x]) ∧ v1.size_ = v.size_ + 1 ∧
      (v.size_ < v.capacity_ → v1.capacity_ = v.capacity_) ∧
      (v.size_ = v.capacity_ → v1.capacity_ = max 1 (2 * v.capacity_)) := by
  rcases push_back_spec F w v xs x hH w1 v1 _ h with
    ⟨_, ⟨_, hH1, hs, hc, _⟩ | ⟨hr, _⟩ | ⟨hr, _⟩ | ⟨hr, _⟩⟩
  · refine ⟨hH1, hs, fun hlt => ?_, fun heq => ?_⟩
    · rw [hc, if_neg (by omega)]
    · rw [hc, if_pos heq]
  · exact absurd hr (by simp)
  · exact absurd hr (by simp)
  · exact absurd hr (by simp)

theorem push_back_appends_witness :
    Holds (built [1, 2]).1 (built [1, 2]).2.1 [1, 2] ∧
      Holds (push_back (Faults.none Nat) (built [1, 2]).1 (built [1, 2]).2.1 3).1
        (push_back (Faults.none Nat) (built [1, 2]).1 (built [1, 2]).2.1 3).2.1 ([1, 2] ++ [3]) ∧
      (push_back (Faults.none Nat) (built [1, 2]).1 (built [1, 2]).2.1 3).2.1.capacity_ =
        max 1 (2 * (built [1, 2]).2.1.capacity_) :=
  have h := push_back_appends (Faults.none Nat) (built [1, 2]).1 (built [1, 2]).2.1 [1, 2] 3
    _ _ (by decide) rfl
  ⟨by decide, h.1, h.2.2.2 (by decide)⟩

/-- C2: `push_back` is declared `strong`, yet when the construction of the new
element in slot `size` throws on the reallocating path the new buffer has already
been adopted. On an empty vector (capacity 0) the call throws and leaves
capacity 1; on a full vector holding `[1]` (capacity 1) it throws and leaves
capacity 2, the elements and the size being what they were. -/
theorem push_back_throw_keeps_new_buffer :
    (push_back (Faults.copyAt Nat 1) (World.init Nat) ctor 7).2 = (⟨1, 0, 1⟩, Res.thrown) ∧
      (push_all (Faults.copyAt Nat 4) (World.init Nat) ctor [1]).2 = (⟨1, 1, 1⟩, Res.ok ()) ∧
      (push_back (Faults.copyAt Nat 4)
        (push_all (Faults.copyAt Nat 4) (World.init Nat) ctor [1]).1 ⟨1, 1, 1⟩ 2).2 =
        (⟨2, 1, 2⟩, Res.thrown) := by
  decide

/-! ## Sequences of `push_back` -/

theorem holds_ctor (w : World T) : Holds w ctor ([] : List T) :=
  ⟨⟨rfl, Nat.le_refl _, by simp [ctor], Nat.zero_le _, fun h => absurd h (by simp [ctor])⟩,
    by simp [ctor]⟩

theorem push_all_append (F : Faults T) :
    ∀ (ys zs : List T) (w : World T) (v : vector) (w2 : World T) (v2 : vector),
      push_all F w v (ys ++ zs) = (w2, v2, Res.ok ()) ↔
        ∃ w1 v1, push_all F w v ys = (w1, v1, Res.ok ()) ∧
          push_all F w1 v1 zs = (w2, v2, Res.ok ()) := by
  intro ys
  induction ys with
  | nil =>
    intro zs w v w2 v2
    simp only [List.nil_append, push_all, Prod.mk.injEq, and_true]
    constructor
    · intro h; exact ⟨w, v, ⟨rfl, rfl⟩, h⟩
    · rintro ⟨w1, v1, ⟨rfl, rfl⟩, h⟩; exact h
  | cons y ys ih =>
    intro zs w v w2 v2
    simp only [List.cons_append, push_all]
    rcases hpb : push_back F w v y with ⟨w', v', r'⟩
    cases r' with
    | ok u => simp only []; exact ih zs w' v' w2 v2
    | thrown => simp
    | undefined => simp

theorem push_back_doubled (v v1 : vector)
    (hs : v1.size_ = v.size_ + 1)
    (hc : v1.capacity_ = if v.size_ = v.capacity_ then max 1 (2 * v.capacity_) else v.capacity_)
    (hD : Doubled v) : Doubled v1 := by
  right
  refine ⟨by omega, ?_⟩
  rcases hD with ⟨h0, hc0⟩ | ⟨hpos, k, hk, hlt⟩
  · refine ⟨0, ?_, ?_⟩
    · rw [hc, if_pos (by omega), hc0]; simp
    · rw [hc, if_pos (by omega), hc0]; simp; omega
  · by_cases hfull : v.size_ = v.capacity_
    · have hmax : max 1 (2 * v.capacity_) = 2 * v.capacity_ := by
        rw [Nat.max_def]; split <;> omega
      refine ⟨k + 1, ?_, ?_⟩
      · rw [hc, if_pos hfull, hmax, hk, Nat.pow_succ]; omega
      · rw [hc, if_pos hfull, hmax]; omega
    · refine ⟨k, ?_, ?_⟩
      · rw [hc, if_neg hfull, hk]
      · rw [hc, if_neg hfull]; omega

theorem push_all_spec (F : Faults T) :
    ∀ (xs ys : List T) (w : World T) (v : vector) (w1 : World T) (v1 : vector),
      Holds w v ys → push_all F w v xs = (w1, v1, Res.ok ()) →
        Holds w1 v1 (ys ++ xs) ∧ v.capacity_ ≤ v1.capacity_ ∧ (Doubled v → Doubled v1) := by
  intro xs
  induction xs with
  | nil =>
    intro ys w v w1 v1 hH h
    simp only [push_all, Prod.mk.injEq, and_true] at h
    obtain ⟨rfl, rfl⟩ := h
    simp only [List.append_nil]
    exact ⟨hH, Nat.le_refl _, fun h => h⟩
  | cons x xs ih =>
    intro ys w v w1 v1 hH h
    simp only [push_all] at h
    rcases hpb : push_back F w v x with ⟨w', v', r'⟩
    rw [hpb] at h
    cases r' with
    | ok u =>
      cases u
      simp only at h
      rcases push_back_spec F w v ys x hH w' v' _ hpb with
        ⟨_, ⟨_, hH1, hs, hc, _⟩ | ⟨hr, _⟩ | ⟨hr, _⟩ | ⟨hr, _⟩⟩
      · obtain ⟨i1, i2, i3⟩ := ih (ys ++ [x]) w' v' w1 v1 hH1 h
        refine ⟨by simpa using i1, Nat.le_trans ?_ i2, fun hD =>
          i3 (push_back_doubled v v' hs hc hD)⟩
        rw [hc]
        split
        · rw [Nat.max_def]; split <;> omega
        · exact Nat.le_refl _
      · exact absurd hr (by simp)
      · exact absurd hr (by simp)
      · exact absurd hr (by simp)
    | thrown => simp at h
    | undefined => simp at h

/-- C3: after `ys.length + 1` successful `push_back` on a default-constructed vector
the capacity is the smallest power of two that is at least the number of appends;
it is 1 after the first one, it doubles on the `push_back` made while `size = capacity`
and is unchanged by every other `push_back`. -/
theorem push_back_capacity_pow2 (F : Faults T) (w : World T) (ys : List T) (y : T)
    (w1 : World T) (v1 : vector) (w2 : World T) (v2 : vector)
    (h1 : push_all F w ctor ys = (w1, v1, Res.ok ()))
    (h2 : push_back F w1 v1 y = (w2, v2, Res.ok ())) :
    (ys = [] → v2.capacity_ = 1) ∧
      (∃ k, v2.capacity_ = 2 ^ k ∧ ys.length + 1 ≤ 2 ^ k ∧
        ∀ j, ys.length + 1 ≤ 2 ^ j → 2 ^ k ≤ 2 ^ j) ∧
      (ys ≠ [] → v1.size_ = v1.capacity_ → v2.capacity_ = 2 * v1.capacity_) ∧
      (v1.size_ ≠ v1.capacity_ → v2.capacity_ = v1.capacity_) := by
  obtain ⟨hH1, _, hD1⟩ := push_all_spec F ys [] w ctor w1 v1 (holds_ctor w) h1
  simp only [List.nil_append] at hH1
  have hD1 := hD1 (Or.inl ⟨rfl, rfl⟩)
  rcases push_back_spec F w1 v1 ys y hH1 w2 v2 _ h2 with
    ⟨_, ⟨_, hH2, hs, hc, _⟩ | ⟨hr, _⟩ | ⟨hr, _⟩ | ⟨hr, _⟩⟩
  · have hD2 := push_back_doubled v1 v2 hs hc hD1
    have hsz1 : v1.size_ = ys.length := hH1.1.1
    have hle2 : v2.size_ ≤ v2.capacity_ := hH2.1.2.1
    refine ⟨fun hnil => ?_, ?_, fun hne hfull => ?_, fun hnf => ?_⟩
    · subst hnil
      rcases hD1 with ⟨_, hc0⟩ | ⟨hpos, _⟩
      · rw [hc, if_pos (by simp at hsz1; omega), hc0]; simp
      · simp at hsz1; omega
    · rcases hD2 with ⟨h0, _⟩ | ⟨_, k, hk, hlt⟩
      · omega
      · refine ⟨k, hk, by omega, fun j hj => ?_⟩
        by_contra hcon
        have hjk : j < k := by
          have := Nat.lt_of_not_le hcon
          exact (Nat.pow_lt_pow_iff_right (by omega)).mp this
        have hpow : 2 ^ (j + 1) ≤ 2 ^ k := Nat.pow_le_pow_right (by omega) hjk
        rw [Nat.pow_succ] at hpow
        omega
    · have hpos : 0 < ys.length := List.length_pos.mpr hne
      rw [hc, if_pos hfull, Nat.max_def]
      split <;> omega
    · rw [hc, if_neg hnf]
  · exact absurd hr (by simp)
  · exact absurd hr (by simp)
  · exact absurd hr (by simp)

theorem push_back_capacity_pow2_witness :
    (built [1, 2]).2.2 = Res.ok () ∧
      (∃ k, (push_back (Faults.none Nat) (built [1, 2]).1 (built [1, 2]).2.1 3).2.1.capacity_ =
          2 ^ k ∧ [1, 2].length + 1 ≤ 2 ^ k ∧ ∀ j, [1, 2].length + 1 ≤ 2 ^ j → 2 ^ k ≤ 2 ^ j) :=
  ⟨by decide,
    (push_back_capacity_pow2 (Faults.none Nat) (World.init Nat) [1, 2] 3 _ _ _ _
      (show push_all (Faults.none Nat) (World.init Nat) ctor [1, 2] =
        ((built [1, 2]).1, (built [1, 2]).2.1, Res.ok ()) from rfl)
      (show push_back (Faults.none Nat) (built [1, 2]).1 (built [1, 2]).2.1 3 =
        ((push_back (Faults.none Nat) (built [1, 2]).1 (built [1, 2]).2.1 3).1,
          (push_back (Faults.none Nat) (built [1, 2]).1 (built [1, 2]).2.1 3).2.1, Res.ok ())
        from rfl)).2.1⟩

/-- C4: when the values `ys ++ zs` are pushed one by one on a default-constructed
vector, the state reached after `ys` holds exactly `ys` (size `ys.length`, at most
the capacity), the final state holds `ys ++ zs`, and the capacity after `ys` is at
most the capacity after `ys ++ zs`; with `zs = [z]` this is a single append. -/
theorem push_all_size_capacity (F : Faults T) (w : World T) (ys zs : List T)
    (w2 : World T) (v2 : vector)
    (h : push_all F w ctor (ys ++ zs) = (w2, v2, Res.ok ())) :
    ∃ w1 v1, push_all F w ctor ys = (w1, v1, Res.ok ()) ∧
      Holds w1 v1 ys ∧ v1.size_ = ys.length ∧ v1.size_ ≤ v1.capacity_ ∧
      v1.capacity_ ≤ v2.capacity_ ∧
      Holds w2 v2 (ys ++ zs) ∧ v2.size_ = (ys ++ zs).length ∧ v2.size_ ≤ v2.capacity_ := by
  obtain ⟨w1, v1, h1, h2⟩ := (push_all_append F ys zs w ctor w2 v2).mp h
  obtain ⟨hH1, _, _⟩ := push_all_spec F ys [] w ctor w1 v1 (holds_ctor w) h1
  simp only [List.nil_append] at hH1
  obtain ⟨hH2, hmono, _⟩ := push_all_spec F zs ys w1 v1 w2 v2 hH1 h2
  exact ⟨w1, v1, h1, hH1, hH1.1.1, hH1.1.2.1, hmono, hH2, hH2.1.1, hH2.1.2.1⟩

theorem push_all_size_capacity_witness :
    ∃ w1 v1, push_all (Faults.none Nat) (World.init Nat) ctor [1, 2] = (w1, v1, Res.ok ()) ∧
      Holds w1 v1 [1, 2] ∧ v1.size_ = [1, 2].length ∧ v1.size_ ≤ v1.capacity_ ∧
      v1.capacity_ ≤ (built ([1, 2] ++ [3])).2.1.capacity_ ∧
      Holds (built ([1, 2] ++ [3])).1 (built ([1, 2] ++ [3])).2.1 ([1, 2] ++ [3]) ∧
      (built ([1, 2] ++ [3])).2.1.size_ = ([1, 2] ++ [3]).length ∧
      (built ([1, 2] ++ [3])).2.1.size_ ≤ (built ([1, 2] ++ [3])).2.1.capacity_ :=
  push_all_size_capacity (Faults.none Nat) (World.init Nat) [1, 2] [3] _ _
    (show push_all (Faults.none Nat) (World.init Nat) ctor ([1, 2] ++ [3]) =
      ((built ([1, 2] ++ [3])).1, (built ([1, 2] ++ [3])).2.1, Res.ok ()) from rfl)

/-! ## The structural invariant -/

theorem copy_and_construct_ptr (F : Faults T) (w : World T) (src size cap : Nat)
    (w1 : World T) (p : Nat) (h : copy_and_construct F w src size cap = (w1, Res.ok p)) :
    (p ≠ 0 ↔ 0 < cap) := by
  by_cases hcap : cap = 0
  · subst hcap
    rw [copy_and_construct_zero] at h
    simp only [Prod.mk.injEq, Res.ok.injEq] at h
    simp [← h.2]
  · cases ha : F.alloc w.allocs with
    | true =>
      rw [copy_and_construct_alloc_thrown F w src size cap hcap ha] at h
      simp at h
    | false =>
      simp only [copy_and_construct, hcap, ne_eq, not_false_eq_true, if_true, allocate, ha,
        Bool.false_eq_true, if_false] at h
      split at h
      · simp only [Prod.mk.injEq, Res.ok.injEq] at h
        rw [← h.2]
        simp; omega
      · simp at h
      · simp at h

theorem new_buffer_inv (F : Faults T) (w : World T) (v : vector) (n : Nat)
    (w1 : World T) (v1 : vector) (r : Res Unit) (hI : Inv v) (hn : v.size_ ≤ n)
    (h : new_buffer F w v n = (w1, v1, r)) : Inv v1 := by
  by_cases hn0 : n = 0
  · subst hn0
    simp only [new_buffer, ne_eq, not_true_eq_false, if_false, swap, ctor, Prod.mk.injEq] at h
    rw [← h.2.1]
    simp [Inv]
  · simp only [new_buffer, hn0, ne_eq, not_false_eq_true, if_true] at h
    rcases hcc : copy_and_construct F w v.data_ v.size_ n with ⟨w', r'⟩
    rw [hcc] at h
    cases r' with
    | ok p =>
      simp only [swap, Prod.mk.injEq] at h
      rw [← h.2.1]
      exact ⟨hn, copy_and_construct_ptr F w _ _ _ w' p hcc⟩
    | thrown =>
      simp only [Prod.mk.injEq] at h
      rw [← h.2.1]; exact hI
    | undefined =>
      simp only [Prod.mk.injEq] at h
      rw [← h.2.1]; exact hI

theorem inv_size_succ (v : vector) (hI : Inv v) (hlt : v.size_ < v.capacity_) :
    Inv { v with size_ := v.size_ + 1 } :=
  ⟨hlt, hI.2⟩

theorem push_back_inv (F : Faults T) (w : World T) (v : vector) (x : T)
    (w1 : World T) (v1 : vector) (r : Res Unit) (hI : Inv v)
    (h : push_back F w v x = (w1, v1, r)) : Inv v1 := by
  unfold push_back at h
  by_cases hfull : v.size_ = v.capacity_
  · rw [if_pos hfull] at h
    unfold push_back_realloc at h
    rcases hcv : copy_value F w x with ⟨wt, rt⟩
    rw [hcv] at h
    cases rt with
    | ok c =>
      simp only at h
      rcases hnb : new_buffer F wt v (increase_capacity v) with ⟨w2, v2, r2⟩
      rw [hnb] at h
      have hge : v.size_ ≤ increase_capacity v := by
        rw [increase_capacity_eq, Nat.max_def]; split <;> omega
      have hI2 := new_buffer_inv F wt v _ w2 v2 r2 hI hge hnb
      cases r2 with
      | ok u =>
        simp only at h
        have hv2 : v2.size_ < v2.capacity_ := by
          by_cases hn0 : increase_capacity v = 0
          · rw [increase_capacity_eq, Nat.max_def] at hn0
            split at hn0 <;> omega
          · simp only [new_buffer, hn0, ne_eq, not_false_eq_true, if_true] at hnb
            rcases hcc : copy_and_construct F wt v.data_ v.size_ (increase_capacity v) with
              ⟨w', r'⟩
            rw [hcc] at hnb
            cases r' with
            | ok p =>
              simp only [swap, Prod.mk.injEq] at hnb
              rw [← hnb.2.1]
              simp only [increase_capacity_eq, Nat.max_def]
              split <;> omega
            | thrown => simp at hnb
            | undefined => simp at hnb
        rcases hca : construct_at F w2 v2.data_ v2.size_ c with ⟨w3, r3⟩
        rw [hca] at h
        cases r3 with
        | ok u2 =>
          simp only [Prod.mk.injEq] at h
          rw [← h.2.1]; exact inv_size_succ v2 hI2 hv2
        | thrown =>
          simp only [Prod.mk.injEq] at h
          rw [← h.2.1]; exact hI2
        | undefined =>
          simp only [Prod.mk.injEq] at h
          rw [← h.2.1]; exact hI2
      | thrown =>
        simp only [Prod.mk.injEq] at h
        rw [← h.2.1]; exact hI2
      | undefined =>
        simp only [Prod.mk.injEq] at h
        rw [← h.2.1]; exact hI2
    | thrown =>
      simp only [Prod.mk.injEq] at h
      rw [← h.2.1]; exact hI
    | undefined =>
      simp only [Prod.mk.injEq] at h
      rw [← h.2.1]; exact hI
  · rw [if_neg hfull] at h
    rcases hca : construct_at F w v.data_ v.size_ x with ⟨w3, r3⟩
    rw [hca] at h
    cases r3 with
    | ok u2 =>
      simp only [Prod.mk.injEq] at h
      rw [← h.2.1]; exact inv_size_succ v hI (by have := hI.1; omega)
    | thrown =>
      simp only [Prod.mk.injEq] at h
      rw [← h.2.1]; exact hI
    | undefined =>
      simp only [Prod.mk.injEq] at h
      rw [← h.2.1]; exact hI

theorem insert_inv (F : Faults T) (w : World T) (v : vector) (pos : iterator) (x : T)
    (w1 : World T) (v1 : vector) (r : Res iterator) (hI : Inv v)
    (h : insert F w v pos x = (w1, v1, r)) : Inv v1 := by
  unfold insert at h
  by_cases hp : pos.1 = v.data_
  · rw [if_pos hp] at h
    rcases hpb : push_back F w v x with ⟨w2, v2, r2⟩
    rw [hpb] at h
    have hI2 := push_back_inv F w v x w2 v2 r2 hI hpb
    cases r2 with
    | ok u =>
      simp only at h
      rcases hl : insert_loop F v2.data_ (v2.size_ - 1 - pos.2) (v2.size_ - 1) w2 with ⟨w3, r3⟩
      rw [hl] at h
      cases r3 <;> (simp only [Prod.mk.injEq] at h; rw [← h.2.1]; exact hI2)
    | thrown =>
      simp only [Prod.mk.injEq] at h
      rw [← h.2.1]; exact hI2
    | undefined =>
      simp only [Prod.mk.injEq] at h
      rw [← h.2.1]; exact hI2
  · rw [if_neg hp] at h
    simp only [Prod.mk.injEq] at h
    rw [← h.2.1]; exact hI

theorem erase_inv (F : Faults T) (w : World T) (v : vector) (first last : iterator)
    (w1 : World T) (v1 : vector) (r : Res iterator) (hI : Inv v)
    (h : erase F w v first last = (w1, v1, r)) : Inv v1 := by
  unfold erase at h
  split at h
  · split at h
    · simp only [Prod.mk.injEq] at h
      rw [← h.2.1]; exact hI
    · split at h
      · split at h
        · simp only [Prod.mk.injEq] at h
          rw [← h.2.1]
          exact ⟨Nat.le_trans (Nat.sub_le _ _) hI.1, hI.2⟩
        · simp only [Prod.mk.injEq] at h
          rw [← h.2.1]; exact hI
        · simp only [Prod.mk.injEq] at h
          rw [← h.2.1]; exact hI
      · simp only [Prod.mk.injEq] at h
        rw [← h.2.1]; exact hI
  · simp only [Prod.mk.injEq] at h
    rw [← h.2.1]; exact hI

theorem copy_ctor_inv (F : Faults T) (w : World T) (src : vector) (w1 : World T) (v1 : vector)
    (h : copy_ctor F w src = (w1, Res.ok v1)) : Inv v1 := by
  unfold copy_ctor at h
  rcases hcc : copy_and_construct F w src.data_ src.size_ src.size_ with ⟨w', r'⟩
  rw [hcc] at h
  cases r' with
  | ok p =>
    simp only [Prod.mk.injEq, Res.ok.injEq] at h
    rw [← h.2]
    exact ⟨Nat.le_refl _, copy_and_construct_ptr F w _ _ _ w' p hcc⟩
  | thrown => simp at h
  | undefined => simp at h

theorem swap_at_eq (objs : Nat → vector) (a b : Nat) :
    swap_at objs a b = fun c => if c = b then objs a else if c = a then objs b else objs c := by
  funext c
  by_cases hab : a = b
  · subst hab
    by_cases hc : c = a
    · subst hc; simp [swap_at, put]
    · simp [swap_at, put, hc]
  · have hba : ¬ b = a := fun h => hab h.symm
    by_cases hcb : c = b
    · subst hcb; simp [swap_at, put, hab, hba]
    · by_cases hca : c = a
      · subst hca; simp [swap_at, put, hab, hba]
      · simp [swap_at, put, hcb, hca]

theorem assign_inv (F : Faults T) (w : World T) (objs : Nat → vector) (a b : Nat)
    (w1 : World T) (objs1 : Nat → vector) (r : Res Unit)
    (ha : Inv (objs a)) (hb : Inv (objs b))
    (h : assign F w objs a b = (w1, objs1, r)) : Inv (objs1 a) ∧ Inv (objs1 b) := by
  unfold assign at h
  by_cases hab : a = b
  · subst hab
    simp only [ne_eq, not_true_eq_false, if_false, Prod.mk.injEq] at h
    rw [← h.2.1]; exact ⟨ha, hb⟩
  · simp only [ne_eq, hab, not_false_eq_true, if_true] at h
    rcases hcc : copy_ctor F w (objs b) with ⟨w', r'⟩
    rw [hcc] at h
    cases r' with
    | ok tmp =>
      simp only [Prod.mk.injEq] at h
      rw [← h.2.1]
      have ht := copy_ctor_inv F w (objs b) w' tmp hcc
      have hba : ¬ b = a := fun h => hab h.symm
      simp only [put, swap, if_true, hba, if_false]
      exact ⟨ht, hb⟩
    | thrown =>
      simp only [Prod.mk.injEq] at h
      rw [← h.2.1]; exact ⟨ha, hb⟩
    | undefined =>
      simp only [Prod.mk.injEq] at h
      rw [← h.2.1]; exact ⟨ha, hb⟩

/-- C5: the invariant `size ≤ capacity` and `buffer non-null ↔ capacity > 0` holds
for a default-constructed vector and for a copy-constructed one, and every call of
`operator=`, `push_back`, `pop_back` (non-empty), `reserve`, `shrink_to_fit`,
`clear`, `swap` (both operands), `insert` (index at most the size) and `erase`
(`first ≤ last ≤ size`) on vectors that satisfy it leaves vectors that satisfy it,
whatever the outcome of the call. -/
theorem structural_invariant (F : Faults T) :
    Inv ctor ∧
      (∀ (w : World T) (src : vector) (w1 : World T) (v1 : vector),
        copy_ctor F w src = (w1, Res.ok v1) → Inv v1) ∧
      (∀ (w : World T) (objs : Nat → vector) (a b : Nat) (w1 : World T)
        (objs1 : Nat → vector) (r : Res Unit), Inv (objs a) → Inv (objs b) →
        assign F w objs a b = (w1, objs1, r) → Inv (objs1 a) ∧ Inv (objs1 b)) ∧
      (∀ (w : World T) (v : vector) (x : T) (w1 : World T) (v1 : vector) (r : Res Unit),
        Inv v → push_back F w v x = (w1, v1, r) → Inv v1) ∧
      (∀ (w : World T) (v : vector) (w1 : World T) (v1 : vector) (r : Res Unit),
        Inv v → v.size_ ≠ 0 → pop_back w v = (w1, v1, r) → Inv v1) ∧
      (∀ (w : World T) (v : vector) (n : Nat) (w1 : World T) (v1 : vector) (r : Res Unit),
        Inv v → reserve F w v n = (w1, v1, r) → Inv v1) ∧
      (∀ (w : World T) (v : vector) (w1 : World T) (v1 : vector) (r : Res Unit),
        Inv v → shrink_to_fit F w v = (w1, v1, r) → Inv v1) ∧
      (∀ (w : World T) (v : vector), Inv v → Inv (clear w v).2) ∧
      (∀ (objs : Nat → vector) (a b : Nat), Inv (objs a) → Inv (objs b) →
        Inv (swap_at objs a b a) ∧ Inv (swap_at objs a b b)) ∧
      (∀ (w : World T) (v : vector) (i : Nat) (x : T) (w1 : World T) (v1 : vector)
        (r : Res iterator), Inv v → i ≤ v.size_ →
        insert F w v (v.data_, i) x = (w1, v1, r) → Inv v1) ∧
      (∀ (w : World T) (v : vector) (f l : Nat) (w1 : World T) (v1 : vector)
        (r : Res iterator), Inv v → f ≤ l → l ≤ v.size_ →
        erase F w v (v.data_, f) (v.data_, l) = (w1, v1, r) → Inv v1) := by
  refine ⟨by simp [Inv, ctor], copy_ctor_inv F, assign_inv F, ?_, ?_, ?_, ?_, ?_, ?_, ?_, ?_⟩
  · intro w v x w1 v1 r hI h
    exact push_back_inv F w v x w1 v1 r hI h
  · intro w v w1 v1 r hI hne h
    simp only [pop_back, hne, if_false, Prod.mk.injEq] at h
    rw [← h.2.1]
    exact ⟨Nat.le_trans (Nat.sub_le _ _) hI.1, hI.2⟩
  · intro w v n w1 v1 r hI h
    unfold reserve at h
    split at h
    · exact new_buffer_inv F w v n w1 v1 r hI (by have := hI.1; omega) h
    · simp only [Prod.mk.injEq] at h
      rw [← h.2.1]; exact hI
  · intro w v w1 v1 r hI h
    unfold shrink_to_fit at h
    split at h
    · exact new_buffer_inv F w v _ w1 v1 r hI (Nat.le_refl _) h
    · simp only [Prod.mk.injEq] at h
      rw [← h.2.1]; exact hI
  · intro w v hI
    exact ⟨Nat.zero_le _, hI.2⟩
  · intro objs a b ha hb
    rw [swap_at_eq]
    by_cases hab : a = b
    · subst hab; simp only [if_true]; exact ⟨ha, ha⟩
    · simp only [hab, if_false, if_true]; exact ⟨hb, ha⟩
  · intro w v i x w1 v1 r hI _ h
    exact insert_inv F w v _ x w1 v1 r hI h
  · intro w v f l w1 v1 r hI _ _ h
    exact erase_inv F w v _ _ w1 v1 r hI h

theorem structural_invariant_witness :
    Inv (built [1, 2, 3]).2.1 ∧
      Inv (⟨4, 3, 3⟩ : vector) ∧
      Inv (push_back (Faults.none Nat) (built [1, 2, 3]).1 (built [1, 2, 3]).2.1 4).2.1 ∧
      Inv (pop_back (built [1, 2, 3]).1 (built [1, 2, 3]).2.1).2.1 ∧
      Inv (reserve (Faults.none Nat) (built [1, 2, 3]).1 (built [1, 2, 3]).2.1 9).2.1 ∧
      Inv (shrink_to_fit (Faults.none Nat) (built [1, 2, 3]).1 (built [1, 2, 3]).2.1).2.1 ∧
      Inv (clear (built [1, 2, 3]).1 (built [1, 2, 3]).2.1).2 ∧
      Inv (insert (Faults.none Nat) (built [1, 2, 3]).1 (built [1, 2, 3]).2.1
        ((built [1, 2, 3]).2.1.data_, 1) 9).2.1 ∧
      Inv (erase (Faults.none Nat) (built [1, 2, 3]).1 (built [1, 2, 3]).2.1
        ((built [1, 2, 3]).2.1.data_, 1) ((built [1, 2, 3]).2.1.data_, 2)).2.1 ∧
      (Inv (swap_at (fun _ => (built [1, 2, 3]).2.1) 0 1 0) ∧
        Inv (swap_at (fun _ => (built [1, 2, 3]).2.1) 0 1 1)) ∧
      (Inv ((assign (Faults.none Nat) (built [1, 2, 3]).1
          (fun a => if a = 0 then ctor else (built [1, 2, 3]).2.1) 0 1).2.1 0) ∧
        Inv ((assign (Faults.none Nat) (built [1, 2, 3]).1
          (fun a => if a = 0 then ctor else (built [1, 2, 3]).2.1) 0 1).2.1 1)) :=
  have hI : Inv (built [1, 2, 3]).2.1 := by decide
  have H := structural_invariant (Faults.none Nat)
  ⟨hI,
    H.2.1 (built [1, 2, 3]).1 (built [1, 2, 3]).2.1
      (copy_ctor (Faults.none Nat) (built [1, 2, 3]).1 (built [1, 2, 3]).2.1).1 ⟨4, 3, 3⟩ rfl,
    H.2.2.2.1 (built [1, 2, 3]).1 (built [1, 2, 3]).2.1 4 _ _ _ hI rfl,
    H.2.2.2.2.1 (built [1, 2, 3]).1 (built [1, 2, 3]).2.1 _ _ _ hI (by decide) rfl,
    H.2.2.2.2.2.1 (built [1, 2, 3]).1 (built [1, 2, 3]).2.1 9 _ _ _ hI rfl,
    H.2.2.2.2.2.2.1 (built [1, 2, 3]).1 (built [1, 2, 3]).2.1 _ _ _ hI rfl,
    H.2.2.2.2.2.2.2.1 (built [1, 2, 3]).1 (built [1, 2, 3]).2.1 hI,
    H.2.2.2.2.2.2.2.2.2.1 (built [1, 2, 3]).1 (built [1, 2, 3]).2.1 1 9 _ _ _ hI (by decide) rfl,
    H.2.2.2.2.2.2.2.2.2.2 (built [1, 2, 3]).1 (built [1, 2, 3]).2.1 1 2 _ _ _ hI (by decide)
      (by decide) rfl,
    H.2.2.2.2.2.2.2.2.1 (fun _ => (built [1, 2, 3]).2.1) 0 1 hI hI,
    H.2.2.1 (built [1, 2, 3]).1 (fun a => if a = 0 then ctor else (built [1, 2, 3]).2.1) 0 1 _ _ _
      (by decide) (by decide) rfl⟩

/-! ## Copy construction -/

theorem pop_back_frame (w : World T) (v : vector) (w1 : World T) (v1 : vector) (r : Res Unit)
    (h : pop_back w v = (w1, v1, r)) : Frame w w1 v.data_ := by
  unfold pop_back at h
  split at h
  · simp only [Prod.mk.injEq] at h
    rw [← h.1]; exact ⟨Nat.le_refl _, fun _ _ _ => rfl⟩
  · simp only [Prod.mk.injEq] at h
    rw [← h.1]
    obtain ⟨g1, _, _, _, g5⟩ := destroy_at_frame w v.data_ (v.size_ - 1)
    exact ⟨Nat.le_of_eq g1.symm, fun q _ hq => g5 q hq⟩

theorem assign_at_frame (F : Faults T) (w : World T) (p i : Nat) (x : T) (w1 : World T)
    (r : Res Unit) (h : assign_at F w p i x = (w1, r)) : Frame w w1 p := by
  unfold assign_at at h
  split at h
  · rename_i old hs
    have hb : ∃ b, w.heap p = some b := by
      cases hp : w.heap p with
      | none => simp [World.slot, hp] at hs
      | some b => exact ⟨b, rfl⟩
    obtain ⟨b, hb⟩ := hb
    split at h
    · simp only [World.setSlot, hb, World.store, Prod.mk.injEq] at h
      rw [← h.1]
      exact ⟨Nat.le_refl _, fun q _ hq => by simp only [hq, if_false]⟩
    · simp only [World.setSlot, hb, World.store, Prod.mk.injEq] at h
      rw [← h.1]
      exact ⟨Nat.le_refl _, fun q _ hq => by simp only [hq, if_false]⟩
  · simp only [Prod.mk.injEq] at h
    rw [← h.1]; exact ⟨Nat.le_refl _, fun _ _ _ => rfl⟩

theorem copy_ctor_spec (F : Faults T) (w : World T) (src : vector) (xs : List T)
    (w1 : World T) (dst : vector) (hH : Holds w src xs)
    (h : copy_ctor F w src = (w1, Res.ok dst)) :
    dst.size_ = src.size_ ∧ dst.capacity_ = src.size_ ∧ Holds w1 dst xs ∧ Holds w1 src xs ∧
      (src.data_ ≠ dst.data_ ∨ src.capacity_ = 0) ∧
      (dst.data_ ≠ src.data_ ∨ dst.capacity_ = 0) ∧
      w1.copies = w.copies + xs.length := by
  obtain ⟨⟨hsz, hle, hnull, htop, hheap⟩, hres⟩ := id hH
  have hfit : xs.length * Sized.bytes T < 2 ^ 64 :=
    Nat.lt_of_le_of_lt (Nat.mul_le_mul_right _ (by omega)) hres
  have hsl : slots T xs.length = xs.length := slots_of_fit _ hfit
  unfold copy_ctor at h
  rcases hcc : copy_and_construct F w src.data_ src.size_ src.size_ with ⟨w', r'⟩
  rw [hcc] at h
  have hcc' : copy_and_construct F w src.data_ xs.length xs.length = (w', r') := by
    rw [← hsz]; exact hcc
  have hspec := copy_and_construct_spec F w src.data_ xs.length xs
    (List.replicate (src.capacity_ - src.size_) Option.none) htop
    (fun hx => hheap (by
      have : 0 < xs.length := List.length_pos.mpr hx
      omega)) w' r' hcc'
  rcases hspec with ⟨hext, hr | ⟨hc0, hr, hw⟩ | ⟨hc0, hr, ht, hcp, hhp, _⟩ | ⟨hr, _⟩⟩
  · subst hr; simp at h
  · subst hr
    subst hw
    simp only [Prod.mk.injEq, Res.ok.injEq] at h
    obtain ⟨rfl, rfl⟩ := h
    have hxs : xs = [] := List.eq_nil_of_length_eq_zero hc0
    subst hxs
    have hs0 : src.size_ = 0 := by simpa using hsz
    refine ⟨rfl, rfl, ⟨⟨by simpa using hs0, Nat.le_refl _, by simp [hs0], Nat.zero_le _,
      fun hc => ?_⟩, by simp [hs0]⟩, hH, ?_, Or.inr hs0, by simp⟩
    · simp only [hs0] at hc; omega
    · by_cases hc : src.capacity_ = 0
      · exact Or.inr hc
      · exact Or.inl (hnull.mpr (by omega))
  · subst hr
    simp only [Prod.mk.injEq, Res.ok.injEq] at h
    obtain ⟨rfl, rfl⟩ := h
    refine ⟨rfl, rfl, ⟨⟨hsz, Nat.le_refl _, ?_, ?_, fun _ => ?_⟩, ?_⟩,
      holds_extends _ _ _ _ hH hext, Or.inl (by simp only []; omega),
      Or.inl (by simp only []; omega), hcp⟩
    · simp only []; omega
    · simp only [ht]; exact Nat.le_refl _
    · simp only []
      rw [hhp, hsl, hsz]
    · simp only []
      rw [hsz]; exact hfit
  · subst hr; simp at h

/-- C6: a successful copy construction from a vector holding `xs` yields a vector
with size and capacity `src.size_` that holds `xs`; the source still holds `xs`;
and `push_back`, `pop_back` or the overwrite of an element on either of the two
vectors, whatever its outcome, leaves the other one holding `xs`. -/
theorem copy_ctor_independent (F : Faults T) (w : World T) (src : vector) (xs : List T)
    (w1 : World T) (dst : vector) (hH : Holds w src xs)
    (h : copy_ctor F w src = (w1, Res.ok dst)) :
    dst.size_ = src.size_ ∧ dst.capacity_ = src.size_ ∧ Holds w1 dst xs ∧ Holds w1 src xs ∧
      (∀ (G : Faults T) (x : T) (w2 : World T) (v2 : vector) (r : Res Unit),
        push_back G w1 dst x = (w2, v2, r) → Holds w2 src xs) ∧
      (∀ (G : Faults T) (x : T) (w2 : World T) (v2 : vector) (r : Res Unit),
        push_back G w1 src x = (w2, v2, r) → Holds w2 dst xs) ∧
      (∀ (w2 : World T) (v2 : vector) (r : Res Unit),
        pop_back w1 dst = (w2, v2, r) → Holds w2 src xs) ∧
      (∀ (w2 : World T) (v2 : vector) (r : Res Unit),
        pop_back w1 src = (w2, v2, r) → Holds w2 dst xs) ∧
      (∀ (G : Faults T) (i : Nat) (x : T) (w2 : World T) (r : Res Unit),
        assign_at G w1 dst.data_ i x = (w2, r) → Holds w2 src xs) ∧
      (∀ (G : Faults T) (i : Nat) (x : T) (w2 : World T) (r : Res Unit),
        assign_at G w1 src.data_ i x = (w2, r) → Holds w2 dst xs) := by
  obtain ⟨h1, h2, hd, hs, hsd, hds, _⟩ := copy_ctor_spec F w src xs w1 dst hH h
  refine ⟨h1, h2, hd, hs, ?_, ?_, ?_, ?_, ?_, ?_⟩
  · intro G x w2 v2 r hp
    exact holds_frame _ _ _ _ _ hs (push_back_spec G w1 dst xs x hd w2 v2 r hp).1 hsd
  · intro G x w2 v2 r hp
    exact holds_frame _ _ _ _ _ hd (push_back_spec G w1 src xs x hs w2 v2 r hp).1 hds
  · intro w2 v2 r hp
    exact holds_frame _ _ _ _ _ hs (pop_back_frame w1 dst w2 v2 r hp) hsd
  · intro w2 v2 r hp
    exact holds_frame _ _ _ _ _ hd (pop_back_frame w1 src w2 v2 r hp) hds
  · intro G i x w2 r hp
    exact holds_frame _ _ _ _ _ hs (assign_at_frame G w1 _ i x w2 r hp) hsd
  · intro G i x w2 r hp
    exact holds_frame _ _ _ _ _ hd (assign_at_frame G w1 _ i x w2 r hp) hds

theorem copy_ctor_independent_witness :
    Holds (built [1, 2, 3]).1 (built [1, 2, 3]).2.1 [1, 2, 3] ∧
      copy_ctor (Faults.none Nat) (built [1, 2, 3]).1 (built [1, 2, 3]).2.1 =
        ((copy_ctor (Faults.none Nat) (built [1, 2, 3]).1 (built [1, 2, 3]).2.1).1,
          Res.ok ⟨4, 3, 3⟩) ∧
      Holds (copy_ctor (Faults.none Nat) (built [1, 2, 3]).1 (built [1, 2, 3]).2.1).1
        ⟨4, 3, 3⟩ [1, 2, 3] ∧
      Holds (copy_ctor (Faults.none Nat) (built [1, 2, 3]).1 (built [1, 2, 3]).2.1).1
        (built [1, 2, 3]).2.1 [1, 2, 3] :=
  have h := copy_ctor_independent (Faults.none Nat) (built [1, 2, 3]).1 (built [1, 2, 3]).2.1
    [1, 2, 3] (copy_ctor (Faults.none Nat) (built [1, 2, 3]).1 (built [1, 2, 3]).2.1).1
    ⟨4, 3, 3⟩ (by decide) rfl
  ⟨by decide, rfl, h.2.2.1, h.2.2.2.1⟩

/-! ## Unwinding of a failed copy construction -/

theorem countP_construct (p : Nat) (l : List Nat) :
    (l.map (Event.construct p)).countP Event.isConstruct = l.length ∧
      (l.map (Event.construct p)).countP Event.isDestroy = 0 ∧
      (l.map (Event.destroy p)).countP Event.isConstruct = 0 ∧
      (l.map (Event.destroy p)).countP Event.isDestroy = l.length := by
  induction l with
  | nil => simp
  | cons a l ih =>
    obtain ⟨h1, h2, h3, h4⟩ := ih
    simp [List.countP_cons, h1, h2, h3, h4, Event.isConstruct, Event.isDestroy]

/-- C7: when the vector `src` holds `xs` and the copy constructor of the element
type succeeds `k` times and throws on its next invocation, `k < xs.length`, copy
construction throws; the events of the call are the allocation, the construction
of slots `0 .. k-1`, the destruction of slots `k-1 .. 0` and the release, so that
as many elements are destroyed as were constructed; the new buffer is gone and the
source holds `xs` as before. -/
theorem copy_ctor_unwinds (F : Faults T) (w : World T) (src : vector) (xs : List T) (k : Nat)
    (hH : Holds w src xs) (hk : k < xs.length) (ha : F.alloc w.allocs = false)
    (hc : ∀ j, j < k → F.copy (w.copies + j) = false)
    (hf : F.copy (w.copies + k) = true) :
    ∃ w1 evs, copy_ctor F w src = (w1, Res.thrown) ∧
      w1.log = w.log ++ evs ∧
      evs = Event.alloc (w.top + 1) xs.length ::
        ((List.range k).map (Event.construct (w.top + 1)) ++
          (List.range k).reverse.map (Event.destroy (w.top + 1)) ++
          [Event.free (w.top + 1)]) ∧
      evs.countP Event.isConstruct = k ∧ evs.countP Event.isDestroy = k ∧
      w1.copies = w.copies + k + 1 ∧
      w1.heap (w.top + 1) = Option.none ∧ Holds w1 src xs := by
  obtain ⟨⟨hsz, hle, hnull, htop, hheap⟩, hres⟩ := id hH
  obtain ⟨zs1, z, zs2, rfl, hl⟩ := split_at_index xs k hk
  subst hl
  have hcap : 0 < src.capacity_ := by omega
  have hlen : (zs1 ++ z :: zs2).length = zs1.length + zs2.length + 1 := by
    simp; omega
  have hfit : (zs1 ++ z :: zs2).length * Sized.bytes T < 2 ^ 64 :=
    Nat.lt_of_le_of_lt (Nat.mul_le_mul_right _ (by omega)) hres
  have hroom : zs1.length < slots T (zs1 ++ z :: zs2).length := by
    rw [slots_of_fit _ hfit]; omega
  have hcc := copy_and_construct_thrown F w src.data_ (zs1 ++ z :: zs2).length zs1 z zs2
    (List.replicate (src.capacity_ - src.size_) Option.none) hroom htop (hheap hcap)
    ha hc hf
  obtain ⟨c1, c2, c3, c4⟩ := countP_construct (w.top + 1) (List.range zs1.length)
  obtain ⟨e1, e2, e3, e4⟩ := countP_construct (w.top + 1) (List.range zs1.length).reverse
  have hcopy : copy_ctor F w src =
      ((copy_and_construct F w src.data_ src.size_ src.size_).1, Res.thrown) := by
    unfold copy_ctor
    rw [hsz, hcc]
  rw [hsz, hcc] at hcopy
  refine ⟨_, Event.alloc (w.top + 1) (zs1 ++ z :: zs2).length ::
        ((List.range zs1.length).map (Event.construct (w.top + 1)) ++
          (List.range zs1.length).reverse.map (Event.destroy (w.top + 1)) ++
          [Event.free (w.top + 1)]), hcopy, ?_, rfl, ?_, ?_, ?_, ?_, ?_⟩
  · simp only [List.range_eq_range']
  · simp only [List.countP_cons, List.countP_append, List.countP_nil, c1, e3, Event.isConstruct]
    simp
  · simp only [List.countP_cons, List.countP_append, List.countP_nil, c2, e4, Event.isDestroy]
    simp
  · rfl
  · simp only [if_true]
  · refine ⟨⟨hsz, hle, hnull, Nat.le_succ_of_le htop, fun hc0 => ?_⟩, hres⟩
    have hne : src.data_ ≠ w.top + 1 := by omega
    simp only [hne, if_false]
    exact hheap hc0

theorem copy_ctor_unwinds_witness :
    ∃ w1 evs,
      copy_ctor (Faults.copyAt Nat ((built [1, 2, 3, 4, 5]).1.copies + 2))
        (built [1, 2, 3, 4, 5]).1 (built [1, 2, 3, 4, 5]).2.1 = (w1, Res.thrown) ∧
      w1.log = (built [1, 2, 3, 4, 5]).1.log ++ evs ∧
      evs = Event.alloc ((built [1, 2, 3, 4, 5]).1.top + 1) [1, 2, 3, 4, 5].length ::
        ((List.range 2).map (Event.construct ((built [1, 2, 3, 4, 5]).1.top + 1)) ++
          (List.range 2).reverse.map (Event.destroy ((built [1, 2, 3, 4, 5]).1.top + 1)) ++
          [Event.free ((built [1, 2, 3, 4, 5]).1.top + 1)]) ∧
      evs.countP Event.isConstruct = 2 ∧ evs.countP Event.isDestroy = 2 ∧
      w1.copies = (built [1, 2, 3, 4, 5]).1.copies + 2 + 1 ∧
      w1.heap ((built [1, 2, 3, 4, 5]).1.top + 1) = Option.none ∧
      Holds w1 (built [1, 2, 3, 4, 5]).2.1 [1, 2, 3, 4, 5] :=
  copy_ctor_unwinds (Faults.copyAt Nat ((built [1, 2, 3, 4, 5]).1.copies + 2))
    (built [1, 2, 3, 4, 5]).1 (built [1, 2, 3, 4, 5]).2.1 [1, 2, 3, 4, 5] 2
    (by decide) (by decide) (by decide) (by decide) (by decide)

/-! ## The strong guarantee of `reserve`, `shrink_to_fit` and `operator=` -/

theorem new_buffer_strong (F : Faults T) (w : World T) (v : vector) (xs : List T) (n : Nat)
    (hH : Holds w v xs) (hn : v.size_ ≤ n) (w1 : World T) (v1 : vector) (r : Res Unit)
    (h : new_buffer F w v n = (w1, v1, r)) :
    (n * Sized.bytes T < 2 ^ 64 → r = Res.ok () ∨ r = Res.thrown) ∧
      (r = Res.undefined → 2 ^ 64 ≤ n * Sized.bytes T ∧ v1 = v ∧ Extends w w1) ∧
      ((∃ j, w.copies ≤ j ∧ j < w1.copies ∧ F.copy j = true) → r = Res.thrown) ∧
      (r = Res.thrown → v1 = v ∧ Holds w1 v xs) := by
  have hsz : v.size_ = xs.length := hH.1.1
  rcases new_buffer_spec F w v xs n hH.1 hn w1 v1 r h with
    ⟨hr, hv, hext⟩ | ⟨hr, _, _, _, _, _, _, _, hnf⟩ | ⟨hr, hv, hext, hlt, hnf⟩
  · exact ⟨fun _ => Or.inr hr, fun hu => by rw [hr] at hu; exact absurd hu (by simp),
      fun _ => hr, fun _ => ⟨hv, holds_extends _ _ _ _ hH hext⟩⟩
  · refine ⟨fun _ => Or.inl hr, fun hu => by rw [hr] at hu; exact absurd hu (by simp), ?_,
      fun hr2 => ?_⟩
    · rintro ⟨j, h1, h2, h3⟩
      rw [hnf j h1 h2] at h3
      exact absurd h3 (by simp)
    · rw [hr] at hr2
      exact absurd hr2 (by simp)
  · have hwrap : 2 ^ 64 ≤ n * Sized.bytes T := by
      apply Nat.le_of_not_lt
      intro hfit
      rw [slots_of_fit n hfit] at hlt
      omega
    refine ⟨fun hfit => by omega, fun _ => ⟨hwrap, hv, hext⟩, ?_, fun hr2 => ?_⟩
    · rintro ⟨j, h1, h2, h3⟩
      rw [hnf j h1 h2] at h3
      exact absurd h3 (by simp)
    · rw [hr] at hr2
      exact absurd hr2 (by simp)

theorem copy_ctor_cases (F : Faults T) (w : World T) (src : vector) (xs : List T)
    (hH : Holds w src xs) (w1 : World T) (r : Res vector)
    (h : copy_ctor F w src = (w1, r)) :
    (r = Res.thrown ∧ Extends w w1) ∨
      (∃ dst, r = Res.ok dst ∧ ∀ j, w.copies ≤ j → j < w1.copies → F.copy j = false) := by
  obtain ⟨⟨hsz, hle, hnull, htop, hheap⟩, hres⟩ := id hH
  have hfit : xs.length * Sized.bytes T < 2 ^ 64 :=
    Nat.lt_of_le_of_lt (Nat.mul_le_mul_right _ (by omega)) hres
  have hsl : slots T xs.length = xs.length := slots_of_fit _ hfit
  unfold copy_ctor at h
  rcases hcc : copy_and_construct F w src.data_ src.size_ src.size_ with ⟨w', r'⟩
  rw [hcc] at h
  have hcc' : copy_and_construct F w src.data_ xs.length xs.length = (w', r') := by
    rw [← hsz]; exact hcc
  have hspec := copy_and_construct_spec F w src.data_ xs.length xs
    (List.replicate (src.capacity_ - src.size_) Option.none) htop
    (fun hx => hheap (by
      have : 0 < xs.length := List.length_pos.mpr hx
      omega)) w' r' hcc'
  rcases hspec with ⟨hext, hr | ⟨_, hr, hw⟩ | ⟨_, hr, _, hcp, _, hnf, _⟩ | ⟨_, hlt, _⟩⟩
  · subst hr
    simp only [Prod.mk.injEq] at h
    obtain ⟨rfl, rfl⟩ := h
    exact Or.inl ⟨rfl, hext⟩
  · subst hr
    subst hw
    simp only [Prod.mk.injEq] at h
    obtain ⟨rfl, rfl⟩ := h
    exact Or.inr ⟨_, rfl, fun j h1 h2 => by omega⟩
  · subst hr
    simp only [Prod.mk.injEq] at h
    obtain ⟨rfl, rfl⟩ := h
    refine Or.inr ⟨_, rfl, fun j h1 h2 => ?_⟩
    rw [hcp] at h2
    have := hnf (j - w.copies) (by omega)
    rwa [show w.copies + (j - w.copies) = j by omega] at this
  · rw [hsl] at hlt
    omega

/-- C8: on a vector holding `xs`, each of `reserve(n)` with a request that fits
`size_t` (`n * sizeof(T) < 2 ^ 64`), `shrink_to_fit()` and the assignment `a = b`
either returns or throws; for all three and for every `n`, if some invocation of
the element copy constructor made during the call was due to throw, the call
throws; and when the call throws (for that or for a failed allocation), the target
has the fields it had and holds `xs` as before, and for the assignment `b` holds
what it held. -/
theorem strong_guarantee (F : Faults T) :
    (∀ (w : World T) (v : vector) (xs : List T) (n : Nat) (w1 : World T) (v1 : vector)
        (r : Res Unit), Holds w v xs → reserve F w v n = (w1, v1, r) →
        (n * Sized.bytes T < 2 ^ 64 → r = Res.ok () ∨ r = Res.thrown) ∧
          ((∃ j, w.copies ≤ j ∧ j < w1.copies ∧ F.copy j = true) → r = Res.thrown) ∧
          (r = Res.thrown → v1 = v ∧ Holds w1 v xs)) ∧
      (∀ (w : World T) (v : vector) (xs : List T) (w1 : World T) (v1 : vector)
        (r : Res Unit), Holds w v xs → shrink_to_fit F w v = (w1, v1, r) →
        (r = Res.ok () ∨ r = Res.thrown) ∧
          ((∃ j, w.copies ≤ j ∧ j < w1.copies ∧ F.copy j = true) → r = Res.thrown) ∧
          (r = Res.thrown → v1 = v ∧ Holds w1 v xs)) ∧
      (∀ (w : World T) (objs : Nat → vector) (a b : Nat) (xs ys : List T) (w1 : World T)
        (objs1 : Nat → vector) (r : Res Unit), Holds w (objs a) xs → Holds w (objs b) ys →
        assign F w objs a b = (w1, objs1, r) →
        (r = Res.ok () ∨ r = Res.thrown) ∧
          ((∃ j, w.copies ≤ j ∧ j < w1.copies ∧ F.copy j = true) → r = Res.thrown) ∧
          (r = Res.thrown → objs1 = objs ∧ Holds w1 (objs a) xs ∧ Holds w1 (objs b) ys)) := by
  refine ⟨?_, ?_, ?_⟩
  · intro w v xs n w1 v1 r hH h
    unfold reserve at h
    split at h
    · obtain ⟨s1, _, s3, s4⟩ :=
        new_buffer_strong F w v xs n hH (by have := hH.1.2.1; omega) w1 v1 r h
      exact ⟨s1, s3, s4⟩
    · simp only [Prod.mk.injEq] at h
      obtain ⟨rfl, rfl, rfl⟩ := h
      exact ⟨fun _ => Or.inl rfl, fun ⟨j, h1, h2, _⟩ => by omega,
        fun hr => absurd hr (by simp)⟩
  · intro w v xs w1 v1 r hH h
    unfold shrink_to_fit at h
    split at h
    · obtain ⟨s1, _, s3, s4⟩ := new_buffer_strong F w v xs _ hH (Nat.le_refl _) w1 v1 r h
      have hle : v.size_ ≤ v.capacity_ := hH.1.2.1
      exact ⟨s1 (Nat.lt_of_le_of_lt (Nat.mul_le_mul_right _ hle) hH.2), s3, s4⟩
    · simp only [Prod.mk.injEq] at h
      obtain ⟨rfl, rfl, rfl⟩ := h
      exact ⟨Or.inl rfl, fun ⟨j, h1, h2, _⟩ => by omega, fun hr => absurd hr (by simp)⟩
  · intro w objs a b xs ys w1 objs1 r hHa hHb h
    unfold assign at h
    by_cases hab : a = b
    · simp only [ne_eq, hab, not_true_eq_false, if_false, Prod.mk.injEq] at h
      obtain ⟨rfl, rfl, rfl⟩ := h
      exact ⟨Or.inl rfl, fun ⟨j, h1, h2, _⟩ => by omega, fun hr => absurd hr (by simp)⟩
    · simp only [ne_eq, hab, not_false_eq_true, if_true] at h
      rcases hcc : copy_ctor F w (objs b) with ⟨w', r'⟩
      rw [hcc] at h
      rcases copy_ctor_cases F w (objs b) ys hHb w' r' hcc with ⟨hr, hext⟩ | ⟨dst, hr, hnf⟩
      · subst hr
        simp only [Prod.mk.injEq] at h
        obtain ⟨rfl, rfl, rfl⟩ := h
        exact ⟨Or.inr rfl, fun _ => rfl, fun _ => ⟨rfl, holds_extends _ _ _ _ hHa hext,
          holds_extends _ _ _ _ hHb hext⟩⟩
      · subst hr
        simp only [Prod.mk.injEq] at h
        obtain ⟨rfl, rfl, rfl⟩ := h
        refine ⟨Or.inl rfl, ?_, fun hr => absurd hr (by simp)⟩
        rintro ⟨j, h1, h2, h3⟩
        rw [(dtor_frame w' _).2.1] at h2
        rw [hnf j h1 h2] at h3
        exact absurd h3 (by simp)

theorem strong_guarantee_witness :
    Holds (built [1, 2, 3]).1 (built [1, 2, 3]).2.1 [1, 2, 3] ∧
      reserve (Faults.copyAt Nat ((built [1, 2, 3]).1.copies + 1)) (built [1, 2, 3]).1
        (built [1, 2, 3]).2.1 10 =
        ((reserve (Faults.copyAt Nat ((built [1, 2, 3]).1.copies + 1)) (built [1, 2, 3]).1
          (built [1, 2, 3]).2.1 10).1, (built [1, 2, 3]).2.1, Res.thrown) ∧
      ((built [1, 2, 3]).2.1 = (built [1, 2, 3]).2.1 ∧
        Holds (reserve (Faults.copyAt Nat ((built [1, 2, 3]).1.copies + 1)) (built [1, 2, 3]).1
          (built [1, 2, 3]).2.1 10).1 (built [1, 2, 3]).2.1 [1, 2, 3]) :=
  ⟨by decide, rfl,
    ((strong_guarantee (Faults.copyAt Nat ((built [1, 2, 3]).1.copies + 1))).1
      (built [1, 2, 3]).1 (built [1, 2, 3]).2.1 [1, 2, 3] 10
      (reserve (Faults.copyAt Nat ((built [1, 2, 3]).1.copies + 1)) (built [1, 2, 3]).1
        (built [1, 2, 3]).2.1 10).1 (built [1, 2, 3]).2.1 Res.thrown (by decide) rfl).2.2 rfl⟩

/-! ## `insert` -/

theorem assign_at_spec (F : Faults T) (w : World T) (p : Nat) (pre : List (Option T)) (old : T)
    (rest : List (Option T)) (x : T) (w1 : World T)
    (hp : w.heap p = some (pre ++ some old :: rest))
    (h : assign_at F w p pre.length x = (w1, Res.ok ())) :
    w1.heap p = some (pre ++ some x :: rest) ∧ w1.top = w.top ∧ w1.copies = w.copies ∧
      ∀ q, q ≠ p → w1.heap q = w.heap q := by
  have hs : w.slot p pre.length = some (some old) := by
    simp only [World.slot, hp]
    exact getElem?_live_append pre (some old) rest
  cases hf : F.assign w.assigns with
  | true => simp [assign_at, hs, hf] at h
  | false =>
    simp only [assign_at, hs, hf, Bool.false_eq_true, if_false, World.setSlot, hp, World.store,
      Prod.mk.injEq, and_true] at h
    rw [← h]
    refine ⟨?_, rfl, rfl, fun q hq => by simp only [hq, if_false]⟩
    simp only [if_true]
    rw [set_append_cons]

theorem swap_elems_spec (F : Faults T) (w : World T) (p : Nat) (pre : List (Option T))
    (a b : T) (rest : List (Option T)) (w1 : World T)
    (hp : w.heap p = some (pre ++ some b :: some a :: rest))
    (h : swap_elems F w p (pre.length + 1) pre.length = (w1, Res.ok ())) :
    w1.heap p = some (pre ++ some a :: some b :: rest) ∧ w1.top = w.top ∧
      ∀ q, q ≠ p → w1.heap q = w.heap q := by
  have hp' : w.heap p = some ((pre ++ [some b]) ++ some a :: rest) := by
    rw [hp]; simp
  have hsj : w.slot p pre.length = some (some b) := by
    simp only [World.slot, hp]
    exact getElem?_live_append pre (some b) _
  have hsi : w.slot p (pre.length + 1) = some (some a) := by
    simp only [World.slot, hp']
    have := getElem?_live_append (pre ++ [some b]) (some a) rest
    simpa using this
  unfold swap_elems at h
  rw [hsi, hsj] at h
  simp only at h
  rcases hcv : copy_value F w a with ⟨wt, rt⟩
  rw [hcv] at h
  obtain ⟨t1, t2, _, t4⟩ := copy_value_spec F w a wt rt hcv
  rcases t4 with ⟨hrt, _⟩ | ⟨hrt, _⟩
  · subst hrt; simp at h
  · subst hrt
    simp only at h
    rcases ha1 : assign_at F wt p (pre.length + 1) b with ⟨w2, r2⟩
    rw [ha1] at h
    cases r2 with
    | ok u =>
      cases u
      simp only at h
      have hpt : wt.heap p = some ((pre ++ [some b]) ++ some a :: rest) := by
        rw [t1]; exact hp'
      have ha1' : assign_at F wt p (pre ++ [some b]).length b = (w2, Res.ok ()) := by
        simpa using ha1
      obtain ⟨g1, g2, _, g4⟩ := assign_at_spec F wt p _ a rest b w2 hpt ha1'
      have hp2 : w2.heap p = some (pre ++ some b :: some b :: rest) := by
        rw [g1]; simp
      obtain ⟨k1, k2, _, k4⟩ := assign_at_spec F w2 p pre b (some b :: rest) a w1 hp2 h
      refine ⟨k1, by rw [k2, g2, t2], fun q hq => ?_⟩
      rw [k4 q hq, g4 q hq, t1]
    | thrown => simp at h
    | undefined => simp at h

theorem insert_loop_spec (F : Faults T) (p : Nat) (x : T) :
    ∀ (M : List T) (pre rest : List (Option T)) (w w1 : World T),
      w.heap p = some (pre ++ M.map some ++ some x :: rest) →
      insert_loop F p M.length (pre.length + M.length) w = (w1, Res.ok ()) →
      w1.heap p = some (pre ++ some x :: M.map some ++ rest) ∧ w1.top = w.top ∧
        ∀ q, q ≠ p → w1.heap q = w.heap q := by
  intro M
  induction M using List.reverseRecOn with
  | nil =>
    intro pre rest w w1 hp h
    simp only [List.length_nil, insert_loop, Prod.mk.injEq, and_true] at h
    subst h
    simp only [List.map_nil, List.append_nil] at hp
    exact ⟨by simpa using hp, rfl, fun _ _ => rfl⟩
  | append_singleton M m ih =>
    intro pre rest w w1 hp h
    have hlen : (M ++ [m]).length = M.length + 1 := by simp
    rw [hlen] at h
    simp only [insert_loop] at h
    have hidx : pre.length + (M.length + 1) - 1 = pre.length + M.length := by omega
    rw [hidx] at h
    have hpre : (pre ++ M.map some).length = pre.length + M.length := by simp
    have hp1 : w.heap p = some ((pre ++ M.map some) ++ some m :: some x :: rest) := by
      rw [hp]; simp
    rcases hsw : swap_elems F w p (pre.length + (M.length + 1)) (pre.length + M.length) with
      ⟨w2, r2⟩
    rw [hsw] at h
    cases r2 with
    | ok u =>
      cases u
      simp only at h
      have hsw' : swap_elems F w p ((pre ++ M.map some).length + 1) (pre ++ M.map some).length =
          (w2, Res.ok ()) := by
        rw [hpre]; exact hsw
      obtain ⟨s1, s2, s3⟩ := swap_elems_spec F w p _ x m rest w2 hp1 hsw'
      have hp2 : w2.heap p = some (pre ++ M.map some ++ some x :: (some m :: rest)) := by
        rw [s1]
      obtain ⟨i1, i2, i3⟩ := ih pre (some m :: rest) w2 w1 hp2 h
      refine ⟨by rw [i1]; simp, by rw [i2, s2], fun q hq => by rw [i3 q hq, s3 q hq]⟩
    | thrown => simp at h
    | undefined => simp at h

theorem insert_ok (F : Faults T) (w : World T) (v : vector) (xs : List T) (i : Nat) (x : T)
    (w1 : World T) (v1 : vector) (it : iterator) (hH : Holds w v xs) (hi : i ≤ xs.length)
    (h : insert F w v (v.data_, i) x = (w1, v1, Res.ok it)) :
    Holds w1 v1 (xs.take i ++ [x] ++ xs.drop i) ∧ v1.size_ = v.size_ + 1 ∧
      it = (v1.data_, i) := by
  unfold insert at h
  simp only [if_true] at h
  rcases hpb : push_back F w v x with ⟨w2, v2, r2⟩
  rw [hpb] at h
  rcases push_back_spec F w v xs x hH w2 v2 r2 hpb with
    ⟨_, ⟨hr, hH2, hs, _, _⟩ | ⟨hr, _⟩ | ⟨hr, _⟩ | ⟨hr, _⟩⟩
  · subst hr
    simp only at h
    obtain ⟨⟨g1, g2, g3, g4, g5⟩, gres⟩ := id hH2
    have hsz2 : v2.size_ = xs.length + 1 := by simpa using g1
    have hn : v2.size_ - 1 - i = (xs.drop i).length := by
      simp only [List.length_drop]; omega
    have hst : v2.size_ - 1 = ((xs.take i).map some).length + (xs.drop i).length := by
      simp only [List.length_map, List.length_take, List.length_drop]; omega
    rw [hn, hst] at h
    have hsplit : xs = xs.take i ++ xs.drop i := (List.take_append_drop i xs).symm
    have hp2 : w2.heap v2.data_ = some ((xs.take i).map some ++ (xs.drop i).map some ++
        some x :: List.replicate (v2.capacity_ - v2.size_) Option.none) := by
      rw [g5 (by omega)]
      conv_lhs => rw [hsplit]
      simp
    rcases hl : insert_loop F v2.data_ (xs.drop i).length
        (((xs.take i).map some).length + (xs.drop i).length) w2 with ⟨w3, r3⟩
    rw [hl] at h
    cases r3 with
    | ok u =>
      cases u
      simp only [Prod.mk.injEq, Res.ok.injEq] at h
      obtain ⟨rfl, rfl, rfl⟩ := h
      obtain ⟨l1, l2, _⟩ := insert_loop_spec F v2.data_ x (xs.drop i) _ _ w2 w3 hp2 hl
      have hlen : (xs.take i ++ [x] ++ xs.drop i).length = xs.length + 1 := by
        simp only [List.length_append, List.length_take, List.length_drop,
          List.length_singleton]
        omega
      refine ⟨⟨⟨by rw [hlen]; exact hsz2, g2, g3, by rw [l2]; exact g4, fun _ => ?_⟩, gres⟩,
        ?_, rfl⟩
      · rw [l1]; simp
      · rw [hsz2, hH.1.1]
    | thrown => simp at h
    | undefined => simp at h
  · subst hr; simp at h
  · subst hr; simp at h
  · subst hr; simp at h

/-- C9: on a vector holding `xs`, a successful `insert(begin() + i, x)` with
`i ≤ size` leaves the vector holding the first `i` elements of `xs`, then `x`,
then the remaining elements of `xs` in their order, with size one more, and
returns the position of index `i` in the buffer of the vector, where `x` now is. -/
theorem insert_spec (F : Faults T) (w : World T) (v : vector) (xs : List T) (i : Nat) (x : T)
    (w1 : World T) (v1 : vector) (it : iterator) (hH : Holds w v xs) (hi : i ≤ xs.length)
    (h : insert F w v (v.data_, i) x = (w1, v1, Res.ok it)) :
    Holds w1 v1 (xs.take i ++ [x] ++ xs.drop i) ∧ v1.size_ = v.size_ + 1 ∧
      it = (v1.data_, i) ∧ w1.slot v1.data_ i = some (some x) := by
  obtain ⟨hH1, hs, hit⟩ := insert_ok F w v xs i x w1 v1 it hH hi h
  refine ⟨hH1, hs, hit, ?_⟩
  obtain ⟨⟨_, g2, _, _, g5⟩, _⟩ := id hH1
  have hp := g5 (by omega)
  simp only [World.slot, hp]
  have := getElem?_live_append ((xs.take i).map some) (some x)
    ((xs.drop i).map some ++ List.replicate (v1.capacity_ - v1.size_) Option.none)
  simp only [List.length_map, List.length_take, Nat.min_eq_left hi] at this
  simpa using this

theorem insert_spec_witness :
    Holds (built [1, 2, 3]).1 (built [1, 2, 3]).2.1 [1, 2, 3] ∧
      Holds (insert (Faults.none Nat) (built [1, 2, 3]).1 (built [1, 2, 3]).2.1
          ((built [1, 2, 3]).2.1.data_, 1) 9).1 ⟨3, 4, 4⟩
        ([1, 2, 3].take 1 ++ [9] ++ [1, 2, 3].drop 1) :=
  ⟨by decide,
    (insert_spec (Faults.none Nat) (built [1, 2, 3]).1 (built [1, 2, 3]).2.1 [1, 2, 3] 1 9
      (insert (Faults.none Nat) (built [1, 2, 3]).1 (built [1, 2, 3]).2.1
        ((built [1, 2, 3]).2.1.data_, 1) 9).1 ⟨3, 4, 4⟩ (3, 1) (by decide) (by decide) rfl).1⟩

/-! ## `erase` -/

theorem shift_loop_spec (F : Faults T) (p len : Nat) :
    ∀ (B M : List T) (pre rest : List (Option T)) (w w1 : World T),
      M.length = len → 0 < len →
      w.heap p = some (pre ++ M.map some ++ B.map some ++ rest) →
      shift_loop F p len B.length pre.length w = (w1, Res.ok ()) →
      ∃ M1 : List T, M1.length = len ∧
        w1.heap p = some (pre ++ B.map some ++ M1.map some ++ rest) ∧ w1.top = w.top ∧
        ∀ q, q ≠ p → w1.heap q = w.heap q := by
  intro B
  induction B with
  | nil =>
    intro M pre rest w w1 hM _ hp h
    simp only [List.length_nil, shift_loop, Prod.mk.injEq, and_true] at h
    subst h
    exact ⟨M, hM, by simpa using hp, rfl, fun _ _ => rfl⟩
  | cons b B ih =>
    intro M pre rest w w1 hM hlen hp h
    cases M with
    | nil => simp at hM; omega
    | cons m M0 =>
      simp only [List.length_cons, shift_loop] at h
      have hrd : w.slot p (pre.length + len) = some (some b) := by
        simp only [World.slot, hp]
        have := getElem?_live_append (pre ++ (m :: M0).map some) (some b) (B.map some ++ rest)
        simp only [List.length_append, List.length_map, hM] at this
        simpa using this
      rw [hrd] at h
      simp only at h
      have hp0 : w.heap p = some (pre ++ some m :: (M0.map some ++ some b :: B.map some ++ rest)) := by
        rw [hp]; simp
      rcases ha : assign_at F w p pre.length b with ⟨w2, r2⟩
      rw [ha] at h
      cases r2 with
      | ok u =>
        cases u
        simp only at h
        obtain ⟨a1, a2, _, a4⟩ := assign_at_spec F w p pre m _ b w2 hp0 ha
        have hM2 : (M0 ++ [b]).length = len := by
          simp only [List.length_append, List.length_singleton]
          simpa using hM
        have hp2 : w2.heap p = some ((pre ++ [some b]) ++ (M0 ++ [b]).map some ++ B.map some ++
            rest) := by
          rw [a1]; simp
        have h' : shift_loop F p len B.length (pre ++ [some b]).length w2 = (w1, Res.ok ()) := by
          simpa using h
        obtain ⟨M1, h1, h2, h3, h4⟩ := ih (M0 ++ [b]) (pre ++ [some b]) rest w2 w1 hM2 hlen hp2 h'
        refine ⟨M1, h1, by rw [h2]; simp, by rw [h3, a2], fun q hq => ?_⟩
        rw [h4 q hq, a4 q hq]
      | thrown => simp at h
      | undefined => simp at h

theorem destroy_at_spec (w : World T) (p : Nat) (pre : List (Option T)) (s : Option T)
    (rest : List (Option T)) (hp : w.heap p = some (pre ++ s :: rest)) :
    (destroy_at w p pre.length).heap p = some (pre ++ Option.none :: rest) := by
  simp only [destroy_at, World.setSlot, hp, World.store, World.emit, if_true]
  rw [set_append_cons]

theorem erase_destroy_spec (p size : Nat) :
    ∀ (M : List T) (Y rest : List (Option T)) (i : Nat) (w : World T),
      Y.length + M.length + i = size →
      w.heap p = some (Y ++ M.map some ++ rest) →
      (erase_destroy p size M.length i w).heap p =
          some (Y ++ List.replicate M.length Option.none ++ rest) ∧
        (erase_destroy p size M.length i w).top = w.top ∧
        ∀ q, q ≠ p → (erase_destroy p size M.length i w).heap q = w.heap q := by
  intro M
  induction M using List.reverseRecOn with
  | nil =>
    intro Y rest i w _ hp
    refine ⟨?_, rfl, fun _ _ => rfl⟩
    simpa [erase_destroy] using hp
  | append_singleton M m ih =>
    intro Y rest i w hsz hp
    have hlen : (M ++ [m]).length = M.length + 1 := by simp
    rw [hlen] at hsz ⊢
    simp only [erase_destroy]
    have hidx : size - i - 1 = (Y ++ M.map some).length := by
      simp only [List.length_append, List.length_map]; omega
    rw [hidx]
    have hp1 : w.heap p = some ((Y ++ M.map some) ++ some m :: rest) := by
      rw [hp]; simp
    have hd := destroy_at_spec w p (Y ++ M.map some) (some m) rest hp1
    obtain ⟨f1, _, _, _, f5⟩ := destroy_at_frame w p (Y ++ M.map some).length
    obtain ⟨i1, i2, i3⟩ := ih Y (Option.none :: rest) (i + 1)
      (destroy_at w p (Y ++ M.map some).length) (by omega) (by rw [hd])
    refine ⟨?_, by rw [i2, f1], fun q hq => by rw [i3 q hq, f5 q hq]⟩
    rw [i1]
    simp [List.replicate_succ']

theorem take_mid_drop (xs : List T) (f l : Nat) (hfl : f ≤ l) :
    xs = xs.take f ++ (xs.drop f).take (l - f) ++ xs.drop l := by
  have h1 : xs.drop l = (xs.drop f).drop (l - f) := by
    rw [List.drop_drop]; congr 1; omega
  rw [h1, List.append_assoc, List.take_append_drop, List.take_append_drop]

theorem erase_stored (F : Faults T) (w : World T) (v : vector) (xs : List T) (f l : Nat)
    (w1 : World T) (v1 : vector) (it : iterator) (hH : Stored w v xs) (hfl : f ≤ l)
    (hl : l ≤ xs.length)
    (h : erase F w v (v.data_, f) (v.data_, l) = (w1, v1, Res.ok it)) :
    Stored w1 v1 (xs.take f ++ xs.drop l) ∧ v1.size_ = v.size_ - (l - f) ∧
      v1.capacity_ = v.capacity_ ∧ it = (v1.data_, f) := by
  obtain ⟨hsz, hle, hnull, htop, hheap⟩ := id hH
  unfold erase at h
  simp only [and_self, if_true] at h
  by_cases heq : l = f
  · subst heq
    simp only [if_true, Prod.mk.injEq, Res.ok.injEq] at h
    obtain ⟨rfl, rfl, rfl⟩ := h
    refine ⟨?_, by simp, rfl, rfl⟩
    rw [List.take_append_drop]; exact hH
  · have hlt : f < l := by omega
    have hb : f ≤ l ∧ l ≤ v.size_ := ⟨hfl, by omega⟩
    simp only [heq, if_false, hb, and_self, if_true] at h
    have hn : v.size_ - (l - f) - f = (xs.drop l).length := by
      simp only [List.length_drop]; omega
    have hi : f = ((xs.take f).map some).length := by
      simp only [List.length_map, List.length_take]; omega
    have hG : ((xs.drop f).take (l - f)).length = l - f := by
      simp only [List.length_take, List.length_drop]; omega
    have hp : w.heap v.data_ = some ((xs.take f).map some ++
        ((xs.drop f).take (l - f)).map some ++ (xs.drop l).map some ++
        List.replicate (v.capacity_ - v.size_) Option.none) := by
      rw [hheap (by omega)]
      conv_lhs => rw [take_mid_drop xs f l hfl]
      simp
    rcases hsl : shift_loop F v.data_ (l - f) (v.size_ - (l - f) - f) f w with ⟨w2, r2⟩
    rw [hsl] at h
    cases r2 with
    | ok u =>
      cases u
      simp only [Prod.mk.injEq, Res.ok.injEq] at h
      obtain ⟨rfl, rfl, rfl⟩ := h
      have hsl' : shift_loop F v.data_ (l - f) (xs.drop l).length
          ((xs.take f).map some).length w = (w2, Res.ok ()) := by
        rw [← hn, ← hi]; exact hsl
      obtain ⟨M1, m1, m2, m3, _⟩ := shift_loop_spec F v.data_ (l - f) (xs.drop l)
        ((xs.drop f).take (l - f)) _ _ w w2 hG (by omega) hp hsl'
      have hp2 : w2.heap v.data_ = some (((xs.take f).map some ++ (xs.drop l).map some) ++
          M1.map some ++ List.replicate (v.capacity_ - v.size_) Option.none) := by
        rw [m2]
      have hed := erase_destroy_spec v.data_ v.size_ M1 _ _ 0 w2
        (by
          simp only [List.length_append, List.length_map, List.length_take, List.length_drop]
          omega) hp2
      rw [m1] at hed
      obtain ⟨e1, e2, _⟩ := hed
      refine ⟨⟨?_, ?_, hnull, by rw [e2, m3]; exact htop, fun _ => ?_⟩, rfl, rfl, rfl⟩
      · simp only [List.length_append, List.length_take, List.length_drop]; omega
      · simp only []; omega
      · simp only []
        rw [e1]
        simp only [List.map_append, List.append_assoc, List.append_replicate_replicate]
        congr 4
        omega
    | thrown => simp at h
    | undefined => simp at h

theorem erase_ok (F : Faults T) (w : World T) (v : vector) (xs : List T) (f l : Nat)
    (w1 : World T) (v1 : vector) (it : iterator) (hH : Holds w v xs) (hfl : f ≤ l)
    (hl : l ≤ xs.length)
    (h : erase F w v (v.data_, f) (v.data_, l) = (w1, v1, Res.ok it)) :
    Holds w1 v1 (xs.take f ++ xs.drop l) ∧ v1.size_ = v.size_ - (l - f) ∧
      v1.capacity_ = v.capacity_ ∧ it = (v1.data_, f) := by
  obtain ⟨h1, h2, h3, h4⟩ := erase_stored F w v xs f l w1 v1 it hH.1 hfl hl h
  exact ⟨⟨h1, by rw [h3]; exact hH.2⟩, h2, h3, h4⟩

/-- C10: on a vector holding `xs`, a successful `erase(begin() + f, begin() + l)` with
`f ≤ l ≤ size` leaves the vector holding the first `f` elements of `xs` followed by
the elements of `xs` from index `l` on, with size `size - (l - f)` and the capacity
it had, and returns the position of index `f`; with `f = l` the world and the vector
are unchanged; and `erase(begin() + p)` is `erase(begin() + p, begin() + p + 1)`. -/
theorem erase_spec (F : Faults T) (w : World T) (v : vector) (xs : List T) (f l : Nat)
    (w1 : World T) (v1 : vector) (it : iterator) (hH : Holds w v xs) (hfl : f ≤ l)
    (hl : l ≤ xs.length)
    (h : erase F w v (v.data_, f) (v.data_, l) = (w1, v1, Res.ok it)) :
    Holds w1 v1 (xs.take f ++ xs.drop l) ∧ v1.size_ = v.size_ - (l - f) ∧
      v1.capacity_ = v.capacity_ ∧ it = (v1.data_, f) ∧
      (f = l → w1 = w ∧ v1 = v) ∧
      ∀ p, erase_one F w v (v.data_, p) = erase F w v (v.data_, p) (v.data_, p + 1) := by
  obtain ⟨h1, h2, h3, h4⟩ := erase_ok F w v xs f l w1 v1 it hH hfl hl h
  refine ⟨h1, h2, h3, h4, fun heq => ?_, fun _ => rfl⟩
  subst heq
  unfold erase at h
  simp only [and_self, if_true, Prod.mk.injEq] at h
  exact ⟨h.1.symm, h.2.1.symm⟩

theorem erase_spec_witness :
    Holds (built [1, 2, 3, 4]).1 (built [1, 2, 3, 4]).2.1 [1, 2, 3, 4] ∧
      Holds (erase (Faults.none Nat) (built [1, 2, 3, 4]).1 (built [1, 2, 3, 4]).2.1
          ((built [1, 2, 3, 4]).2.1.data_, 1) ((built [1, 2, 3, 4]).2.1.data_, 3)).1 ⟨3, 2, 4⟩
        ([1, 2, 3, 4].take 1 ++ [1, 2, 3, 4].drop 3) :=
  ⟨by decide,
    (erase_spec (Faults.none Nat) (built [1, 2, 3, 4]).1 (built [1, 2, 3, 4]).2.1 [1, 2, 3, 4]
      1 3 (erase (Faults.none Nat) (built [1, 2, 3, 4]).1 (built [1, 2, 3, 4]).2.1
        ((built [1, 2, 3, 4]).2.1.data_, 1) ((built [1, 2, 3, 4]).2.1.data_, 3)).1 ⟨3, 2, 4⟩
      (3, 1) (by decide) (by decide) (by decide) rfl).1⟩

/-! ## `insert` followed by `erase` -/

theorem take_drop_insert (xs : List T) (i : Nat) (x : T) (hi : i ≤ xs.length) :
    (xs.take i ++ [x] ++ xs.drop i).take i ++ (xs.take i ++ [x] ++ xs.drop i).drop (i + 1) =
      xs := by
  have hlen : (xs.take i).length = i := by
    simp only [List.length_take]; omega
  have h1 : (xs.take i ++ [x] ++ xs.drop i).take i = xs.take i := by
    rw [List.append_assoc, List.take_append_of_le_length (by omega)]
    rw [List.take_of_length_le (by omega)]
  have h2 : (xs.take i ++ [x] ++ xs.drop i).drop (i + 1) = xs.drop i := by
    have hl : (xs.take i ++ [x]).length = i + 1 := by simp [hlen]
    conv_lhs => rw [← hl]
    exact List.drop_left _ _
  rw [h1, h2, List.take_append_drop]

/-- C11: on a vector holding `xs`, a successful `insert` of `x` at index `i ≤ size`
followed by a successful `erase` of the position it returned (index `i`) leaves the
vector holding exactly `xs`, with the size it had before the two calls. -/
theorem insert_erase_roundtrip (F G : Faults T) (w : World T) (v : vector) (xs : List T)
    (i : Nat) (x : T) (w1 : World T) (v1 : vector) (it : iterator) (w2 : World T)
    (v2 : vector) (it2 : iterator) (hH : Holds w v xs) (hi : i ≤ xs.length)
    (h1 : insert F w v (v.data_, i) x = (w1, v1, Res.ok it))
    (h2 : erase_one G w1 v1 it = (w2, v2, Res.ok it2)) :
    Holds w2 v2 xs ∧ v2.size_ = v.size_ ∧ it = (v1.data_, i) := by
  obtain ⟨hH1, hs1, hit⟩ := insert_ok F w v xs i x w1 v1 it hH hi h1
  subst hit
  have hlen : (xs.take i ++ [x] ++ xs.drop i).length = xs.length + 1 := by
    simp only [List.length_append, List.length_take, List.length_drop, List.length_singleton]
    omega
  unfold erase_one at h2
  obtain ⟨hH2, hs2, _, _⟩ := erase_ok G w1 v1 _ i (i + 1) w2 v2 it2 hH1 (Nat.le_succ i)
    (by omega) h2
  rw [take_drop_insert xs i x hi] at hH2
  exact ⟨hH2, by omega, rfl⟩

theorem insert_erase_roundtrip_witness :
    Holds (built [1, 2, 3]).1 (built [1, 2, 3]).2.1 [1, 2, 3] ∧
      Holds (erase_one (Faults.none Nat)
          (insert (Faults.none Nat) (built [1, 2, 3]).1 (built [1, 2, 3]).2.1
            ((built [1, 2, 3]).2.1.data_, 1) 9).1 ⟨3, 4, 4⟩ (3, 1)).1 ⟨3, 3, 4⟩ [1, 2, 3] :=
  ⟨by decide,
    (insert_erase_roundtrip (Faults.none Nat) (Faults.none Nat) (built [1, 2, 3]).1
      (built [1, 2, 3]).2.1 [1, 2, 3] 1 9
      (insert (Faults.none Nat) (built [1, 2, 3]).1 (built [1, 2, 3]).2.1
        ((built [1, 2, 3]).2.1.data_, 1) 9).1 ⟨3, 4, 4⟩ (3, 1)
      (erase_one (Faults.none Nat)
        (insert (Faults.none Nat) (built [1, 2, 3]).1 (built [1, 2, 3]).2.1
          ((built [1, 2, 3]).2.1.data_, 1) 9).1 ⟨3, 4, 4⟩ (3, 1)).1 ⟨3, 3, 4⟩ (3, 1)
      (by decide) (by decide) rfl rfl).1⟩

/-! ## `reserve` -/

theorem reserve_ok (F : Faults T) (w : World T) (v : vector) (xs : List T) (n : Nat)
    (w1 : World T) (v1 : vector) (hH : Holds w v xs)
    (h : reserve F w v n = (w1, v1, Res.ok ())) :
    Backed w1 v1 xs (slots T v1.capacity_ - v1.size_) ∧ v1.size_ = v.size_ ∧
      v1.capacity_ = max v.capacity_ n ∧ (n ≤ v.capacity_ → w1 = w ∧ v1 = v) ∧
      (n * Sized.bytes T < 2 ^ 64 → Holds w1 v1 xs) := by
  have hsz : v.size_ = xs.length := hH.1.1
  have hle : v.size_ ≤ v.capacity_ := hH.1.2.1
  unfold reserve at h
  by_cases hn : n > v.capacity_
  · rw [if_pos hn] at h
    rcases new_buffer_spec F w v xs n hH.1 (by omega) w1 v1 _ h with
      ⟨hr, _⟩ | ⟨_, hs, hc, hB, _⟩ | ⟨hr, _⟩
    · exact absurd hr (by simp)
    · have hB1 : Backed w1 v1 xs (slots T v1.capacity_ - v1.size_) := by
        rw [hc, hs, hsz]; exact hB
      refine ⟨hB1, hs, ?_, fun _ => by omega, fun hfit => ⟨?_, by rw [hc]; exact hfit⟩⟩
      · rw [hc, Nat.max_def]; split <;> omega
      · apply stored_of_backed w1 v1 xs _ hB1
        rw [hc, slots_of_fit n hfit]
    · exact absurd hr (by simp)
  · rw [if_neg hn] at h
    simp only [Prod.mk.injEq, and_true] at h
    obtain ⟨rfl, rfl⟩ := h
    refine ⟨?_, rfl, ?_, fun _ => ⟨rfl, rfl⟩, fun _ => hH⟩
    · rw [slots_of_fit _ hH.2]; exact hH.1
    · rw [Nat.max_def]; split <;> omega

theorem construct_at_allocs (F : Faults T) (w : World T) (p i : Nat) (x : T) (w1 : World T)
    (r : Res Unit) (h : construct_at F w p i x = (w1, r)) :
    w1.allocs = w.allocs ∧ w1.top = w.top := by
  cases hs : w.slot p i with
  | none =>
    simp only [construct_at, hs, Prod.mk.injEq] at h
    rw [← h.1]; exact ⟨rfl, rfl⟩
  | some o =>
    cases o with
    | some y =>
      simp only [construct_at, hs, Prod.mk.injEq] at h
      rw [← h.1]; exact ⟨rfl, rfl⟩
    | none =>
      cases hc : F.copy w.copies with
      | true =>
        simp only [construct_at, hs, copy_value, hc, if_true, Prod.mk.injEq] at h
        rw [← h.1]; exact ⟨rfl, rfl⟩
      | false =>
        simp only [construct_at, hs, copy_value, hc, Bool.false_eq_true, if_false,
          Prod.mk.injEq] at h
        rw [← h.1]
        cases hp : w.heap p with
        | none => simp [World.setSlot, hp, World.emit]
        | some b => simp [World.setSlot, hp, World.emit, World.store]

/-- An append below the capacity on a buffer with `m` raw slots left: it returns
only if `m` is positive, and then it took the first of them. -/
theorem push_back_in_place (F : Faults T) (w : World T) (v : vector) (xs : List T) (x : T)
    (m : Nat) (w1 : World T) (v1 : vector) (hB : Backed w v xs m) (hlt : v.size_ < v.capacity_)
    (h : push_back F w v x = (w1, v1, Res.ok ())) :
    v1.data_ = v.data_ ∧ v1.capacity_ = v.capacity_ ∧ w1.allocs = w.allocs ∧
      v1.size_ = v.size_ + 1 ∧ 0 < m ∧ Backed w1 v1 (xs ++ [x]) (m - 1) := by
  obtain ⟨hsz, hle, hnull, htop, hheap⟩ := id hB
  have hp := hheap (by omega)
  unfold push_back at h
  rw [if_neg (by omega)] at h
  rcases hca : construct_at F w v.data_ v.size_ x with ⟨w3, r3⟩
  rw [hca] at h
  obtain ⟨a1, _⟩ := construct_at_allocs F w _ _ x w3 r3 hca
  cases r3 with
  | ok u =>
    cases u
    simp only [Prod.mk.injEq, and_true] at h
    obtain ⟨rfl, rfl⟩ := h
    obtain ⟨_, _, _, b4, _⟩ := construct_at_block F w _ _ x w3 _ hca
    obtain ⟨b, hb, hlen⟩ := b4 rfl
    rw [hp] at hb
    simp only [Option.some.injEq] at hb
    subst hb
    simp only [List.length_append, List.length_map, List.length_replicate] at hlen
    have hm : 0 < m := by omega
    have hp1 : w.heap v.data_ = some (xs.map some ++
        List.replicate ((m - 1) + 1) Option.none) := by
      rw [hp, show m - 1 + 1 = m by omega]
    have hca1 : construct_at F w v.data_ xs.length x = (w3, Res.ok ()) := by
      rw [← hsz]; exact hca
    obtain ⟨c1, _, _, c4⟩ := construct_at_spec F w v.data_ xs _ x hp1 w3 _ hca1
    rcases c4 with ⟨hr3, _⟩ | ⟨_, _, hh3⟩
    · exact absurd hr3 (by simp)
    · refine ⟨rfl, rfl, a1, rfl, hm, ⟨?_, ?_, hnull, ?_, fun _ => hh3⟩⟩
      · simp [hsz]
      · simp only []; omega
      · simp only [c1]; exact htop
  | thrown => simp at h
  | undefined => simp at h

theorem push_all_in_place (F : Faults T) :
    ∀ (ys xs : List T) (m : Nat) (w : World T) (v : vector) (w1 : World T) (v1 : vector),
      Backed w v xs m → xs.length + ys.length ≤ v.capacity_ →
      push_all F w v ys = (w1, v1, Res.ok ()) →
      v1.data_ = v.data_ ∧ v1.capacity_ = v.capacity_ ∧ w1.allocs = w.allocs ∧
        v1.size_ = v.size_ + ys.length ∧ ys.length ≤ m ∧
        Backed w1 v1 (xs ++ ys) (m - ys.length) := by
  intro ys
  induction ys with
  | nil =>
    intro xs m w v w1 v1 hB _ h
    simp only [push_all, Prod.mk.injEq, and_true] at h
    obtain ⟨rfl, rfl⟩ := h
    exact ⟨rfl, rfl, rfl, rfl, Nat.zero_le _, by simpa using hB⟩
  | cons y ys ih =>
    intro xs m w v w1 v1 hB hle h
    simp only [push_all] at h
    rcases hpb : push_back F w v y with ⟨w', v', r'⟩
    rw [hpb] at h
    simp only [List.length_cons] at hle ⊢
    cases r' with
    | ok u =>
      cases u
      simp only at h
      obtain ⟨p1, p2, p3, p4, p5, p6⟩ := push_back_in_place F w v xs y m w' v' hB
        (by rw [hB.1]; omega) hpb
      obtain ⟨i1, i2, i3, i4, i5, i6⟩ := ih (xs ++ [y]) (m - 1) w' v' w1 v1 p6
        (by rw [p2]; simp only [List.length_append, List.length_singleton]; omega) h
      refine ⟨by rw [i1, p1], by rw [i2, p2], by rw [i3, p3], by omega, by omega, ?_⟩
      rw [show m - (ys.length + 1) = m - 1 - ys.length by omega]
      simpa using i6
    | thrown => simp at h
    | undefined => simp at h

/-- C12: the claim as stated fails: on the vector holding `[1, 2, 3]` (capacity 4),
`reserve(5)` gives capacity 5, and the third of the next 3 ≤ 5 appends reallocates
to capacity 10. -/
theorem reserve_then_push_reallocates :
    (reserve (Faults.none Nat) (built [1, 2, 3]).1 (built [1, 2, 3]).2.1 5).2 =
        (⟨4, 3, 5⟩, Res.ok ()) ∧
      (push_all (Faults.none Nat)
        (reserve (Faults.none Nat) (built [1, 2, 3]).1 (built [1, 2, 3]).2.1 5).1 ⟨4, 3, 5⟩
        [4, 5, 6]).2 = (⟨5, 6, 10⟩, Res.ok ()) ∧
      (push_all (Faults.none Nat)
        (reserve (Faults.none Nat) (built [1, 2, 3]).1 (built [1, 2, 3]).2.1 5).1 ⟨4, 3, 5⟩
        [4, 5, 6]).2.1.capacity_ ≠
        (reserve (Faults.none Nat) (built [1, 2, 3]).1 (built [1, 2, 3]).2.1 5).2.1.capacity_ := by
  decide

/-- C12, amended: on a vector of size `s` and capacity `c` holding `xs`, after a
successful `reserve(n)` every run of `k` successful `push_back` with
`s + k ≤ max c n` performs no reallocation: after each of these appends the capacity
and the buffer are those left by `reserve`, `operator new` has not been called, the
size is `s` plus the number of appends and the buffer starts with `xs` followed by
the appended values; and when the request fits `size_t` (`n * sizeof(T) < 2 ^ 64`)
the vector holds `xs` followed by the appended values. -/
theorem reserve_then_push (F G : Faults T) (w : World T) (v : vector) (xs : List T) (n : Nat)
    (w1 : World T) (v1 : vector) (ys zs : List T) (w3 : World T) (v3 : vector)
    (hH : Holds w v xs) (hr : reserve F w v n = (w1, v1, Res.ok ()))
    (hk : xs.length + (ys ++ zs).length ≤ max v.capacity_ n)
    (hp : push_all G w1 v1 (ys ++ zs) = (w3, v3, Res.ok ())) :
    ∃ w2 v2, push_all G w1 v1 ys = (w2, v2, Res.ok ()) ∧
      v2.capacity_ = v1.capacity_ ∧ v2.data_ = v1.data_ ∧ w2.allocs = w1.allocs ∧
      v2.size_ = v.size_ + ys.length ∧
      Backed w2 v2 (xs ++ ys) (slots T v2.capacity_ - v2.size_) ∧
      (n * Sized.bytes T < 2 ^ 64 → Holds w2 v2 (xs ++ ys)) := by
  obtain ⟨hB1, hs1, hc, _, hfit1⟩ := reserve_ok F w v xs n w1 v1 hH hr
  obtain ⟨w2, v2, h2, _⟩ := (push_all_append G ys zs w1 v1 w3 v3).mp hp
  simp only [List.length_append] at hk
  obtain ⟨i1, i2, i3, i4, i5, i6⟩ := push_all_in_place G ys xs _ w1 v1 w2 v2 hB1
    (by rw [hc]; omega) h2
  have hB2 : Backed w2 v2 (xs ++ ys) (slots T v2.capacity_ - v2.size_) := by
    rw [i2, i4, Nat.sub_add_eq]; exact i6
  refine ⟨w2, v2, h2, i2, i1, i3, by rw [i4, hs1], hB2, fun hfit => ?_⟩
  have hres1 : v1.capacity_ * Sized.bytes T < 2 ^ 64 := (hfit1 hfit).2
  refine ⟨stored_of_backed w2 v2 (xs ++ ys) _ hB2 ?_, by rw [i2]; exact hres1⟩
  rw [i2, slots_of_fit _ hres1]

theorem reserve_then_push_witness :
    Holds (built [1, 2, 3]).1 (built [1, 2, 3]).2.1 [1, 2, 3] ∧
      ∃ w2 v2,
        push_all (Faults.none Nat)
          (reserve (Faults.none Nat) (built [1, 2, 3]).1 (built [1, 2, 3]).2.1 5).1 ⟨4, 3, 5⟩
          [4] = (w2, v2, Res.ok ()) ∧
        v2.capacity_ = (⟨4, 3, 5⟩ : vector).capacity_ ∧ v2.data_ = (⟨4, 3, 5⟩ : vector).data_ ∧
        w2.allocs =
          (reserve (Faults.none Nat) (built [1, 2, 3]).1 (built [1, 2, 3]).2.1 5).1.allocs ∧
        v2.size_ = (built [1, 2, 3]).2.1.size_ + [4].length ∧
        Backed w2 v2 ([1, 2, 3] ++ [4]) (slots Nat v2.capacity_ - v2.size_) ∧
        (5 * Sized.bytes Nat < 2 ^ 64 → Holds w2 v2 ([1, 2, 3] ++ [4])) :=
  ⟨by decide,
    reserve_then_push (Faults.none Nat) (Faults.none Nat) (built [1, 2, 3]).1
      (built [1, 2, 3]).2.1 [1, 2, 3] 5
      (reserve (Faults.none Nat) (built [1, 2, 3]).1 (built [1, 2, 3]).2.1 5).1 ⟨4, 3, 5⟩
      [4] [5]
      (push_all (Faults.none Nat)
        (reserve (Faults.none Nat) (built [1, 2, 3]).1 (built [1, 2, 3]).2.1 5).1 ⟨4, 3, 5⟩
        ([4] ++ [5])).1 ⟨4, 5, 5⟩ (by decide) rfl (by decide) rfl⟩

/-- C20: on a vector holding `xs` with capacity `c`, a successful `reserve(n)`, for
every `n`, leaves the size it had, the buffer starting with the elements `xs`, and
capacity exactly `max c n`: exactly `n` when `n > c`; when `n ≤ c` the world and the
vector are what they were, so no element is copied; the raw slots behind the
elements are those of the block that `operator new` returned for the capacity, and
when the request fits `size_t` (`n * sizeof(T) < 2 ^ 64`) the vector holds `xs`. -/
theorem reserve_spec (F : Faults T) (w : World T) (v : vector) (xs : List T) (n : Nat)
    (w1 : World T) (v1 : vector) (hH : Holds w v xs)
    (h : reserve F w v n = (w1, v1, Res.ok ())) :
    Backed w1 v1 xs (slots T v1.capacity_ - v1.size_) ∧
      (n * Sized.bytes T < 2 ^ 64 → Holds w1 v1 xs) ∧
      v1.size_ = v.size_ ∧ v1.capacity_ = max v.capacity_ n ∧
      (v.capacity_ < n → v1.capacity_ = n) ∧
      (n ≤ v.capacity_ → w1 = w ∧ v1 = v ∧ w1.copies = w.copies) := by
  obtain ⟨h1, h2, h3, h4, h5⟩ := reserve_ok F w v xs n w1 v1 hH h
  refine ⟨h1, h5, h2, h3, fun hlt => ?_, fun hle => ?_⟩
  · rw [h3, Nat.max_def]; split <;> omega
  · obtain ⟨e1, e2⟩ := h4 hle
    exact ⟨e1, e2, by rw [e1]⟩

theorem reserve_spec_witness :
    Holds (built [1, 2, 3]).1 (built [1, 2, 3]).2.1 [1, 2, 3] ∧
      Holds (reserve (Faults.none Nat) (built [1, 2, 3]).1 (built [1, 2, 3]).2.1 9).1
        ⟨4, 3, 9⟩ [1, 2, 3] ∧
      (⟨4, 3, 9⟩ : vector).capacity_ = max (built [1, 2, 3]).2.1.capacity_ 9 :=
  have h := reserve_spec (Faults.none Nat) (built [1, 2, 3]).1 (built [1, 2, 3]).2.1 [1, 2, 3] 9
    (reserve (Faults.none Nat) (built [1, 2, 3]).1 (built [1, 2, 3]).2.1 9).1 ⟨4, 3, 9⟩
    (by decide) rfl
  ⟨by decide, h.2.1 (by decide), h.2.2.2.1⟩

/-- A request whose byte count wraps, on integers of 4 bytes: `reserve(2 ^ 62)` on
the vector holding `[7]` asks `operator new` for 0 bytes and the copy of the first
element leaves the block; `reserve(2 ^ 62 + 1)` asks for 4 bytes, returns with
capacity `2 ^ 62 + 1` over a block of one slot, and the next `push_back` leaves the
block; on the vector holding `[7, 8]` the same request is too short for the copy. -/
theorem reserve_wrapped_request :
    (reserve (Faults.none Nat) (built [7]).1 (built [7]).2.1 (2 ^ 62)).2 =
        ((built [7]).2.1, Res.undefined) ∧
      (reserve (Faults.none Nat) (built [7]).1 (built [7]).2.1 (2 ^ 62 + 1)).2 =
        (⟨2, 1, 2 ^ 62 + 1⟩, Res.ok ()) ∧
      (reserve (Faults.none Nat) (built [7]).1 (built [7]).2.1 (2 ^ 62 + 1)).1.heap 2 =
        some [some 7] ∧
      (push_back (Faults.none Nat)
        (reserve (Faults.none Nat) (built [7]).1 (built [7]).2.1 (2 ^ 62 + 1)).1
        ⟨2, 1, 2 ^ 62 + 1⟩ 8).2.2 = Res.undefined ∧
      (reserve (Faults.none Nat) (built [7, 8]).1 (built [7, 8]).2.1 (2 ^ 62 + 1)).2 =
        ((built [7, 8]).2.1, Res.undefined) := by
  decide

/-! ## `shrink_to_fit` -/

theorem shrink_to_fit_ok (F : Faults T) (w : World T) (v : vector) (xs : List T)
    (w1 : World T) (v1 : vector) (hH : Holds w v xs)
    (h : shrink_to_fit F w v = (w1, v1, Res.ok ())) :
    Holds w1 v1 xs ∧ v1.size_ = v.size_ ∧ v1.capacity_ = v.size_ := by
  have hle : v.size_ ≤ v.capacity_ := hH.1.2.1
  have hfit : v.size_ * Sized.bytes T < 2 ^ 64 :=
    Nat.lt_of_le_of_lt (Nat.mul_le_mul_right _ hle) hH.2
  unfold shrink_to_fit at h
  by_cases hn : v.capacity_ > v.size_
  · rw [if_pos hn] at h
    rcases new_buffer_fit F w v xs _ hH.1 (Nat.le_refl _) hfit w1 v1 _ h with
      ⟨hr, _⟩ | ⟨_, hs, hc, hH1, _⟩
    · exact absurd hr (by simp)
    · exact ⟨⟨hH1, by rw [hc]; exact hfit⟩, hs, hc⟩
  · rw [if_neg hn] at h
    simp only [Prod.mk.injEq, and_true] at h
    obtain ⟨rfl, rfl⟩ := h
    exact ⟨hH, rfl, by omega⟩

/-- C13: on a vector holding `xs`, a successful `shrink_to_fit()` leaves the vector
holding `xs` with the size it had and capacity equal to the size (capacity 0 and a
null buffer when the vector is empty); a second `shrink_to_fit()` then returns at
once with the world and the vector unchanged. -/
theorem shrink_to_fit_spec (F G : Faults T) (w : World T) (v : vector) (xs : List T)
    (w1 : World T) (v1 : vector) (hH : Holds w v xs)
    (h : shrink_to_fit F w v = (w1, v1, Res.ok ())) :
    v1.capacity_ = v1.size_ ∧ v1.size_ = v.size_ ∧ Holds w1 v1 xs ∧
      (v.size_ = 0 → v1.capacity_ = 0 ∧ v1.data_ = 0) ∧
      shrink_to_fit G w1 v1 = (w1, v1, Res.ok ()) := by
  obtain ⟨h1, h2, h3⟩ := shrink_to_fit_ok F w v xs w1 v1 hH h
  refine ⟨by rw [h3, h2], h2, h1, fun h0 => ?_, ?_⟩
  · have hc : v1.capacity_ = 0 := by rw [h3, h0]
    refine ⟨hc, ?_⟩
    by_contra hd
    have := h1.1.2.2.1.mp hd
    omega
  · unfold shrink_to_fit
    rw [if_neg (by omega)]

theorem shrink_to_fit_spec_witness :
    Holds (built [1, 2, 3]).1 (built [1, 2, 3]).2.1 [1, 2, 3] ∧
      (⟨4, 3, 3⟩ : vector).capacity_ = (⟨4, 3, 3⟩ : vector).size_ ∧
      Holds (shrink_to_fit (Faults.none Nat) (built [1, 2, 3]).1 (built [1, 2, 3]).2.1).1
        ⟨4, 3, 3⟩ [1, 2, 3] :=
  have h := shrink_to_fit_spec (Faults.none Nat) (Faults.none Nat) (built [1, 2, 3]).1
    (built [1, 2, 3]).2.1 [1, 2, 3]
    (shrink_to_fit (Faults.none Nat) (built [1, 2, 3]).1 (built [1, 2, 3]).2.1).1 ⟨4, 3, 3⟩
    (by decide) rfl
  ⟨by decide, h.1, h.2.2.1⟩

/-! ## `clear` and `pop_back` -/

/-- C14: on a vector holding `xs`, `clear()` (which has no failing outcome) leaves
size 0 with the capacity and the buffer it had, every slot of the buffer raw; the
events of the call are the destructions of slots `size - 1` down to `0`, each once,
and nothing is allocated or released. -/
theorem clear_spec (w : World T) (v : vector) (xs : List T) (hH : Holds w v xs) :
    (clear w v).2.size_ = 0 ∧ (clear w v).2.capacity_ = v.capacity_ ∧
      (clear w v).2.data_ = v.data_ ∧ Holds (clear w v).1 (clear w v).2 [] ∧
      (clear w v).1.log = w.log ++ (List.range xs.length).reverse.map (Event.destroy v.data_) ∧
      (clear w v).1.top = w.top ∧ (clear w v).1.allocs = w.allocs := by
  obtain ⟨⟨hsz, hle, hnull, htop, hheap⟩, hres⟩ := id hH
  refine ⟨rfl, rfl, rfl, ?_, ?_, ?_, ?_⟩
  all_goals simp only [clear, hsz]
  · by_cases hc : v.capacity_ = 0
    · have hx : xs = [] := List.eq_nil_of_length_eq_zero (by omega)
      subst hx
      exact ⟨⟨rfl, Nat.zero_le _, hnull, htop, fun h0 => by
        have : 0 < v.capacity_ := h0
        omega⟩, hres⟩
    · rw [destroy_spec v.data_ xs _ w (hheap (by omega))]
      refine ⟨⟨rfl, Nat.zero_le _, hnull, htop, fun _ => ?_⟩, hres⟩
      simp only [if_true, List.map_nil, List.nil_append, List.append_replicate_replicate]
      congr 2
      omega
  · by_cases hc : v.capacity_ = 0
    · have hx : xs = [] := List.eq_nil_of_length_eq_zero (by omega)
      subst hx
      simp [destroy]
    · rw [destroy_spec v.data_ xs _ w (hheap (by omega))]
  · exact (destroy_frame v.data_ xs.length w).1
  · exact (destroy_frame v.data_ xs.length w).2.2.2.1

theorem clear_spec_witness :
    Holds (built [1, 2, 3]).1 (built [1, 2, 3]).2.1 [1, 2, 3] ∧
      Holds (clear (built [1, 2, 3]).1 (built [1, 2, 3]).2.1).1
        (clear (built [1, 2, 3]).1 (built [1, 2, 3]).2.1).2 [] ∧
      (clear (built [1, 2, 3]).1 (built [1, 2, 3]).2.1).1.log =
        (built [1, 2, 3]).1.log ++
          (List.range [1, 2, 3].length).reverse.map (Event.destroy (built [1, 2, 3]).2.1.data_) :=
  have h := clear_spec (built [1, 2, 3]).1 (built [1, 2, 3]).2.1 [1, 2, 3] (by decide)
  ⟨by decide, h.2.2.2.1, h.2.2.2.2.1⟩

theorem pop_back_stored (w : World T) (v : vector) (ys : List T) (y : T)
    (hH : Stored w v (ys ++ [y])) :
    ∃ w1 v1, pop_back w v = (w1, v1, Res.ok ()) ∧ Stored w1 v1 ys ∧
      v1.size_ = v.size_ - 1 ∧ v1.capacity_ = v.capacity_ ∧ v1.data_ = v.data_ := by
  obtain ⟨hsz, hle, hnull, htop, hheap⟩ := id hH
  simp only [List.length_append, List.length_singleton] at hsz
  have hne : v.size_ ≠ 0 := by omega
  have hp : w.heap v.data_ = some (ys.map some ++ some y ::
      List.replicate (v.capacity_ - v.size_) Option.none) := by
    rw [hheap (by omega)]; simp
  have hidx : v.size_ - 1 = (ys.map some).length := by
    simp only [List.length_map]; omega
  have hd := destroy_at_spec w v.data_ (ys.map some) (some y) _ hp
  rw [← hidx] at hd
  obtain ⟨f1, _, _, _, _⟩ := destroy_at_frame w v.data_ (v.size_ - 1)
  refine ⟨destroy_at w v.data_ (v.size_ - 1), { v with size_ := v.size_ - 1 },
    by simp only [pop_back, hne, if_false], ⟨?_, ?_, hnull, ?_, fun _ => ?_⟩, rfl, rfl, rfl⟩
  · simp only []; omega
  · simp only []; omega
  · rw [f1]; exact htop
  · simp only []
    rw [hd, ← List.replicate_succ]
    congr 3
    omega

theorem pop_back_ok (w : World T) (v : vector) (ys : List T) (y : T)
    (hH : Holds w v (ys ++ [y])) :
    ∃ w1 v1, pop_back w v = (w1, v1, Res.ok ()) ∧ Holds w1 v1 ys ∧
      v1.size_ = v.size_ - 1 ∧ v1.capacity_ = v.capacity_ ∧ v1.data_ = v.data_ := by
  obtain ⟨w1, v1, h1, h2, h3, h4, h5⟩ := pop_back_stored w v ys y hH.1
  exact ⟨w1, v1, h1, ⟨h2, by rw [h4]; exact hH.2⟩, h3, h4, h5⟩

/-- C15: on a vector holding a non-empty `xs`, `pop_back()` returns (it has no
throwing outcome) and leaves the vector holding `xs` without its last element, with
size one less and the capacity it had; and after a successful `push_back(x)` on a
vector holding `xs`, `pop_back()` leaves a vector holding `xs` with the original
size. -/
theorem pop_back_spec (w : World T) (v : vector) (xs : List T) (hH : Holds w v xs) :
    (xs ≠ [] → ∃ w1 v1, pop_back w v = (w1, v1, Res.ok ()) ∧ Holds w1 v1 xs.dropLast ∧
        v1.size_ = v.size_ - 1 ∧ v1.capacity_ = v.capacity_) ∧
      ∀ (F : Faults T) (x : T) (w1 : World T) (v1 : vector),
        push_back F w v x = (w1, v1, Res.ok ()) →
        ∃ w2 v2, pop_back w1 v1 = (w2, v2, Res.ok ()) ∧ Holds w2 v2 xs ∧
          v2.size_ = v.size_ := by
  refine ⟨fun hne => ?_, fun F x w1 v1 hp => ?_⟩
  · have hx := List.dropLast_append_getLast hne
    rw [← hx] at hH
    obtain ⟨w1, v1, h1, h2, h3, h4, _⟩ := pop_back_ok w v _ _ hH
    exact ⟨w1, v1, h1, h2, h3, h4⟩
  · rcases push_back_spec F w v xs x hH w1 v1 _ hp with
      ⟨_, ⟨_, hH1, hs, _⟩ | ⟨hr, _⟩ | ⟨hr, _⟩ | ⟨hr, _⟩⟩
    · obtain ⟨w2, v2, h1, h2, h3, _⟩ := pop_back_ok w1 v1 xs x hH1
      exact ⟨w2, v2, h1, h2, by omega⟩
    · exact absurd hr (by simp)
    · exact absurd hr (by simp)
    · exact absurd hr (by simp)

theorem pop_back_spec_witness :
    Holds (built [1, 2, 3]).1 (built [1, 2, 3]).2.1 [1, 2, 3] ∧
      ∃ w1 v1, pop_back (built [1, 2, 3]).1 (built [1, 2, 3]).2.1 = (w1, v1, Res.ok ()) ∧
        Holds w1 v1 [1, 2, 3].dropLast ∧ v1.size_ = (built [1, 2, 3]).2.1.size_ - 1 ∧
        v1.capacity_ = (built [1, 2, 3]).2.1.capacity_ :=
  ⟨by decide,
    (pop_back_spec (built [1, 2, 3]).1 (built [1, 2, 3]).2.1 [1, 2, 3] (by decide)).1
      (by decide)⟩

/-! ## Self-assignment -/

/-- C16: the assignment `a = a` returns with the world and every vector object as
they were: the size, the capacity and the elements of `a` are unchanged, whatever
its capacity, and no element is copied. -/
theorem assign_self (F : Faults T) (w : World T) (objs : Nat → vector) (a : Nat) :
    assign F w objs a a = (w, objs, Res.ok ()) ∧ (assign F w objs a a).1.copies = w.copies := by
  simp [assign]

/-! ## A scenario on integers -/

/-- C17: from a default-constructed vector, `push_back` of 1, 2, 3 gives size 3,
elements `[1, 2, 3]` and capacity 4; `erase` of index 1 gives `[1, 3]` and size 2;
`insert` of 9 at index 1 gives `[1, 9, 3]`; `pop_back` gives `[1, 9]`; `clear` gives
size 0 with capacity still 4. -/
theorem scenario_on_integers :
    (built [1, 2, 3]).2.2 = Res.ok () ∧
      Holds (built [1, 2, 3]).1 (built [1, 2, 3]).2.1 [1, 2, 3] ∧
      (built [1, 2, 3]).2.1.size_ = 3 ∧ (built [1, 2, 3]).2.1.capacity_ = 4 ∧
      scenario_erase.2.2 = Res.ok (scenario_erase.2.1.data_, 1) ∧
      Holds scenario_erase.1 scenario_erase.2.1 [1, 3] ∧ scenario_erase.2.1.size_ = 2 ∧
      scenario_insert.2.2 = Res.ok (scenario_insert.2.1.data_, 1) ∧
      Holds scenario_insert.1 scenario_insert.2.1 [1, 9, 3] ∧
      scenario_pop.2.2 = Res.ok () ∧
      Holds scenario_pop.1 scenario_pop.2.1 [1, 9] ∧
      scenario_clear.2.size_ = 0 ∧ scenario_clear.2.capacity_ = 4 ∧
      Holds scenario_clear.1 scenario_clear.2 [] := by
  decide

/-! ## Counting constructions and destructions -/

theorem setSlot_log (w : World T) (p i : Nat) (s : Option T) : (w.setSlot p i s).log = w.log := by
  cases hp : w.heap p <;> simp [World.setSlot, hp, World.store]

theorem destroy_at_counts (w : World T) (p i : Nat) :
    constructed (destroy_at w p i) = constructed w ∧
      destroyed (destroy_at w p i) = destroyed w + 1 := by
  simp [constructed, destroyed, destroy_at, World.emit, setSlot_log, List.countP_append,
    Event.isConstruct, Event.isDestroy]

theorem destroy_counts (p : Nat) :
    ∀ (n : Nat) (w : World T),
      constructed (destroy w p n) = constructed w ∧
        destroyed (destroy w p n) = destroyed w + n := by
  intro n
  induction n with
  | zero => intro w; simp [destroy]
  | succ n ih =>
    intro w
    obtain ⟨h1, h2⟩ := ih (destroy_at w p n)
    obtain ⟨g1, g2⟩ := destroy_at_counts w p n
    simp only [destroy]
    exact ⟨by rw [h1, g1], by rw [h2, g2]; omega⟩

theorem operator_delete_counts (w : World T) (p : Nat) :
    constructed (operator_delete w p) = constructed w ∧
      destroyed (operator_delete w p) = destroyed w := by
  by_cases hp : p = 0
  · simp [operator_delete, hp]
  · simp [operator_delete, hp, constructed, destroyed, World.emit, World.store,
      List.countP_append, Event.isConstruct, Event.isDestroy]

theorem dtor_counts (w : World T) (v : vector) :
    constructed (dtor w v) = constructed w ∧ destroyed (dtor w v) = destroyed w + v.size_ := by
  obtain ⟨h1, h2⟩ := destroy_counts v.data_ v.size_ w
  obtain ⟨g1, g2⟩ := operator_delete_counts (destroy w v.data_ v.size_) v.data_
  simp only [dtor]
  exact ⟨by rw [g1, h1], by rw [g2, h2]⟩

theorem copy_value_log (F : Faults T) (w : World T) (x : T) (w1 : World T) (r : Res T)
    (h : copy_value F w x = (w1, r)) : w1.log = w.log := by
  unfold copy_value at h
  split at h <;> (simp only [Prod.mk.injEq] at h; rw [← h.1])

theorem construct_at_counts (F : Faults T) (w : World T) (p i : Nat) (x : T) (w1 : World T)
    (h : construct_at F w p i x = (w1, Res.ok ())) :
    constructed w1 = constructed w + 1 ∧ destroyed w1 = destroyed w := by
  cases hs : w.slot p i with
  | none => simp [construct_at, hs] at h
  | some o =>
    cases o with
    | some y => simp [construct_at, hs] at h
    | none =>
      cases hc : F.copy w.copies with
      | true => simp [construct_at, hs, copy_value, hc] at h
      | false =>
        simp only [construct_at, hs, copy_value, hc, Bool.false_eq_true, if_false,
          Prod.mk.injEq, and_true] at h
        rw [← h]
        simp [constructed, destroyed, World.emit, setSlot_log, List.countP_append,
          Event.isConstruct, Event.isDestroy]

theorem copy_loop_counts (F : Faults T) (src tmp : Nat) :
    ∀ (n i : Nat) (w w1 : World T) (j : Nat),
      copy_loop F src tmp n i w = (w1, j, Res.ok ()) →
      constructed w1 = constructed w + n ∧ destroyed w1 = destroyed w := by
  intro n
  induction n with
  | zero =>
    intro i w w1 j h
    simp only [copy_loop, Prod.mk.injEq, and_true] at h
    rw [← h.1]; exact ⟨rfl, rfl⟩
  | succ n ih =>
    intro i w w1 j h
    simp only [copy_loop] at h
    cases hs : w.slot src i with
    | none => simp [hs] at h
    | some o =>
      cases o with
      | none => simp [hs] at h
      | some x =>
        simp only [hs] at h
        rcases hca : construct_at F w tmp i x with ⟨w2, r2⟩
        rw [hca] at h
        cases r2 with
        | ok u =>
          cases u
          simp only at h
          obtain ⟨c1, c2⟩ := construct_at_counts F w tmp i x w2 hca
          obtain ⟨i1, i2⟩ := ih (i + 1) w2 w1 j h
          exact ⟨by rw [i1, c1]; omega, by rw [i2, c2]⟩
        | thrown => simp at h
        | undefined => simp at h

theorem copy_and_construct_counts (F : Faults T) (w : World T) (src size cap : Nat)
    (w1 : World T) (p : Nat) (hcap : cap ≠ 0)
    (h : copy_and_construct F w src size cap = (w1, Res.ok p)) :
    constructed w1 = constructed w + size ∧ destroyed w1 = destroyed w := by
  cases ha : F.alloc w.allocs with
  | true =>
    rw [copy_and_construct_alloc_thrown F w src size cap hcap ha] at h
    simp at h
  | false =>
    simp only [copy_and_construct, hcap, ne_eq, not_false_eq_true, if_true, allocate, ha,
      Bool.false_eq_true, if_false] at h
    split at h
    · rename_i w2 j u hl
      simp only [Prod.mk.injEq, Res.ok.injEq] at h
      rw [← h.1]
      cases u
      obtain ⟨c1, c2⟩ := copy_loop_counts F src _ size 0 _ w2 j hl
      rw [c1, c2]
      simp [constructed, destroyed, World.emit, World.store, List.countP_append,
        Event.isConstruct, Event.isDestroy]
    · simp at h
    · simp at h

theorem new_buffer_counts (F : Faults T) (w : World T) (v : vector) (n : Nat)
    (w1 : World T) (v1 : vector) (hn : n ≠ 0)
    (h : new_buffer F w v n = (w1, v1, Res.ok ())) :
    constructed w1 = constructed w + v.size_ ∧ destroyed w1 = destroyed w + v.size_ := by
  simp only [new_buffer, hn, ne_eq, not_false_eq_true, if_true] at h
  rcases hcc : copy_and_construct F w v.data_ v.size_ n with ⟨w', r'⟩
  rw [hcc] at h
  cases r' with
  | ok p =>
    simp only [swap, Prod.mk.injEq, and_true] at h
    rw [← h.1]
    obtain ⟨c1, c2⟩ := copy_and_construct_counts F w _ _ n w' p hn hcc
    obtain ⟨d1, d2⟩ := dtor_counts w' ⟨v.data_, v.size_, v.capacity_⟩
    exact ⟨by rw [d1, c1], by rw [d2, c2]⟩
  | thrown => simp at h
  | undefined => simp at h

theorem push_back_counts (F : Faults T) (w : World T) (v : vector) (x : T)
    (w1 : World T) (v1 : vector) (h : push_back F w v x = (w1, v1, Res.ok ())) :
    (v.size_ = v.capacity_ →
        constructed w1 = constructed w + v.size_ + 1 ∧ destroyed w1 = destroyed w + v.size_) ∧
      (v.size_ ≠ v.capacity_ →
        constructed w1 = constructed w + 1 ∧ destroyed w1 = destroyed w) := by
  unfold push_back at h
  refine ⟨fun hfull => ?_, fun hnf => ?_⟩
  · rw [if_pos hfull] at h
    unfold push_back_realloc at h
    rcases hcv : copy_value F w x with ⟨wt, rt⟩
    rw [hcv] at h
    have hlog := copy_value_log F w x wt rt hcv
    cases rt with
    | ok c =>
      simp only at h
      rcases hnb : new_buffer F wt v (increase_capacity v) with ⟨w2, v2, r2⟩
      rw [hnb] at h
      have hn0 : increase_capacity v ≠ 0 := by
        rw [increase_capacity_eq, Nat.max_def]; split <;> omega
      cases r2 with
      | ok u =>
        cases u
        simp only at h
        obtain ⟨n1, n2⟩ := new_buffer_counts F wt v _ w2 v2 hn0 hnb
        rcases hca : construct_at F w2 v2.data_ v2.size_ c with ⟨w3, r3⟩
        rw [hca] at h
        cases r3 with
        | ok u2 =>
          cases u2
          simp only [Prod.mk.injEq, and_true] at h
          obtain ⟨c1, c2⟩ := construct_at_counts F w2 _ _ c w3 hca
          rw [← h.1, c1, c2, n1, n2]
          simp only [constructed, destroyed, hlog]
          exact ⟨trivial, trivial⟩
        | thrown => simp at h
        | undefined => simp at h
      | thrown => simp at h
      | undefined => simp at h
    | thrown => simp at h
    | undefined => simp at h
  · rw [if_neg hnf] at h
    rcases hca : construct_at F w v.data_ v.size_ x with ⟨w3, r3⟩
    rw [hca] at h
    cases r3 with
    | ok u2 =>
      cases u2
      simp only [Prod.mk.injEq, and_true] at h
      rw [← h.1]
      exact construct_at_counts F w _ _ x w3 hca
    | thrown => simp at h
    | undefined => simp at h

theorem push_all_moved (F : Faults T) (c0 d0 : Nat) :
    ∀ (xs ys : List T) (w : World T) (v : vector) (w1 : World T) (v1 : vector) (M : Nat),
      Holds w v ys → push_all F w v xs = (w1, v1, Res.ok ()) →
      destroyed w = d0 + M → constructed w = c0 + ys.length + M →
      M + 1 = max 1 v.capacity_ →
      ∃ M1, destroyed w1 = d0 + M1 ∧ constructed w1 = c0 + (ys ++ xs).length + M1 ∧
        M1 + 1 = max 1 v1.capacity_ := by
  intro xs
  induction xs with
  | nil =>
    intro ys w v w1 v1 M _ h hd hc hM
    simp only [push_all, Prod.mk.injEq, and_true] at h
    obtain ⟨rfl, rfl⟩ := h
    exact ⟨M, hd, by simpa using hc, hM⟩
  | cons x xs ih =>
    intro ys w v w1 v1 M hH h hd hc hM
    simp only [push_all] at h
    rcases hpb : push_back F w v x with ⟨w', v', r'⟩
    rw [hpb] at h
    cases r' with
    | ok u =>
      cases u
      simp only at h
      obtain ⟨k1, k2⟩ := push_back_counts F w v x w' v' hpb
      rcases push_back_spec F w v ys x hH w' v' _ hpb with
        ⟨_, ⟨_, hH1, _, hcap, _⟩ | ⟨hr, _⟩ | ⟨hr, _⟩ | ⟨hr, _⟩⟩
      · have hsz : v.size_ = ys.length := hH.1.1
        by_cases hfull : v.size_ = v.capacity_
        · obtain ⟨a1, a2⟩ := k1 hfull
          rw [if_pos hfull] at hcap
          have hM' : M + v.size_ + 1 = max 1 v'.capacity_ := by
            rw [hcap]
            by_cases h0 : v.capacity_ = 0
            · rw [h0] at hM ⊢
              simp at hM ⊢
              omega
            · have e1 : max 1 v.capacity_ = v.capacity_ := Nat.max_eq_right (by omega)
              have e2 : max 1 (2 * v.capacity_) = 2 * v.capacity_ :=
                Nat.max_eq_right (by omega)
              rw [e2, e2]
              rw [e1] at hM
              omega
          obtain ⟨M1, r1, r2, r3⟩ := ih (ys ++ [x]) w' v' w1 v1 (M + v.size_) hH1 h
            (by rw [a2, hd]; omega)
            (by rw [a1, hc]; simp only [List.length_append, List.length_singleton]; omega) hM'
          exact ⟨M1, r1, by simpa using r2, r3⟩
        · obtain ⟨a1, a2⟩ := k2 hfull
          rw [if_neg hfull] at hcap
          obtain ⟨M1, r1, r2, r3⟩ := ih (ys ++ [x]) w' v' w1 v1 M hH1 h
            (by rw [a2, hd])
            (by rw [a1, hc]; simp only [List.length_append, List.length_singleton]; omega)
            (by rw [hcap]; exact hM)
          exact ⟨M1, r1, by simpa using r2, r3⟩
      · exact absurd hr (by simp)
      · exact absurd hr (by simp)
      · exact absurd hr (by simp)
    | thrown => simp at h
    | undefined => simp at h

/-- C18: over the `n` successful `push_back` calls that build a vector from a
default-constructed one, the constructions in buffer slots number `n + M` and the
destructions `M`, where `M` counts the stored elements copied into a fresh buffer
by a reallocation (each such copy is one construction, followed by the destruction
of the original); and `M ≤ 2 * n`. -/
theorem push_all_relocations (F : Faults T) (w : World T) (xs : List T) (w1 : World T)
    (v1 : vector) (h : push_all F w ctor xs = (w1, v1, Res.ok ())) :
    ∃ M, destroyed w1 = destroyed w + M ∧ constructed w1 = constructed w + xs.length + M ∧
      M ≤ 2 * xs.length := by
  obtain ⟨hH1, _, hD1⟩ := push_all_spec F xs [] w ctor w1 v1 (holds_ctor w) h
  simp only [List.nil_append] at hH1
  have hD := hD1 (Or.inl ⟨rfl, rfl⟩)
  obtain ⟨M1, r1, r2, r3⟩ := push_all_moved F (constructed w) (destroyed w) xs [] w ctor w1 v1 0
    (holds_ctor w) h rfl rfl (by simp [ctor])
  refine ⟨M1, r1, by simpa using r2, ?_⟩
  have hsz : v1.size_ = xs.length := hH1.1.1
  rcases hD with ⟨_, hc0⟩ | ⟨_, k, _, hlt⟩
  · rw [hc0] at r3
    simp at r3
    omega
  · rw [Nat.max_def] at r3
    split at r3 <;> omega

theorem push_all_relocations_witness :
    ∃ M, destroyed (built [1, 2, 3, 4, 5]).1 = destroyed (World.init Nat) + M ∧
      constructed (built [1, 2, 3, 4, 5]).1 =
        constructed (World.init Nat) + [1, 2, 3, 4, 5].length + M ∧
      M ≤ 2 * [1, 2, 3, 4, 5].length :=
  push_all_relocations (Faults.none Nat) (World.init Nat) [1, 2, 3, 4, 5]
    (built [1, 2, 3, 4, 5]).1 (built [1, 2, 3, 4, 5]).2.1 rfl

/-! ## The weak guarantee of `insert` and `erase` -/

theorem clean_refl (F : Faults T) (w : World T) : Clean F w w :=
  ⟨fun _ h1 h2 => by omega, fun _ h1 h2 => by omega⟩

theorem clean_trans (F : Faults T) (w w2 w1 : World T) (h1 : Clean F w w2) (h2 : Clean F w2 w1) :
    Clean F w w1 := by
  refine ⟨fun j a b => ?_, fun j a b => ?_⟩
  · by_cases hj : j < w2.copies
    · exact h1.1 j a hj
    · exact h2.1 j (by omega) b
  · by_cases hj : j < w2.assigns
    · exact h1.2 j a hj
    · exact h2.2 j (by omega) b

theorem later_trans (w w2 w1 : World T) (h1 : Later w w2) (h2 : Later w2 w1) : Later w w1 :=
  ⟨Nat.le_trans h1.1 h2.1, Nat.le_trans h1.2 h2.2⟩

theorem assign_at_any (F : Faults T) (w : World T) (p : Nat) (pre : List (Option T)) (old : T)
    (rest : List (Option T)) (x : T) (w1 : World T) (r : Res Unit)
    (hp : w.heap p = some (pre ++ some old :: rest))
    (h : assign_at F w p pre.length x = (w1, r)) :
    (r = Res.ok () ∨ r = Res.thrown) ∧ (r = Res.ok () → Clean F w w1) ∧ Later w w1 ∧
      w1.top = w.top ∧ (∀ q, q ≠ p → w1.heap q = w.heap q) ∧
      ∃ y, w1.heap p = some (pre ++ some y :: rest) ∧ (r = Res.ok () → y = x) := by
  have hs : w.slot p pre.length = some (some old) := by
    simp only [World.slot, hp]
    exact getElem?_live_append pre (some old) rest
  cases hf : F.assign w.assigns with
  | true =>
    simp only [assign_at, hs, hf, if_true, World.setSlot, hp, World.store, Prod.mk.injEq] at h
    obtain ⟨rfl, rfl⟩ := h
    refine ⟨Or.inr rfl, fun hr => absurd hr (by simp), ⟨Nat.le_refl _, Nat.le_succ _⟩, rfl,
      fun q hq => by simp only [hq, if_false], F.residue w.assigns old x, ?_,
      fun hr => absurd hr (by simp)⟩
    simp only [if_true]
    rw [set_append_cons]
  | false =>
    simp only [assign_at, hs, hf, Bool.false_eq_true, if_false, World.setSlot, hp, World.store,
      Prod.mk.injEq] at h
    obtain ⟨rfl, rfl⟩ := h
    refine ⟨Or.inl rfl, fun _ => ⟨fun j a b => ?_, fun j a b => ?_⟩,
      ⟨Nat.le_refl _, Nat.le_succ _⟩, rfl, fun q hq => by simp only [hq, if_false], x, ?_,
      fun _ => rfl⟩
    · simp only at a b; omega
    · simp only at a b
      have : j = w.assigns := by omega
      rw [this]; exact hf
    · simp only [if_true]
      rw [set_append_cons]

theorem copy_value_any (F : Faults T) (w : World T) (x : T) (w1 : World T) (r : Res T)
    (h : copy_value F w x = (w1, r)) :
    (r = Res.ok x ∨ r = Res.thrown) ∧ (r = Res.ok x → Clean F w w1) ∧ Later w w1 ∧
      w1.top = w.top ∧ w1.heap = w.heap := by
  cases hc : F.copy w.copies with
  | true =>
    simp only [copy_value, hc, if_true, Prod.mk.injEq] at h
    obtain ⟨rfl, rfl⟩ := h
    exact ⟨Or.inr rfl, fun hr => absurd hr (by simp), ⟨Nat.le_succ _, Nat.le_refl _⟩, rfl, rfl⟩
  | false =>
    simp only [copy_value, hc, Bool.false_eq_true, if_false, Prod.mk.injEq] at h
    obtain ⟨rfl, rfl⟩ := h
    refine ⟨Or.inl rfl, fun _ => ⟨fun j a b => ?_, fun j a b => ?_⟩,
      ⟨Nat.le_succ _, Nat.le_refl _⟩, rfl, rfl⟩
    · simp only at a b
      have : j = w.copies := by omega
      rw [this]; exact hc
    · simp only at a b; omega

theorem swap_elems_any (F : Faults T) (w : World T) (p : Nat) (pre : List (Option T))
    (a b : T) (rest : List (Option T)) (w1 : World T) (r : Res Unit)
    (hp : w.heap p = some (pre ++ some b :: some a :: rest))
    (h : swap_elems F w p (pre.length + 1) pre.length = (w1, r)) :
    (r = Res.ok () ∨ r = Res.thrown) ∧ (r = Res.ok () → Clean F w w1) ∧ Later w w1 ∧
      w1.top = w.top ∧ (∀ q, q ≠ p → w1.heap q = w.heap q) ∧
      ∃ y z, w1.heap p = some (pre ++ some y :: some z :: rest) ∧
        (r = Res.ok () → y = a ∧ z = b) := by
  have hp' : w.heap p = some ((pre ++ [some b]) ++ some a :: rest) := by
    rw [hp]; simp
  have hsj : w.slot p pre.length = some (some b) := by
    simp only [World.slot, hp]
    exact getElem?_live_append pre (some b) _
  have hsi : w.slot p (pre.length + 1) = some (some a) := by
    simp only [World.slot, hp']
    have := getElem?_live_append (pre ++ [some b]) (some a) rest
    simpa using this
  unfold swap_elems at h
  rw [hsi, hsj] at h
  simp only at h
  rcases hcv : copy_value F w a with ⟨wt, rt⟩
  rw [hcv] at h
  obtain ⟨t0, tc, tl, t2, t1⟩ := copy_value_any F w a wt rt hcv
  rcases t0 with hrt | hrt
  · subst hrt
    simp only at h
    rcases ha1 : assign_at F wt p (pre.length + 1) b with ⟨w2, r2⟩
    rw [ha1] at h
    have hpt : wt.heap p = some ((pre ++ [some b]) ++ some a :: rest) := by
      rw [t1]; exact hp'
    have ha1' : assign_at F wt p (pre ++ [some b]).length b = (w2, r2) := by
      simpa using ha1
    obtain ⟨g0, gc, gl, g2, g4, y1, g1, gy⟩ := assign_at_any F wt p _ a rest b w2 r2 hpt ha1'
    have hp2 : w2.heap p = some (pre ++ some b :: some y1 :: rest) := by
      rw [g1]; simp
    rcases g0 with hr2 | hr2
    · subst hr2
      simp only at h
      obtain ⟨k0, kc, kl, k2, k4, y2, k1, ky⟩ := assign_at_any F w2 p pre b (some y1 :: rest) a
        w1 r hp2 h
      refine ⟨k0, fun hr => clean_trans F w wt w1 (tc rfl) (clean_trans F wt w2 w1 (gc rfl)
        (kc hr)), later_trans _ _ _ tl (later_trans _ _ _ gl kl), by rw [k2, g2, t2],
        fun q hq => by rw [k4 q hq, g4 q hq, t1], y2, y1, k1, fun hr => ⟨ky hr, gy rfl⟩⟩
    · subst hr2
      simp only [Prod.mk.injEq] at h
      obtain ⟨rfl, rfl⟩ := h
      exact ⟨Or.inr rfl, fun hr => absurd hr (by simp), later_trans _ _ _ tl gl, by rw [g2, t2],
        fun q hq => by rw [g4 q hq, t1], b, y1, hp2, fun hr => absurd hr (by simp)⟩
  · subst hrt
    simp only [Prod.mk.injEq] at h
    obtain ⟨rfl, rfl⟩ := h
    exact ⟨Or.inr rfl, fun hr => absurd hr (by simp), tl, t2, fun q _ => by rw [t1], b, a,
      by rw [t1]; exact hp, fun hr => absurd hr (by simp)⟩

theorem insert_loop_any (F : Faults T) (p : Nat) :
    ∀ (M : List T) (x : T) (pre rest : List (Option T)) (w w1 : World T) (r : Res Unit),
      w.heap p = some (pre ++ M.map some ++ some x :: rest) →
      insert_loop F p M.length (pre.length + M.length) w = (w1, r) →
      (r = Res.ok () ∨ r = Res.thrown) ∧ (r = Res.ok () → Clean F w w1) ∧ Later w w1 ∧
        w1.top = w.top ∧ (∀ q, q ≠ p → w1.heap q = w.heap q) ∧
        ∃ N : List T, N.length = M.length + 1 ∧
          w1.heap p = some (pre ++ N.map some ++ rest) := by
  intro M
  induction M using List.reverseRecOn with
  | nil =>
    intro x pre rest w w1 r hp h
    simp only [List.length_nil, insert_loop, Prod.mk.injEq] at h
    obtain ⟨rfl, rfl⟩ := h
    simp only [List.map_nil, List.append_nil] at hp
    exact ⟨Or.inl rfl, fun _ => clean_refl F w, ⟨Nat.le_refl _, Nat.le_refl _⟩, rfl,
      fun _ _ => rfl, [x], rfl, by simpa using hp⟩
  | append_singleton M m ih =>
    intro x pre rest w w1 r hp h
    have hlen : (M ++ [m]).length = M.length + 1 := by simp
    rw [hlen] at h
    simp only [insert_loop] at h
    have hidx : pre.length + (M.length + 1) - 1 = pre.length + M.length := by omega
    rw [hidx] at h
    have hpre : (pre ++ M.map some).length = pre.length + M.length := by simp
    have hp1 : w.heap p = some ((pre ++ M.map some) ++ some m :: some x :: rest) := by
      rw [hp]; simp
    rcases hsw : swap_elems F w p (pre.length + (M.length + 1)) (pre.length + M.length) with
      ⟨w2, r2⟩
    rw [hsw] at h
    have hsw' : swap_elems F w p ((pre ++ M.map some).length + 1) (pre ++ M.map some).length =
        (w2, r2) := by
      rw [hpre]; exact hsw
    obtain ⟨s0, sc, sl, s2, s3, y, z, s1, _⟩ := swap_elems_any F w p _ x m rest w2 r2 hp1 hsw'
    rcases s0 with hr2 | hr2
    · subst hr2
      simp only at h
      have hp2 : w2.heap p = some (pre ++ M.map some ++ some y :: (some z :: rest)) := by
        rw [s1]
      obtain ⟨i0, ic, il, i2, i3, N, n1, n2⟩ := ih y pre (some z :: rest) w2 w1 r hp2 h
      refine ⟨i0, fun hr => clean_trans F w w2 w1 (sc rfl) (ic hr), later_trans _ _ _ sl il,
        by rw [i2, s2], fun q hq => by rw [i3 q hq, s3 q hq], N ++ [z], ?_, ?_⟩
      · simp only [List.length_append, List.length_singleton, n1]
      · rw [n2]; simp
    · subst hr2
      simp only [Prod.mk.injEq] at h
      obtain ⟨rfl, rfl⟩ := h
      refine ⟨Or.inr rfl, fun hr => absurd hr (by simp), sl, s2, s3, M ++ [y, z], ?_, ?_⟩
      · simp
      · rw [s1]; simp

theorem shift_loop_any (F : Faults T) (p len : Nat) :
    ∀ (B M : List T) (pre rest : List (Option T)) (w w1 : World T) (r : Res Unit),
      M.length = len → 0 < len →
      w.heap p = some (pre ++ M.map some ++ B.map some ++ rest) →
      shift_loop F p len B.length pre.length w = (w1, r) →
      (r = Res.ok () ∨ r = Res.thrown) ∧ (r = Res.ok () → Clean F w w1) ∧ Later w w1 ∧
        w1.top = w.top ∧ (∀ q, q ≠ p → w1.heap q = w.heap q) ∧
        ∃ N : List T, N.length = M.length + B.length ∧
          w1.heap p = some (pre ++ N.map some ++ rest) := by
  intro B
  induction B with
  | nil =>
    intro M pre rest w w1 r _ _ hp h
    simp only [List.length_nil, shift_loop, Prod.mk.injEq] at h
    obtain ⟨rfl, rfl⟩ := h
    exact ⟨Or.inl rfl, fun _ => clean_refl F w, ⟨Nat.le_refl _, Nat.le_refl _⟩, rfl,
      fun _ _ => rfl, M, rfl, by simpa using hp⟩
  | cons b B ih =>
    intro M pre rest w w1 r hM hlen hp h
    cases M with
    | nil => simp at hM; omega
    | cons m M0 =>
      simp only [List.length_cons, shift_loop] at h
      have hrd : w.slot p (pre.length + len) = some (some b) := by
        simp only [World.slot, hp]
        have := getElem?_live_append (pre ++ (m :: M0).map some) (some b) (B.map some ++ rest)
        simp only [List.length_append, List.length_map, hM] at this
        simpa using this
      rw [hrd] at h
      simp only at h
      have hp0 : w.heap p = some (pre ++ some m :: (M0.map some ++ some b :: B.map some ++ rest)) := by
        rw [hp]; simp
      rcases ha : assign_at F w p pre.length b with ⟨w2, r2⟩
      rw [ha] at h
      obtain ⟨a0, ac, al, a2, a4, y, a1, _⟩ := assign_at_any F w p pre m _ b w2 r2 hp0 ha
      rcases a0 with hr2 | hr2
      · subst hr2
        simp only at h
        have hM2 : (M0 ++ [b]).length = len := by
          simp only [List.length_append, List.length_singleton]
          simpa using hM
        have hp2 : w2.heap p = some ((pre ++ [some y]) ++ (M0 ++ [b]).map some ++ B.map some ++
            rest) := by
          rw [a1]; simp
        have h' : shift_loop F p len B.length (pre ++ [some y]).length w2 = (w1, r) := by
          simpa using h
        obtain ⟨i0, ic, il, i2, i3, N, n1, n2⟩ := ih (M0 ++ [b]) (pre ++ [some y]) rest w2 w1 r
          hM2 hlen hp2 h'
        refine ⟨i0, fun hr => clean_trans F w w2 w1 (ac rfl) (ic hr), later_trans _ _ _ al il,
          by rw [i2, a2], fun q hq => by rw [i3 q hq, a4 q hq], y :: N, ?_, ?_⟩
        · simp only [List.length_cons, List.length_append, List.length_nil] at n1 ⊢
          omega
        · rw [n2]; simp
      · subst hr2
        simp only [Prod.mk.injEq] at h
        obtain ⟨rfl, rfl⟩ := h
        refine ⟨Or.inr rfl, fun hr => absurd hr (by simp), al, a2, a4,
          y :: (M0 ++ b :: B), ?_, ?_⟩
        · simp only [List.length_cons, List.length_append]; omega
        · rw [a1]; simp

theorem erase_destroy_counters (p size : Nat) :
    ∀ (n i : Nat) (w : World T),
      (erase_destroy p size n i w).copies = w.copies ∧
        (erase_destroy p size n i w).assigns = w.assigns := by
  intro n
  induction n with
  | zero => intro i w; exact ⟨rfl, rfl⟩
  | succ n ih =>
    intro i w
    obtain ⟨h1, h2⟩ := ih (i + 1) (destroy_at w p (size - i - 1))
    obtain ⟨_, g2, g3, _⟩ := destroy_at_frame w p (size - i - 1)
    simp only [erase_destroy]
    exact ⟨by rw [h1, g2], by rw [h2, g3]⟩

theorem take_append_left (A N : List T) (f : Nat) (hf : A.length = f) :
    (A ++ N).take f = A := by
  rw [List.take_append_of_le_length (by omega), List.take_of_length_le (by omega)]

theorem erase_weak (F : Faults T) (w : World T) (v : vector) (xs : List T) (f l : Nat)
    (w1 : World T) (v1 : vector) (r : Res iterator) (hH : Stored w v xs) (hfl : f < l)
    (hl : l ≤ xs.length) (h : erase F w v (v.data_, f) (v.data_, l) = (w1, v1, r)) :
    ((∃ it, r = Res.ok it) ∨ r = Res.thrown) ∧
      ((∃ j, w.assigns ≤ j ∧ j < w1.assigns ∧ F.assign j = true) → r = Res.thrown) ∧
      (r = Res.thrown → v1 = v ∧ ∃ ys, Stored w1 v ys ∧ ys.take f = xs.take f) := by
  obtain ⟨hsz, hle, hnull, htop, hheap⟩ := id hH
  unfold erase at h
  have heq : ¬ l = f := by omega
  have hb : f ≤ l ∧ l ≤ v.size_ := ⟨by omega, by omega⟩
  simp only [and_self, if_true, heq, if_false, hb] at h
  have hn : v.size_ - (l - f) - f = (xs.drop l).length := by
    simp only [List.length_drop]; omega
  have hi : f = ((xs.take f).map some).length := by
    simp only [List.length_map, List.length_take]; omega
  have hG : ((xs.drop f).take (l - f)).length = l - f := by
    simp only [List.length_take, List.length_drop]; omega
  have hp : w.heap v.data_ = some ((xs.take f).map some ++
      ((xs.drop f).take (l - f)).map some ++ (xs.drop l).map some ++
      List.replicate (v.capacity_ - v.size_) Option.none) := by
    rw [hheap (by omega)]
    conv_lhs => rw [take_mid_drop xs f l (by omega)]
    simp
  rcases hsl : shift_loop F v.data_ (l - f) (v.size_ - (l - f) - f) f w with ⟨w2, r2⟩
  rw [hsl] at h
  have hsl' : shift_loop F v.data_ (l - f) (xs.drop l).length
      ((xs.take f).map some).length w = (w2, r2) := by
    rw [← hn, ← hi]; exact hsl
  obtain ⟨s0, sc, _, s2, _, N, n1, n2⟩ := shift_loop_any F v.data_ (l - f) (xs.drop l)
    ((xs.drop f).take (l - f)) _ _ w w2 r2 hG (by omega) hp hsl'
  rcases s0 with hr2 | hr2
  · subst hr2
    simp only [Prod.mk.injEq] at h
    obtain ⟨rfl, rfl, rfl⟩ := h
    refine ⟨Or.inl ⟨_, rfl⟩, ?_, fun hr => absurd hr (by simp)⟩
    rintro ⟨j, j1, j2, j3⟩
    rw [(erase_destroy_counters v.data_ v.size_ (l - f) 0 w2).2] at j2
    rw [(sc rfl).2 j j1 j2] at j3
    exact absurd j3 (by simp)
  · subst hr2
    simp only [Prod.mk.injEq] at h
    obtain ⟨rfl, rfl, rfl⟩ := h
    refine ⟨Or.inr rfl, fun _ => rfl, fun _ => ⟨rfl, xs.take f ++ N, ?_, ?_⟩⟩
    · refine ⟨?_, hle, hnull, by rw [s2]; exact htop, fun _ => ?_⟩
      · simp only [List.length_append, List.length_take, n1, hG, List.length_drop]; omega
      · rw [n2]; simp
    · exact take_append_left _ _ f (by simp only [List.length_take]; omega)

theorem insert_weak (F : Faults T) (w : World T) (v : vector) (xs : List T) (i : Nat) (x : T)
    (w2 : World T) (v2 : vector) (w1 : World T) (v1 : vector) (r : Res iterator)
    (hH : Holds w v xs) (hi : i ≤ xs.length)
    (hp : push_back F w v x = (w2, v2, Res.ok ()))
    (h : insert F w v (v.data_, i) x = (w1, v1, r)) :
    ((∃ it, r = Res.ok it) ∨ r = Res.thrown) ∧
      (((∃ j, w2.copies ≤ j ∧ j < w1.copies ∧ F.copy j = true) ∨
          (∃ j, w2.assigns ≤ j ∧ j < w1.assigns ∧ F.assign j = true)) → r = Res.thrown) ∧
      (r = Res.thrown → v1.size_ = v.size_ + 1 ∧ v1.size_ ≤ v1.capacity_ ∧
        ∃ ys, Holds w1 v1 ys ∧ ys.take i = xs.take i) := by
  unfold insert at h
  simp only [if_true] at h
  rw [hp] at h
  simp only at h
  rcases push_back_spec F w v xs x hH w2 v2 _ hp with
    ⟨_, ⟨_, hH2, hs, _, _⟩ | ⟨hr, _⟩ | ⟨hr, _⟩ | ⟨hr, _⟩⟩
  · obtain ⟨⟨g1, g2, g3, g4, g5⟩, gres⟩ := id hH2
    have hsz2 : v2.size_ = xs.length + 1 := by simpa using g1
    have hn : v2.size_ - 1 - i = (xs.drop i).length := by
      simp only [List.length_drop]; omega
    have hst : v2.size_ - 1 = ((xs.take i).map some).length + (xs.drop i).length := by
      simp only [List.length_map, List.length_take, List.length_drop]; omega
    rw [hn, hst] at h
    have hsplit : xs = xs.take i ++ xs.drop i := (List.take_append_drop i xs).symm
    have hp2 : w2.heap v2.data_ = some ((xs.take i).map some ++ (xs.drop i).map some ++
        some x :: List.replicate (v2.capacity_ - v2.size_) Option.none) := by
      rw [g5 (by omega)]
      conv_lhs => rw [hsplit]
      simp
    rcases hl : insert_loop F v2.data_ (xs.drop i).length
        (((xs.take i).map some).length + (xs.drop i).length) w2 with ⟨w3, r3⟩
    rw [hl] at h
    obtain ⟨l0, lc, _, l2, _, N, n1, n2⟩ := insert_loop_any F v2.data_ (xs.drop i) x _ _ w2 w3 r3
      hp2 hl
    rcases l0 with hr3 | hr3
    · subst hr3
      simp only [Prod.mk.injEq] at h
      obtain ⟨rfl, rfl, rfl⟩ := h
      refine ⟨Or.inl ⟨_, rfl⟩, ?_, fun hr => absurd hr (by simp)⟩
      rintro (⟨j, j1, j2, j3⟩ | ⟨j, j1, j2, j3⟩)
      · rw [(lc rfl).1 j j1 j2] at j3
        exact absurd j3 (by simp)
      · rw [(lc rfl).2 j j1 j2] at j3
        exact absurd j3 (by simp)
    · subst hr3
      simp only [Prod.mk.injEq] at h
      obtain ⟨rfl, rfl, rfl⟩ := h
      refine ⟨Or.inr rfl, fun _ => rfl, fun _ => ⟨hs, g2, xs.take i ++ N, ?_, ?_⟩⟩
      · refine ⟨⟨?_, g2, g3, by rw [l2]; exact g4, fun _ => ?_⟩, gres⟩
        · simp only [List.length_append, List.length_take, n1, List.length_drop]; omega
        · rw [n2]; simp
      · exact take_append_left _ _ i (by simp only [List.length_take]; omega)
  · exact absurd hr (by simp)
  · exact absurd hr (by simp)
  · exact absurd hr (by simp)

/-- C19: weak guarantee. On a vector holding `xs`: a call of `erase` on a non-empty
range `f < l ≤ size` returns or throws, it throws whenever an assignment made by the
call was due to throw, and when it throws the fields of the vector (size and capacity
included) are unchanged, the slots `[0, size)` are all live and the rest raw, and the
elements below `f` are what they were. For `insert` at `i ≤ size` after its
`push_back` has succeeded: the call returns or throws, it throws whenever a copy or
an assignment made by the rotation was due to throw, and when it throws the size is
the old size plus one, at most the capacity, the slots `[0, size)` are all live and
the rest raw, and the elements below `i` are what they were. -/
theorem weak_guarantee (F : Faults T) :
    (∀ (w : World T) (v : vector) (xs : List T) (f l : Nat) (w1 : World T) (v1 : vector)
        (r : Res iterator), Holds w v xs → f < l → l ≤ xs.length →
        erase F w v (v.data_, f) (v.data_, l) = (w1, v1, r) →
        ((∃ it, r = Res.ok it) ∨ r = Res.thrown) ∧
          ((∃ j, w.assigns ≤ j ∧ j < w1.assigns ∧ F.assign j = true) → r = Res.thrown) ∧
          (r = Res.thrown → v1 = v ∧ v1.size_ ≤ v1.capacity_ ∧
            ∃ ys, Holds w1 v1 ys ∧ ys.take f = xs.take f)) ∧
      (∀ (w : World T) (v : vector) (xs : List T) (i : Nat) (x : T) (w2 : World T)
        (v2 : vector) (w1 : World T) (v1 : vector) (r : Res iterator), Holds w v xs →
        i ≤ xs.length → push_back F w v x = (w2, v2, Res.ok ()) →
        insert F w v (v.data_, i) x = (w1, v1, r) →
        ((∃ it, r = Res.ok it) ∨ r = Res.thrown) ∧
          (((∃ j, w2.copies ≤ j ∧ j < w1.copies ∧ F.copy j = true) ∨
              (∃ j, w2.assigns ≤ j ∧ j < w1.assigns ∧ F.assign j = true)) →
            r = Res.thrown) ∧
          (r = Res.thrown → v1.size_ = v.size_ + 1 ∧ v1.size_ ≤ v1.capacity_ ∧
            ∃ ys, Holds w1 v1 ys ∧ ys.take i = xs.take i)) := by
  refine ⟨?_, ?_⟩
  · intro w v xs f l w1 v1 r hH hfl hl h
    obtain ⟨h1, h2, h3⟩ := erase_weak F w v xs f l w1 v1 r hH.1 hfl hl h
    refine ⟨h1, h2, fun hr => ?_⟩
    obtain ⟨e1, ys, e2, e3⟩ := h3 hr
    subst e1
    exact ⟨rfl, hH.1.2.1, ys, ⟨e2, hH.2⟩, e3⟩
  · intro w v xs i x w2 v2 w1 v1 r hH hi hp h
    exact insert_weak F w v xs i x w2 v2 w1 v1 r hH hi hp h

theorem weak_guarantee_witness :
    Holds (built [1, 2, 3, 4]).1 (built [1, 2, 3, 4]).2.1 [1, 2, 3, 4] ∧
      ((built [1, 2, 3, 4]).2.1 = (built [1, 2, 3, 4]).2.1 ∧
        (built [1, 2, 3, 4]).2.1.size_ ≤ (built [1, 2, 3, 4]).2.1.capacity_ ∧
        ∃ ys, Holds (erase (Faults.assignAt Nat 1 0) (built [1, 2, 3, 4]).1
            (built [1, 2, 3, 4]).2.1 ((built [1, 2, 3, 4]).2.1.data_, 1)
            ((built [1, 2, 3, 4]).2.1.data_, 2)).1 (built [1, 2, 3, 4]).2.1 ys ∧
          ys.take 1 = [1, 2, 3, 4].take 1) ∧
      ((⟨3, 4, 4⟩ : vector).size_ = (built [1, 2, 3]).2.1.size_ + 1 ∧
        (⟨3, 4, 4⟩ : vector).size_ ≤ (⟨3, 4, 4⟩ : vector).capacity_ ∧
        ∃ ys, Holds (insert (Faults.assignAt Nat 1 0) (built [1, 2, 3]).1 (built [1, 2, 3]).2.1
            ((built [1, 2, 3]).2.1.data_, 0) 9).1 ⟨3, 4, 4⟩ ys ∧
          ys.take 0 = [1, 2, 3].take 0) :=
  have H := weak_guarantee (Faults.assignAt Nat 1 0)
  ⟨by decide,
    (H.1 (built [1, 2, 3, 4]).1 (built [1, 2, 3, 4]).2.1 [1, 2, 3, 4] 1 2
      (erase (Faults.assignAt Nat 1 0) (built [1, 2, 3, 4]).1 (built [1, 2, 3, 4]).2.1
        ((built [1, 2, 3, 4]).2.1.data_, 1) ((built [1, 2, 3, 4]).2.1.data_, 2)).1
      (built [1, 2, 3, 4]).2.1 Res.thrown (by decide) (by decide) (by decide) rfl).2.2 rfl,
    (H.2 (built [1, 2, 3]).1 (built [1, 2, 3]).2.1 [1, 2, 3] 0 9
      (push_back (Faults.assignAt Nat 1 0) (built [1, 2, 3]).1 (built [1, 2, 3]).2.1 9).1
      ⟨3, 4, 4⟩
      (insert (Faults.assignAt Nat 1 0) (built [1, 2, 3]).1 (built [1, 2, 3]).2.1
        ((built [1, 2, 3]).2.1.data_, 0) 9).1 ⟨3, 4, 4⟩ Res.thrown
      (by decide) (by decide) rfl rfl).2.2 rfl⟩

end vector
